import Mathlib

/-!
# heatEqn2.c : 2D heat equation with domain partitioning and ghost cells over MPI

A verification development for `src/heatEqn2.c` (namespace `HeatEqn2`), with the stack
functions of `src/cw/Assignment1/cwk1.c` (namespace `Cwk1`) and the collective count of
`src/distributedCount.c` (namespace `DistributedCount`).

Conventions of the embedding

* C `int` values (ranks, `p`, `local_L`, loop counters, array indices) are natural
  numbers.  Every subtraction in the source (`rank-p`, `rank-1`, `p-1`, `row-1`,
  `col-1`) is evaluated only where its result is non-negative, so truncated
  subtraction on `Nat` agrees with C there.  No product computed by the program
  exceeds the `int` range for any process count up to `46340 * 46340`
  (see `squareLoop_no_overflow`). Where the range matters, `int32` reduces a result
  to 32-bit two's complement: `squareLoopInt`, `setupInt` and `mainInt` are the loop
  and the checks of lines 60-78 in this arithmetic, and agree with `squareLoop`,
  `setup` and `main` up to `46340 * 46340` processes (`mainInt_eq`).
* `float` cells are rationals: the arithmetic is exact. The conversion of an `int`
  to `float` is `toFloat`; `initialiseGridFloat` applies it to `rank+1` and agrees
  with `initialiseGrid` for every rank below `2^24`.
* `#define L 8` is kept as a parameter `L`; `NUM_ITERATIONS` is the constant `10`.
* The global `local_L` is passed explicitly as the first argument of the functions
  that read it.
* The body of the iteration loop is the list `iterationBody` of guarded statements,
  one per source line. It is read in two ways: `program` is what one process
  executes, in order; `lockstep` lets all `p*p` processes execute the lines one
  after the other, exchanging messages through first-in first-out channels, one
  per ordered pair of ranks. A send puts its payload, read when the call is made,
  into the channel and returns; a blocking receive, or the wait on the request of
  a non-blocking receive, takes the oldest message of its channel.
-/

namespace HeatEqn2

/-! ## Constants -/

/-- `#define NUM_ITERATIONS 10` (line 31). -/
def NUM_ITERATIONS : Nat := 10

/-- `EXIT_SUCCESS` of `<stdlib.h>`. -/
def EXIT_SUCCESS : Nat := 0

/-- `EXIT_FAILURE` of `<stdlib.h>`. -/
def EXIT_FAILURE : Nat := 1

/-! ## Loops and indexing -/

/-- The C loop `for( i=lo; i<hi; i++ ) s = body i s`. -/
def forLoop {σ : Type} (lo hi : Nat) (body : Nat → σ → σ) (s : σ) : σ :=
  (List.range' lo (hi - lo)).foldl (fun s i => body i s) s

/-- Line 194: `int _index( int row, int col ) { return row*(local_L+2) + col; }`. -/
def _index (local_L row col : Nat) : Nat := row * (local_L + 2) + col

/-- Lines 60-61: `int p = 1; while( p*p < numProcs ) p++;`, started at the current
value of `p` and allowed `fuel` evaluations of the loop condition; `none` when the
condition still holds after `fuel` tests. Here `p` and `p*p` are integers without a
range limit, which is what the source computes as long as `p*p` stays in the range
of `int`; `squareLoopInt` below is the loop with that range. -/
def squareLoop (numProcs : Nat) : Nat → Nat → Option Nat
  | 0, _ => none
  | fuel + 1, p => if p * p < numProcs then squareLoop numProcs fuel (p + 1) else some p

/-- The value an `int` variable takes when the exact result of an operation is `x`:
32-bit two's complement, wrapping around (C leaves the overflow of `int` undefined;
this is the result the usual machine arithmetic gives). -/
def int32 (x : Int) : Int := (x + 2 ^ 31) % 2 ^ 32 - 2 ^ 31

/-- Lines 60-61 in `int` arithmetic: `int p = 1; while( p*p < numProcs ) p++;`,
started at the current value of `p` and allowed `fuel` evaluations of the loop
condition; `none` when the condition still holds after `fuel` tests. The product
`p*p` and the increment `p++` are reduced to the range of `int`. -/
def squareLoopInt (numProcs : Int) : Nat → Int → Option Int
  | 0, _ => none
  | fuel + 1, p =>
    if int32 (p * p) < numProcs then squareLoopInt numProcs fuel (int32 (p + 1)) else some p

/-! ## The statements of one iteration -/

/-- The two request handles declared at line 106. -/
inductive Handle
  | Urequest
  | Lrequest
  deriving DecidableEq

/-- The statements that make up the body of the iteration loop (lines 106-168).
Buffers inside `grid` are given by the index of their first cell; the blocking
calls of the horizontal exchange always use the scratch array `column`. -/
inductive Stmt
  /-- Line 106: `MPI_Request Urequest, Lrequest;` (both handles start uninitialised). -/
  | declareRequests
  /-- The call `MPI_Isend( &grid[buf], count, MPI_FLOAT, dest, 0, MPI_COMM_WORLD, &request )`. -/
  | MPI_Isend (buf count dest : Nat) (request : Handle)
  /-- The call `MPI_Irecv( &grid[buf], count, MPI_FLOAT, source, 0, MPI_COMM_WORLD, &request )`. -/
  | MPI_Irecv (buf count source : Nat) (request : Handle)
  /-- The loop `for( row=1; row<local_L+1; row++ ) column[row-1] = grid[_index(row,col)];`. -/
  | packColumn (col : Nat)
  /-- The call `MPI_Send( column, count, MPI_FLOAT, dest, 0, MPI_COMM_WORLD )`. -/
  | MPI_Send (count dest : Nat)
  /-- The call `MPI_Recv( column, count, MPI_FLOAT, source, 0, MPI_COMM_WORLD, ... )`. -/
  | MPI_Recv (count source : Nat)
  /-- The loop `for( row=1; row<local_L+1; row++ ) grid[_index(row,col)] = column[row-1];`. -/
  | unpackColumn (col : Nat)
  /-- Lines 146-153, the update of the interior grid points. -/
  | interiorUpdate
  /-- The call `MPI_Wait( &request, &status )`. -/
  | MPI_Wait (request : Handle)
  /-- Lines 160-168, the update of the edge cells. -/
  | edgeUpdate
  deriving DecidableEq

/-- One source statement together with the condition (on the rank) under which a
process executes it: `if( guard rank ) stmt rank`. -/
structure Line where
  guard : Nat → Bool
  stmt : Nat → Stmt

/-- Lines 101-168: the body of `for( iter=0; iter<NUM_ITERATIONS; iter++ )`, one
entry per statement, in source order. -/
def iterationBody (p local_L : Nat) : List Line :=
  let rowBlock := fun rank : Nat => rank / p
  let colBlock := fun rank : Nat => rank % p
  [ -- 106
    ⟨fun _ => true, fun _ => .declareRequests⟩,
    -- 110
    ⟨fun rank => decide (rowBlock rank > 0),
     fun rank => .MPI_Isend (_index local_L 1 1) local_L (rank - p) .Urequest⟩,
    -- 111
    ⟨fun rank => decide (rowBlock rank < p - 1),
     fun rank => .MPI_Irecv (_index local_L (local_L + 1) 1) local_L (rank + p) .Urequest⟩,
    -- 114
    ⟨fun rank => decide (rowBlock rank < p - 1),
     fun rank => .MPI_Isend (_index local_L local_L 1) local_L (rank + p) .Lrequest⟩,
    -- 115
    ⟨fun rank => decide (rowBlock rank > 0),
     fun rank => .MPI_Irecv (_index local_L 0 1) local_L (rank - p) .Lrequest⟩,
    -- 118-122
    ⟨fun rank => decide (colBlock rank > 0), fun _ => .packColumn 1⟩,
    ⟨fun rank => decide (colBlock rank > 0), fun rank => .MPI_Send local_L (rank - 1)⟩,
    -- 123-127
    ⟨fun rank => decide (colBlock rank < p - 1), fun rank => .MPI_Recv local_L (rank + 1)⟩,
    ⟨fun rank => decide (colBlock rank < p - 1), fun _ => .unpackColumn (local_L + 1)⟩,
    -- 130-134
    ⟨fun rank => decide (colBlock rank < p - 1), fun _ => .packColumn local_L⟩,
    ⟨fun rank => decide (colBlock rank < p - 1), fun rank => .MPI_Send local_L (rank + 1)⟩,
    -- 135-139
    ⟨fun rank => decide (colBlock rank > 0), fun rank => .MPI_Recv local_L (rank - 1)⟩,
    ⟨fun rank => decide (colBlock rank > 0), fun _ => .unpackColumn 0⟩,
    -- 146-153
    ⟨fun _ => true, fun _ => .interiorUpdate⟩,
    -- 156, 157
    ⟨fun _ => true, fun _ => .MPI_Wait .Urequest⟩,
    ⟨fun _ => true, fun _ => .MPI_Wait .Lrequest⟩,
    -- 160-168
    ⟨fun _ => true, fun _ => .edgeUpdate⟩ ]

/-- The statements process `rank` executes during one iteration, in program order. -/
def program (p local_L rank : Nat) : List Stmt :=
  ((iterationBody p local_L).filter (fun ln => ln.guard rank)).map (fun ln => ln.stmt rank)

/-! ## Request handles -/

/-- The value of an `MPI_Request` variable: not yet assigned, `MPI_REQUEST_NULL`
(after a completed wait), or the request created by a non-blocking call. -/
inductive HandleValue
  | uninitialised
  | null
  | active (call : Stmt)
  deriving DecidableEq

/-- The request bookkeeping of one process: the two handles, the non-blocking calls
issued and not yet completed by a wait (oldest first), and the number of
`MPI_Wait` calls made on an uninitialised handle. -/
structure Requests where
  Urequest : HandleValue
  Lrequest : HandleValue
  pending : List Stmt
  invalidWaits : Nat
  deriving DecidableEq

/-- Reading a handle. -/
def Requests.get (rq : Requests) : Handle → HandleValue
  | .Urequest => rq.Urequest
  | .Lrequest => rq.Lrequest

/-- Assigning a handle. -/
def Requests.set (rq : Requests) (h : Handle) (v : HandleValue) : Requests :=
  match h with
  | .Urequest => { rq with Urequest := v }
  | .Lrequest => { rq with Lrequest := v }

/-- No request has been issued. -/
def Requests.initial : Requests :=
  ⟨.uninitialised, .uninitialised, [], 0⟩

/-- The effect of one statement on the request bookkeeping. A non-blocking call
stores its new request in the handle it is given, overwriting what the handle held;
`MPI_Wait` completes the request its handle holds at that moment and resets the
handle to `MPI_REQUEST_NULL`. -/
def trackRequests (rq : Requests) (s : Stmt) : Requests :=
  match s with
  | .declareRequests => { rq with Urequest := .uninitialised, Lrequest := .uninitialised }
  | .MPI_Isend _ _ _ h => { rq.set h (.active s) with pending := rq.pending ++ [s] }
  | .MPI_Irecv _ _ _ h => { rq.set h (.active s) with pending := rq.pending ++ [s] }
  | .MPI_Wait h =>
    match rq.get h with
    | .active call => { rq.set h .null with pending := rq.pending.erase call }
    | .null => rq
    | .uninitialised => { rq with invalidWaits := rq.invalidWaits + 1 }
  | _ => rq

/-- The request bookkeeping of process `rank` at the moment it reaches the edge
update (line 160) of an iteration entered with bookkeeping `rq`. -/
def requestsBeforeEdge (p local_L rank : Nat) (rq : Requests) : Requests :=
  ((program p local_L rank).takeWhile (fun s => decide (s ≠ Stmt.edgeUpdate))).foldl
    trackRequests rq

/-! ## Communication partners -/

/-- The rank a statement exchanges a message with, if it is a send or a receive. -/
def Stmt.peer : Stmt → Option Nat
  | .MPI_Isend _ _ dest _ => some dest
  | .MPI_Irecv _ _ source _ => some source
  | .MPI_Send _ dest => some dest
  | .MPI_Recv _ source => some source
  | _ => none

/-- The number of floats a send or receive transfers. -/
def Stmt.count : Stmt → Option Nat
  | .MPI_Isend _ count _ _ => some count
  | .MPI_Irecv _ count _ _ => some count
  | .MPI_Send count _ => some count
  | .MPI_Recv count _ => some count
  | _ => none

/-- Whether the statement sends a message to rank `b`. -/
def Stmt.sendsTo (b : Nat) : Stmt → Bool
  | .MPI_Isend _ _ dest _ => decide (dest = b)
  | .MPI_Send _ dest => decide (dest = b)
  | _ => false

/-- Whether the statement posts a receive from rank `a`. -/
def Stmt.receivesFrom (a : Nat) : Stmt → Bool
  | .MPI_Irecv _ _ source _ => decide (source = a)
  | .MPI_Recv _ source => decide (source = a)
  | _ => false

/-- The ranks process `rank` sends to or receives from during one iteration. -/
def peers (p local_L rank : Nat) : List Nat :=
  (program p local_L rank).filterMap Stmt.peer

/-- Ranks `a` and `b` occupy neighbouring positions of the `p x p` topology: same
row and adjacent columns, or same column and adjacent rows. -/
def adjacent (p a b : Nat) : Prop :=
  (a / p = b / p ∧ (a % p + 1 = b % p ∨ b % p + 1 = a % p)) ∨
  (a % p = b % p ∧ (a / p + 1 = b / p ∨ b / p + 1 = a / p))

instance (p a b : Nat) : Decidable (adjacent p a b) := by
  unfold adjacent; infer_instance

/-! ## Grids and the stencil -/

/-- Writing one cell of an array: `a[i] = v`. -/
def setCell (a : Nat → ℚ) (i : Nat) (v : ℚ) : Nat → ℚ :=
  fun j => if j = i then v else a j

/-- The right-hand side of lines 148-153 and 163-168, read from the current grid. -/
def stencil (local_L : Nat) (grid : Nat → ℚ) (row col : Nat) : ℚ :=
  (1 / 4 : ℚ) * (grid (_index local_L (row + 1) col)
                + grid (_index local_L (row - 1) col)
                + grid (_index local_L row (col + 1))
                + grid (_index local_L row (col - 1)))

/-- Lines 146-153: the in-place update of the interior grid points. -/
def interiorUpdate (local_L : Nat) (grid : Nat → ℚ) : Nat → ℚ :=
  forLoop 2 local_L (fun row grid =>
    forLoop 2 local_L (fun col grid =>
      setCell grid (_index local_L row col) (stencil local_L grid row col)) grid) grid

/-- Lines 160-168: the in-place update of the edge cells. -/
def edgeUpdate (local_L : Nat) (grid : Nat → ℚ) : Nat → ℚ :=
  forLoop 1 (local_L + 1) (fun row grid =>
    forLoop 1 (local_L + 1) (fun col grid =>
      if row = 1 ∨ row = local_L ∨ col = 1 ∨ col = local_L then
        setCell grid (_index local_L row col) (stencil local_L grid row col)
      else grid) grid) grid

/-- Lines 197-210: `initialiseGrid( grid, rank, p )`, with `l = local_L`. The value
`rank+1` is stored exactly, which is what the source does as long as `rank+1` is a
`float`, that is up to `2^24`; `initialiseGridFloat` below has the conversion. -/
def initialiseGrid (local_L rank : Nat) (grid : Nat → ℚ) : Nat → ℚ :=
  let l := local_L
  let grid := forLoop 0 (l + 2) (fun i grid =>
    forLoop 0 (l + 2) (fun j grid => setCell grid (_index local_L i j) 0) grid) grid
  forLoop 1 (l + 1) (fun i grid =>
    forLoop 1 (l + 1) (fun j grid => setCell grid (_index local_L i j) ((rank : ℚ) + 1)) grid) grid

/-- The spacing of the `float` values around the integer `n ≥ 0` (IEEE 754 single
precision: 24 significant bits), found by halving `n` at most `fuel` times. -/
def ulp : Nat → Nat → Nat
  | 0, _ => 1
  | fuel + 1, n => if n < 2 ^ 24 then 1 else 2 * ulp fuel (n / 2)

/-- The conversion of the `int` value `n ≥ 0` to `float` (round to nearest, the
default mode): the nearest multiple of the spacing, the one with the even quotient
when two are equally near. -/
def toFloat (n : Nat) : ℚ :=
  let ulp := ulp n n
  let q := n / ulp
  let r := n % ulp
  if 2 * r < ulp ∨ (2 * r = ulp ∧ q % 2 = 0) then ((q * ulp : Nat) : ℚ)
  else (((q + 1) * ulp : Nat) : ℚ)

/-- Lines 197-210 with the conversion of line 209 made explicit: the `int` value
`rank+1` is converted to `float` when it is stored in `grid`. -/
def initialiseGridFloat (local_L rank : Nat) (grid : Nat → ℚ) : Nat → ℚ :=
  let l := local_L
  let grid := forLoop 0 (l + 2) (fun i grid =>
    forLoop 0 (l + 2) (fun j grid => setCell grid (_index local_L i j) 0) grid) grid
  forLoop 1 (l + 1) (fun i grid =>
    forLoop 1 (l + 1) (fun j grid =>
      setCell grid (_index local_L i j) (toFloat (rank + 1))) grid) grid

/-- The `count` values of the array `a` starting at index `buf`: a message payload. -/
def readFrom (a : Nat → ℚ) (buf count : Nat) : List ℚ :=
  (List.range count).map (fun i => a (buf + i))

/-- Storing a received payload in the array `a` from index `buf` on. -/
def storeAt (a : Nat → ℚ) (buf : Nat) (msg : List ℚ) : Nat → ℚ :=
  fun i => if buf ≤ i ∧ i < buf + msg.length then msg.getD (i - buf) 0 else a i

/-! ## Processes and the lockstep execution of all of them -/

/-- The state of one process: its grid, the scratch array `column`, its request
bookkeeping, and whether a receive of it found no message to take. -/
structure Proc where
  grid : Nat → ℚ
  column : Nat → ℚ
  req : Requests
  starved : Bool

/-- All processes, and the messages in flight: `chan src dst` lists the payloads
sent by `src` to `dst` and not yet received, oldest first (every message of the
program has tag 0 on `MPI_COMM_WORLD`, and MPI matches the messages of one sender
to one receiver in the order they were sent). -/
structure World where
  proc : Nat → Proc
  chan : Nat → Nat → List (List ℚ)

/-- The rank a statement needs a message from in order to complete: the source of a
blocking receive, or of the receive whose request the waited handle holds. -/
def Stmt.awaits (rq : Requests) : Stmt → Option Nat
  | .MPI_Recv _ source => some source
  | .MPI_Wait h =>
    match rq.get h with
    | .active (.MPI_Irecv _ _ source _) => some source
    | _ => none
  | _ => none

/-- The destination and payload of the message a statement sends; the payload is
read from the buffer when the call is made. -/
def Stmt.emits (pr : Proc) : Stmt → Option (Nat × List ℚ)
  | .MPI_Isend buf count dest _ => some (dest, readFrom pr.grid buf count)
  | .MPI_Send count dest => some (dest, readFrom pr.column 0 count)
  | _ => none

/-- The effect of statement `s` on the state of the process executing it;
`incoming` is the oldest message in flight from the rank the statement awaits. The
data of a non-blocking receive is stored when the wait on its request completes. -/
def execLocal (local_L : Nat) (s : Stmt) (incoming : Option (List ℚ)) (pr : Proc) : Proc :=
  let pr' : Proc := { pr with req := trackRequests pr.req s }
  match s with
  | .packColumn col =>
    { pr' with column := forLoop 1 (local_L + 1) (fun row column =>
        setCell column (row - 1) (pr.grid (_index local_L row col))) pr.column }
  | .unpackColumn col =>
    { pr' with grid := forLoop 1 (local_L + 1) (fun row grid =>
        setCell grid (_index local_L row col) (pr.column (row - 1))) pr.grid }
  | .MPI_Recv count _ =>
    match incoming with
    | some msg => { pr' with column := storeAt pr.column 0 (msg.take count) }
    | none => { pr' with starved := true }
  | .MPI_Wait h =>
    match pr.req.get h with
    | .active (.MPI_Irecv buf count _ _) =>
      match incoming with
      | some msg => { pr' with grid := storeAt pr.grid buf (msg.take count) }
      | none => { pr' with starved := true }
    | _ => pr'
  | .interiorUpdate => { pr' with grid := interiorUpdate local_L pr.grid }
  | .edgeUpdate => { pr' with grid := edgeUpdate local_L pr.grid }
  | _ => pr'

/-- All `numProcs` processes execute the same source line: every process whose
guard holds executes its statement, taking the message it awaits from the channel
and appending the message it sends. -/
def execLine (numProcs local_L : Nat) (ln : Line) (W : World) : World :=
  let runs := fun rank : Nat => decide (rank < numProcs) && ln.guard rank
  { proc := fun rank =>
      if runs rank then
        execLocal local_L (ln.stmt rank)
          (((ln.stmt rank).awaits (W.proc rank).req).bind
            (fun source => (W.chan source rank).head?))
          (W.proc rank)
      else W.proc rank
    chan := fun src dst =>
      let taken :=
        if runs dst ∧ (ln.stmt dst).awaits (W.proc dst).req = some src
        then (W.chan src dst).tail else W.chan src dst
      if runs src then
        match (ln.stmt src).emits (W.proc src) with
        | some (dest, msg) => if dest = dst then taken ++ [msg] else taken
        | none => taken
      else taken }

/-- Lockstep execution of a list of source lines by `p*p` processes. -/
def lockstep (p local_L : Nat) (lines : List Line) (W : World) : World :=
  lines.foldl (fun W ln => execLine (p * p) local_L ln W) W

/-- One iteration of the loop of line 98, by all processes. -/
def iteration (p local_L : Nat) (W : World) : World :=
  lockstep p local_L (iterationBody p local_L) W

/-- The state when the loop is entered: every grid as left by `initialiseGrid`
(line 82; `displayGrid` only reads it), nothing in flight. `freshGrid rank` and `freshColumn rank` are the
(arbitrary) contents of the memory the two `malloc` calls of lines 79 and 89 return
to process `rank`. -/
def initialWorld (local_L : Nat) (freshGrid freshColumn : Nat → Nat → ℚ) : World :=
  { proc := fun rank =>
      { grid := initialiseGrid local_L rank (freshGrid rank)
        column := freshColumn rank
        req := Requests.initial
        starved := false }
    chan := fun _ _ => [] }

/-- The state after `n` iterations. -/
def run (p local_L : Nat) (freshGrid freshColumn : Nat → Nat → ℚ) : Nat → World
  | 0 => initialWorld local_L freshGrid freshColumn
  | n + 1 => iteration p local_L (run p local_L freshGrid freshColumn n)

/-! ## The control flow of `main` -/

/-- The externally visible actions of one process. `printf` carries its format string
and its integer arguments; `displayGrid` stands for one call of that function, and
`stmt iter s` for statement `s` of iteration `iter`. -/
inductive Action
  | MPI_Init
  | MPI_Comm_size
  | MPI_Comm_rank
  | MPI_Wtime
  | MPI_Finalize
  | printf (format : String) (args : List Nat)
  | malloc (floats : Nat)
  | free
  | initialiseGrid (rank p : Nat)
  | displayGrid (rank p : Nat)
  | stmt (iter : Nat) (s : Stmt)
  deriving DecidableEq

/-- Line 64. -/
def squareMessage : String :=
  "Must execute using a square number of processes (4,9,...).\n"

/-- Line 72. -/
def multipleMessage : String :=
  "Grid dimension %d needs to be a multiple of the number of processes per side %d.\n"

/-- Lines 53-78 of `main`: initialisation and the two configuration checks. The
result is the list of actions so far together with `none` when the process returns
`EXIT_FAILURE` (lines 66, 74) or `some (p, local_L)` when it goes on to line 79.
The outer `none` arises only if the loop of lines 60-61 has not ended after
`numProcs + 1` tests of its condition. -/
def setup (L numProcs rank : Nat) : Option (List Action × Option (Nat × Nat)) :=
  match squareLoop numProcs (numProcs + 1) 1 with
  | none => none
  | some p =>
    let init : List Action := [.MPI_Init, .MPI_Comm_size, .MPI_Comm_rank]
    if p * p ≠ numProcs then
      some (init ++ (if rank = 0 then [.printf squareMessage []] else [])
              ++ [.MPI_Finalize], none)
    else if L % p ≠ 0 then
      some (init ++ (if rank = 0 then [.printf multipleMessage [L, p]] else [])
              ++ [.MPI_Finalize], none)
    else
      some (init, some (p, L / p))

/-- Lines 79-185 of `main`, for a process that passed the checks. -/
def compute (p local_L rank : Nat) : List Action :=
  [.malloc ((local_L + 2) * (local_L + 2)), .initialiseGrid rank p]
  ++ (if rank = 0 then [.printf "Initial grid:\n" []] else [])
  ++ [.displayGrid rank p, .malloc local_L, .MPI_Wtime]
  ++ (List.range NUM_ITERATIONS).flatMap
        (fun iter => (program p local_L rank).map (Action.stmt iter))
  ++ [.MPI_Wtime]
  ++ (if rank = 0 then [.printf "\nFinal grid:\n" []] else [])
  ++ [.displayGrid rank p]
  ++ (if rank = 0 then [.printf "\nTime taken: %g s.\n" []] else [])
  ++ [.free, .free, .MPI_Finalize]

/-- Lines 47-186: the actions of process `rank` of `numProcs` and its return value. -/
def main (L numProcs rank : Nat) : Option (List Action × Nat) :=
  match setup L numProcs rank with
  | none => none
  | some (acts, none) => some (acts, EXIT_FAILURE)
  | some (acts, some (p, local_L)) => some (acts ++ compute p local_L rank, EXIT_SUCCESS)

/-- Lines 53-78 of `main` in `int` arithmetic, with `fuel` tests of the condition of
the loop of lines 60-61 allowed: as `setup`, but the products `p*p` of lines 61 and
62 are reduced to the range of `int`, and `L % p`, `L / p` are the truncating
operations of C. The result is `none` if the loop has not ended after `fuel` tests. -/
def setupInt (fuel L numProcs rank : Nat) : Option (List Action × Option (Nat × Nat)) :=
  match squareLoopInt numProcs fuel 1 with
  | none => none
  | some p =>
    let init : List Action := [.MPI_Init, .MPI_Comm_size, .MPI_Comm_rank]
    if int32 (p * p) ≠ numProcs then
      some (init ++ (if rank = 0 then [.printf squareMessage []] else [])
              ++ [.MPI_Finalize], none)
    else if Int.tmod L p ≠ 0 then
      some (init ++ (if rank = 0 then [.printf multipleMessage [L, p.toNat]] else [])
              ++ [.MPI_Finalize], none)
    else
      some (init, some (p.toNat, (Int.tdiv L p).toNat))

/-- Lines 47-186 in `int` arithmetic: the actions of process `rank` of `numProcs` and
its return value, `none` if the loop of lines 60-61 has not ended after `fuel` tests
of its condition. -/
def mainInt (fuel L numProcs rank : Nat) : Option (List Action × Nat) :=
  match setupInt fuel L numProcs rank with
  | none => none
  | some (acts, none) => some (acts, EXIT_FAILURE)
  | some (acts, some (p, local_L)) => some (acts ++ compute p local_L rank, EXIT_SUCCESS)

/-! ## Predicates used in the proofs -/

/-- Cell `(i, j)` of the grid of process `w` is a halo cell on a side where `w` has
no neighbour, or one of the four corner cells. -/
def boundaryCell (p local_L w i j : Nat) : Prop :=
  (i = 0 ∧ (w / p = 0 ∨ j = 0 ∨ j = local_L + 1)) ∨
  (i = local_L + 1 ∧ (w / p = p - 1 ∨ j = 0 ∨ j = local_L + 1)) ∨
  (j = 0 ∧ w % p = 0) ∨
  (j = local_L + 1 ∧ w % p = p - 1)

/-- The receives a handle of process `w` can hold: `Urequest` only the receive of
line 111 and `Lrequest` only the receive of line 115. -/
def handlesOK (p local_L w : Nat) (rq : Requests) : Prop :=
  (∀ buf count src h, rq.Urequest = .active (.MPI_Irecv buf count src h) →
      buf = _index local_L (local_L + 1) 1 ∧ count = local_L ∧ w / p < p - 1) ∧
  (∀ buf count src h, rq.Lrequest = .active (.MPI_Irecv buf count src h) →
      buf = _index local_L 0 1 ∧ count = local_L ∧ 0 < w / p)

/-- The handles of process `w` are as in `handlesOK` and all its boundary cells are
zero. -/
def zeroBoundary (p local_L w : Nat) (pr : Proc) : Prop :=
  handlesOK p local_L w pr.req ∧
  ∀ i j, i ≤ local_L + 1 → j ≤ local_L + 1 → boundaryCell p local_L w i j →
    pr.grid (_index local_L i j) = 0

/-! ## The position of a rank in the topology -/

/-- Line 101: `int rowBlock = rank / p, colBlock = rank % p;`, the position of
process `rank` in the `p x p` topology, as the iteration loop computes it. -/
def position (p rank : Nat) : Nat × Nat := (rank / p, rank % p)

/-- Line 258 of `displayGrid`: `source = p*rowBlock + colBlock;`, the rank of the
process at position `(rowBlock, colBlock)`. -/
def source (p rowBlock colBlock : Nat) : Nat := p * rowBlock + colBlock

/-! ## Array accesses of the two update loops -/

/-- The arrays of the program. -/
inductive Buffer
  | grid
  | column
  | scratch
  deriving DecidableEq

/-- One access to an element of an array. -/
inductive Access
  | read (buffer : Buffer) (index : Nat)
  | write (buffer : Buffer) (index : Nat)
  deriving DecidableEq

/-- The accesses of one assignment of lines 148-153 (and of lines 163-168): the four
reads of the right-hand side, then the write of `grid[_index(row,col)]`. -/
def stencilAccesses (local_L row col : Nat) : List Access :=
  [ .read .grid (_index local_L (row + 1) col),
    .read .grid (_index local_L (row - 1) col),
    .read .grid (_index local_L row (col + 1)),
    .read .grid (_index local_L row (col - 1)),
    .write .grid (_index local_L row col) ]

/-- Lines 146-153: the accesses of the interior update, in order. -/
def interiorAccesses (local_L : Nat) : List Access :=
  forLoop 2 local_L (fun row acc =>
    forLoop 2 local_L (fun col acc => acc ++ stencilAccesses local_L row col) acc) []

/-- Lines 160-168: the accesses of the edge update, in order. -/
def edgeAccesses (local_L : Nat) : List Access :=
  forLoop 1 (local_L + 1) (fun row acc =>
    forLoop 1 (local_L + 1) (fun col acc =>
      if row = 1 ∨ row = local_L ∨ col = 1 ∨ col = local_L then
        acc ++ stencilAccesses local_L row col
      else acc) acc) []

/-! ## The unpartitioned reference stencil -/

/-- One sweep of the reference stencil of the specification on an `L x L` grid with
a halo border: every cell `(i, j)` with `1 ≤ i, j ≤ L` is replaced, all at once, by a
quarter of the sum of its four neighbours in the given grid; the halo is kept. -/
def referenceSweep (L : Nat) (grid : Nat → ℚ) : Nat → ℚ :=
  fun x =>
    let i := x / (L + 2)
    let j := x % (L + 2)
    if 1 ≤ i ∧ i ≤ L ∧ 1 ≤ j ∧ j ≤ L then
      (1 / 4 : ℚ) * (grid (_index L (i + 1) j) + grid (_index L (i - 1) j)
                    + grid (_index L i (j + 1)) + grid (_index L i (j - 1)))
    else grid x

/-- The grid after `n` sweeps of the reference stencil. -/
def reference (L : Nat) (grid : Nat → ℚ) : Nat → (Nat → ℚ)
  | 0 => grid
  | n + 1 => referenceSweep L (reference L grid n)

/-! ## `displayGrid` -/

/-- One call of `printf`: the format string and the argument, if there is one. -/
structure Print where
  format : String
  arg : Option ℚ
  deriving DecidableEq

/-- The MPI calls of `displayGrid`: line 263 sends `count` floats of `grid` starting
at index `buf`, line 274 receives `count` floats into `scratch`. -/
inductive DisplayCall
  | MPI_Send (buf count dest : Nat)
  | MPI_Recv (count source : Nat)
  deriving DecidableEq

/-- The state of all processes while they execute `displayGrid` in lockstep: the
messages in flight (as in `World`), and for each rank its array `scratch`, what it
has printed, the MPI calls it has made, and whether a receive found no message. -/
structure Display where
  chan : Nat → Nat → List (List ℚ)
  scratch : Nat → Nat → ℚ
  out : Nat → List Print
  calls : Nat → List DisplayCall
  starved : Nat → Bool

/-- The statement `if( rank==0 ) printf( ... )`, for a sequence of `printf` calls. -/
def print0 (items : List Print) (D : Display) : Display :=
  { D with out := fun rank => if rank = 0 then D.out rank ++ items else D.out rank }

/-- Lines 232-238 (and 301-307): the row of zero boundary values, as printed. -/
def boundaryLine (p l : Nat) : List Print :=
  let out : List Print := [⟨"%6.3f | ", some 0⟩]
  let out := forLoop 0 p (fun _ out =>
    let out := forLoop 1 (l + 1) (fun _ out => out ++ [⟨"%6.3f ", some 0⟩]) out
    out ++ [⟨"| ", none⟩]) out
  out ++ [⟨"%6.3f\n", some 0⟩]

/-- Lines 240-241 (and 290-291, 298-299): a divider line, as printed. -/
def divider (p l : Nat) : List Print :=
  forLoop 0 (7 * (p * l + 2) + 2 * (p + 1) - 1) (fun _ out => out ++ [⟨"-", none⟩]) []
    ++ [⟨"\n", none⟩]

/-- Lines 258-280: the body of the loop over `colBlock`, executed by all processes.
First the process whose rank is `source`, unless it is rank 0, sends row `row` of its
grid to rank 0 (lines 261-263); then rank 0 prints the row, from its own grid if
`source` is 0 and otherwise from `scratch` after receiving it from `source`
(lines 266-277), and prints the block separator (line 280). -/
def displayBlock (p l : Nat) (grid : Nat → Nat → ℚ) (rowBlock row colBlock : Nat)
    (D : Display) : Display :=
  let source := source p rowBlock colBlock
  let D : Display :=
    { D with
      chan := fun src dst =>
        if (src ≠ 0 ∧ source = src) ∧ dst = 0 then
          D.chan src dst ++ [readFrom (grid src) (_index l row 1) l]
        else D.chan src dst
      calls := fun rank =>
        if rank ≠ 0 ∧ source = rank then D.calls rank ++ [.MPI_Send (_index l row 1) l 0]
        else D.calls rank }
  let D : Display :=
    if source = 0 then
      print0 (forLoop 1 (l + 1) (fun col out =>
        out ++ [⟨"%6.3f ", some (grid 0 (_index l row col))⟩]) []) D
    else
      match D.chan source 0 with
      | msg :: rest =>
        let scratch := storeAt (D.scratch 0) 0 (msg.take l)
        print0 (forLoop 1 (l + 1) (fun col out =>
          out ++ [⟨"%6.3f ", some (scratch (col - 1))⟩]) [])
          { D with
            chan := fun src dst => if src = source ∧ dst = 0 then rest else D.chan src dst
            scratch := fun rank => if rank = 0 then scratch else D.scratch rank
            calls := fun rank =>
              if rank = 0 then D.calls rank ++ [.MPI_Recv l source] else D.calls rank }
      | [] =>
        { D with
          starved := fun rank => if rank = 0 then true else D.starved rank
          calls := fun rank =>
            if rank = 0 then D.calls rank ++ [.MPI_Recv l source] else D.calls rank }
  print0 [⟨"| ", none⟩] D

/-- Lines 214-312: `displayGrid( grid, rank, p )` executed by all processes in
lockstep, with `l = local_L`; `grid rank` is the grid of process `rank`. -/
def displayGrid (L p l : Nat) (grid : Nat → Nat → ℚ) (D : Display) : Display :=
  if L > 32 then
    print0 [⟨"Not displaying grid; too big.\n", none⟩] D
  else
    let D := print0 (boundaryLine p l ++ divider p l) D
    let D := forLoop 0 p (fun rowBlock D =>
      let D := forLoop 1 (l + 1) (fun row D =>
        let D := print0 [⟨"%6.3f | ", some 0⟩] D
        let D := forLoop 0 p (fun colBlock D => displayBlock p l grid rowBlock row colBlock D) D
        print0 [⟨"%6.3f\n", some 0⟩] D) D
      if rowBlock ≠ p - 1 then print0 (divider p l) D else D) D
    print0 (divider p l ++ boundaryLine p l) D

/-- The state in which `displayGrid` is entered: nothing in flight, nothing printed
yet; `fresh rank` is the content of the memory `malloc` (line 227) returns. -/
def Display.start (fresh : Nat → Nat → ℚ) : Display :=
  { chan := fun _ _ => []
    scratch := fresh
    out := fun _ => []
    calls := fun _ => []
    starved := fun _ => false }

/-- The values of row `row` of the grid `g`, columns `1 .. l`, as printed. -/
def rowValues (l : Nat) (g : Nat → ℚ) (row : Nat) : List Print :=
  (List.range' 1 l).map (fun col => ⟨"%6.3f ", some (g (_index l row col))⟩)

/-- The MPI call process `rank` makes in one pass of the loop over `colBlock`. -/
def blockCalls (p l rowBlock row colBlock rank : Nat) : List DisplayCall :=
  if rank ≠ 0 ∧ source p rowBlock colBlock = rank then [.MPI_Send (_index l row 1) l 0]
  else if rank = 0 ∧ source p rowBlock colBlock ≠ 0 then
    [.MPI_Recv l (source p rowBlock colBlock)]
  else []

/-- A piece of `displayGrid` that takes `D` to `D'` prints `o` on rank 0 and nothing
elsewhere, adds the calls `c rank` to the calls of every rank, lets no receive
starve and leaves nothing in flight. -/
structure Shows (D D' : Display) (o : List Print) (c : Nat → List DisplayCall) : Prop where
  chan : ∀ s d, D'.chan s d = []
  out0 : D'.out 0 = D.out 0 ++ o
  out : ∀ r, r ≠ 0 → D'.out r = D.out r
  calls : ∀ r, D'.calls r = D.calls r ++ c r
  starved : D'.starved = D.starved

/-- One line of grid values as `displayGrid` prints it: row `row` of the processes
of block row `rowBlock`, between the two boundary values. -/
def dataLine (p l : Nat) (grid : Nat → Nat → ℚ) (rowBlock row : Nat) : List Print :=
  [⟨"%6.3f | ", some 0⟩]
    ++ (List.range p).flatMap (fun colBlock =>
          rowValues l (grid (source p rowBlock colBlock)) row ++ [⟨"| ", none⟩])
    ++ [⟨"%6.3f\n", some 0⟩]

/-- Everything rank 0 prints in one call of `displayGrid` when `L ≤ 32`. -/
def displayOutput (p l : Nat) (grid : Nat → Nat → ℚ) : List Print :=
  (boundaryLine p l ++ divider p l)
    ++ (List.range p).flatMap (fun rowBlock =>
          (List.range' 1 l).flatMap (fun row => dataLine p l grid rowBlock row)
            ++ (if rowBlock ≠ p - 1 then divider p l else []))
    ++ (divider p l ++ boundaryLine p l)

/-- The MPI calls process `rank` makes in one call of `displayGrid` when `L ≤ 32`. -/
def displayCalls (p l rank : Nat) : List DisplayCall :=
  (List.range p).flatMap (fun rowBlock =>
    (List.range' 1 l).flatMap (fun row =>
      (List.range p).flatMap (fun colBlock => blockCalls p l rowBlock row colBlock rank)))


/-! ## The layout of the displayed grid -/

/-- A boundary line of the display: the value 0 for the left boundary column, `p`
groups of `l` zeros each followed by a bar, and the value 0 for the right boundary
column, ended by a newline. -/
def zeroLine (p l : Nat) : List Print :=
  [⟨"%6.3f | ", some 0⟩]
    ++ (List.range p).flatMap (fun _ =>
          List.replicate l (⟨"%6.3f ", some 0⟩ : Print) ++ [⟨"| ", none⟩])
    ++ [⟨"%6.3f\n", some 0⟩]

/-- A divider line of the display: dashes ended by a newline. -/
def dashes (p l : Nat) : List Print :=
  List.replicate (7 * (p * l + 2) + 2 * (p + 1) - 1) (⟨"-", none⟩ : Print) ++ [⟨"\n", none⟩]

/-- The lines of the display, top to bottom: a boundary line, a divider, `p` blocks of
`l` data lines with a divider between consecutive blocks, a divider, a boundary
line. -/
def layout (p l : Nat) (grid : Nat → Nat → ℚ) : List (List Print) :=
  [zeroLine p l, dashes p l]
    ++ (List.range p).flatMap (fun rowBlock =>
          (List.range' 1 l).map (fun row => dataLine p l grid rowBlock row)
            ++ (if rowBlock ≠ p - 1 then [dashes p l] else []))
    ++ [dashes p l, zeroLine p l]

/-! ## Reading the displayed grid back -/

/-- Whether a call of `printf` ends the current line of output. -/
def endsLine (pr : Print) : Bool := pr.format.data.getLast? == some '\n'

/-- The lines of a printed output: each ends with the first call of `printf` whose
format ends in a newline. -/
def splitLines : List Print → List (List Print)
  | [] => []
  | pr :: rest =>
    if endsLine pr then [pr] :: splitLines rest
    else
      match splitLines rest with
      | [] => [[pr]]
      | line :: more => (pr :: line) :: more

/-- The values a line shows between its first and its last value, if it shows any
value at all. -/
def inner (line : List Print) : Option (List ℚ) :=
  match line.filterMap Print.arg with
  | [] => none
  | _ :: values => some values.dropLast

/-- The data lines of a displayed grid: of the lines that show values, all but the
first and the last (the two boundary lines), each without its first and last value
(the two boundary columns). -/
def dataRows (out : List Print) : List (List ℚ) :=
  ((splitLines out).filterMap inner).tail.dropLast

/-- The values of row `row` of the processes of block row `rowBlock`, left to
right. -/
def blockRow (p l : Nat) (grid : Nat → Nat → ℚ) (rowBlock row : Nat) : List ℚ :=
  (List.range p).flatMap (fun colBlock =>
    (List.range' 1 l).map (fun col => grid (source p rowBlock colBlock) (_index l row col)))


/-! ## Array accesses of the other parts of the program -/

/-- The array an access goes to. -/
def Access.buffer : Access → Buffer
  | .read buffer _ => buffer
  | .write buffer _ => buffer

/-- Lines 197-210: the accesses of `initialiseGrid`, in order. -/
def initialiseGridAccesses (local_L : Nat) : List Access :=
  let l := local_L
  let acc := forLoop 0 (l + 2) (fun i acc =>
    forLoop 0 (l + 2) (fun j acc => acc ++ [.write .grid (_index local_L i j)]) acc) []
  forLoop 1 (l + 1) (fun i acc =>
    forLoop 1 (l + 1) (fun j acc => acc ++ [.write .grid (_index local_L i j)]) acc) acc

/-- The accesses of a call that sends `count` elements of `buffer` from index `buf`
on. -/
def sendAccesses (buffer : Buffer) (buf count : Nat) : List Access :=
  (List.range count).map (fun k => .read buffer (buf + k))

/-- The accesses of a call that receives `count` elements into `buffer` from index
`buf` on. -/
def recvAccesses (buffer : Buffer) (buf count : Nat) : List Access :=
  (List.range count).map (fun k => .write buffer (buf + k))

/-- The accesses of one statement of the iteration body. The calls of lines 110-115
are given `&grid[...]`, those of lines 121, 125, 133 and 137 are given `column`. -/
def Stmt.accesses (local_L : Nat) : Stmt → List Access
  | .declareRequests => []
  | .MPI_Isend buf count _ _ => sendAccesses .grid buf count
  | .MPI_Irecv buf count _ _ => recvAccesses .grid buf count
  | .packColumn col =>
    forLoop 1 (local_L + 1) (fun row acc =>
      acc ++ [.read .grid (_index local_L row col), .write .column (row - 1)]) []
  | .MPI_Send count _ => sendAccesses .column 0 count
  | .MPI_Recv count _ => recvAccesses .column 0 count
  | .unpackColumn col =>
    forLoop 1 (local_L + 1) (fun row acc =>
      acc ++ [.read .column (row - 1), .write .grid (_index local_L row col)]) []
  | .interiorUpdate => interiorAccesses local_L
  | .MPI_Wait _ => []
  | .edgeUpdate => edgeAccesses local_L

/-- Lines 258-277: the accesses of process `rank` in one pass of the loop over
`colBlock` of `displayGrid`. -/
def blockAccesses (p l rank rowBlock row colBlock : Nat) : List Access :=
  let source := source p rowBlock colBlock
  (if rank ≠ 0 ∧ source = rank then sendAccesses .grid (_index l row 1) l else [])
  ++ (if rank = 0 then
        if source = 0 then
          forLoop 1 (l + 1) (fun col acc => acc ++ [.read .grid (_index l row col)]) []
        else
          forLoop 1 (l + 1) (fun col acc => acc ++ [.read .scratch (col - 1)])
            (recvAccesses .scratch 0 l)
      else [])

/-- Lines 214-312: the accesses of process `rank` in `displayGrid`, in order. -/
def displayAccesses (L p l rank : Nat) : List Access :=
  if L > 32 then []
  else
    forLoop 0 p (fun rowBlock acc =>
      forLoop 1 (l + 1) (fun row acc =>
        forLoop 0 p (fun colBlock acc =>
          acc ++ blockAccesses p l rank rowBlock row colBlock) acc) acc) []

/-- The array accesses of one action of `main`. -/
def Action.accesses (L local_L : Nat) : Action → List Access
  | .initialiseGrid _ _ => initialiseGridAccesses local_L
  | .displayGrid rank p => displayAccesses L p local_L rank
  | .stmt _ s => s.accesses local_L
  | _ => []

/-! ## Failed allocations -/

/-- The course of a trace of actions when `malloc` returned `NULL` for the arrays
`null`: the program never compares a pointer with `NULL`, so the actions are those
of the trace, up to the first access through a null pointer. The result is `none`
when there is no such access and the trace is executed to its end, and otherwise
the actions completed before that access, and the access. -/
def firstFault (null : Buffer → Bool) (L local_L : Nat) :
    List Action → Option (List Action × Access)
  | [] => none
  | a :: rest =>
    match (a.accesses L local_L).find? (fun x => null x.buffer) with
    | some x => some ([], x)
    | none => (firstFault null L local_L rest).map (fun r => (a :: r.1, r.2))


/-! ## The blocking horizontal exchange with synchronous sends -/

/-- Lines 118-139: the statements of the blocking horizontal exchange that process
`rank` executes, in program order. -/
def horizontal (p local_L rank : Nat) : List Stmt :=
  ((((iterationBody p local_L).drop 5).take 8).filter (fun ln => ln.guard rank)).map
    (fun ln => ln.stmt rank)

/-- One step of the horizontal exchange of all `p*p` processes when `MPI_Send` is
synchronous; `done w` is the number of statements of `horizontal p local_L w` that
process `w` has completed. A process whose next statement packs or unpacks a column
completes it on its own. A process `a` whose next statement is `MPI_Send` to `b`
completes it only together with `b`, when the next statement of `b` is `MPI_Recv`
from `a` with room for the message; both calls return in the same step. -/
inductive SyncStep (p local_L : Nat) : (Nat → Nat) → (Nat → Nat) → Prop
  | pack (done : Nat → Nat) (w col : Nat) :
      w < p * p → (horizontal p local_L w)[done w]? = some (.packColumn col) →
      SyncStep p local_L done (Function.update done w (done w + 1))
  | unpack (done : Nat → Nat) (w col : Nat) :
      w < p * p → (horizontal p local_L w)[done w]? = some (.unpackColumn col) →
      SyncStep p local_L done (Function.update done w (done w + 1))
  | transfer (done : Nat → Nat) (a b n m : Nat) :
      a < p * p → b < p * p →
      (horizontal p local_L a)[done a]? = some (.MPI_Send n b) →
      (horizontal p local_L b)[done b]? = some (.MPI_Recv m a) → n ≤ m →
      SyncStep p local_L done
        (Function.update (Function.update done a (done a + 1)) b (done b + 1))

/-- The number of statements of lines 118-122 process `w` executes. -/
def leftPhase (p w : Nat) : Nat := if 0 < w % p then 2 else 0

/-- The number of statements of lines 123-134 process `w` executes. -/
def rightPhase (p w : Nat) : Nat := if w % p < p - 1 then 4 else 0

/-- A state of the synchronous exchange in which no process is past the end of its
statements and, for every process `w` with a right neighbour, `w` has completed its
receive from `w+1` exactly if `w+1` has completed its send to `w`, and `w` has
completed its send to `w+1` exactly if `w+1` has completed its receive from `w`. -/
def Matched (p : Nat) (done : Nat → Nat) : Prop :=
  ∀ w, w < p * p →
    done w ≤ leftPhase p w + rightPhase p w + leftPhase p w ∧
    (w % p < p - 1 →
      (leftPhase p w + 1 ≤ done w ↔ 2 ≤ done (w + 1)) ∧
      (leftPhase p w + 4 ≤ done w ↔
        leftPhase p (w + 1) + rightPhase p (w + 1) + 1 ≤ done (w + 1)))

/-- The number of statements of the horizontal exchange completed by all `p*p`
processes together. -/
def completed (p : Nat) (done : Nat → Nat) : Nat :=
  (Finset.range (p * p)).sum done


/-! ## The accesses of one iteration -/

/-- The array accesses of process `rank` in one iteration, in program order. -/
def iterationAccesses (p local_L rank : Nat) : List Access :=
  (program p local_L rank).flatMap (Stmt.accesses local_L)


/-! ## Bounds of the arrays -/

/-- The index an access goes to. -/
def Access.index : Access → Nat
  | .read _ index => index
  | .write _ index => index

/-- An access lies inside its array: `grid` has `(local_L+2)*(local_L+2)` elements
(line 79), `column` has `local_L` (line 89) and `scratch` has `local_L`
(line 227). -/
def inBounds (local_L : Nat) (x : Access) : Prop :=
  match x.buffer with
  | .grid => x.index < (local_L + 2) * (local_L + 2)
  | .column => x.index < local_L
  | .scratch => x.index < local_L


/-! ## The width of the printed lines -/

/-- The number of characters, the newline not counted, that `printf` writes for a
format, when every value printed with `%6.3f` takes exactly 6 characters. -/
def renderedWidth : List Char → Nat
  | [] => 0
  | '%' :: '6' :: '.' :: '3' :: 'f' :: rest => 6 + renderedWidth rest
  | '\n' :: rest => renderedWidth rest
  | _ :: rest => 1 + renderedWidth rest

/-- The width of what one call of `printf` writes. -/
def Print.width (pr : Print) : Nat := renderedWidth pr.format.data

/-- The width of a printed line. -/
def lineWidth (line : List Print) : Nat := (line.map Print.width).sum


/-! ## The range of the grid values -/

/-- Every cell `(i, j)` of `grid` with `lo ≤ i, j ≤ hi` holds a value between 0 and
`B`. With `lo = 1`, `hi = local_L` these are the owned cells, with `lo = 0`,
`hi = local_L + 1` all cells of the grid. -/
def inRange (B : ℚ) (local_L lo hi : Nat) (grid : Nat → ℚ) : Prop :=
  ∀ i j, lo ≤ i → i ≤ hi → lo ≤ j → j ≤ hi →
    0 ≤ grid (_index local_L i j) ∧ grid (_index local_L i j) ≤ B

end HeatEqn2

namespace Cwk1

/-! # cwk1.c : the stack functions `invertStack` and `rotateStack` -/

/-- The global variables the stack functions use (lines 33-36): the array `stack`
and the current `stackSize`. -/
structure State where
  stack : Nat → Int
  stackSize : Nat

/-- Writing one element of an array: `a[i] = v`. -/
def store {α : Type} (a : Nat → α) (i : Nat) (v : α) : Nat → α :=
  fun j => if j = i then v else a j

/-- The state of the parallel loop of `invertStack`: the shared array, and for every
iteration `i` its own variable `tmp` and the number of statements of the loop body
it has executed. -/
structure Threads where
  stack : Nat → Int
  tmp : Nat → Int
  executed : Nat → Nat

/-- Iteration `i` executes its next statement: line 79 `int tmp = stack[i];`, then
line 81 `stack[i] = stack[stackSize - i - 1];`, then line 83
`stack[stackSize - i - 1] = tmp;`. -/
def invertStep (stackSize i : Nat) (t : Threads) : Threads :=
  match t.executed i with
  | 0 => { t with tmp := store t.tmp i (t.stack i), executed := store t.executed i 1 }
  | 1 => { t with stack := store t.stack i (t.stack (stackSize - i - 1)),
                  executed := store t.executed i 2 }
  | 2 => { t with stack := store t.stack (stackSize - i - 1) (t.tmp i),
                  executed := store t.executed i 3 }
  | _ => t

/-- Lines 72-85: `invertStack()`. The iterations `0 .. half-1` of the loop under
`#pragma omp parallel for` are shared out among the threads; `schedule` lists, in
the order in which the statements take effect, the iteration that executes its next
statement. -/
def invertStack (schedule : List Nat) (s : State) : State :=
  { s with
    stack := (schedule.foldl (fun t i => invertStep s.stackSize i t)
      ⟨s.stack, fun _ => 0, fun _ => 0⟩).stack }

/-- A schedule of a parallel loop with iterations `0 .. n-1` of `k` statements each
that runs every iteration to its end: every iteration occurs `k` times, and nothing
else occurs. -/
def complete (n k : Nat) (schedule : List Nat) : Prop :=
  (∀ i, i < n → schedule.count i = k) ∧ ∀ i ∈ schedule, i < n

instance (n k : Nat) (schedule : List Nat) : Decidable (complete n k schedule) := by
  unfold complete; infer_instance

/-- Lines 97-101: the critical section of iteration `i` of the loop of `rotateStack`,
`pos = stackSize - depth + i; stack[pos] = copy[pos + 1];`. -/
def rotateBody (stackSize depth : Nat) (copy : Nat → Int) (i : Nat) (stack : Nat → Int) :
    Nat → Int :=
  let pos := stackSize - depth + i
  store stack pos (copy (pos + 1))

/-- Lines 88-105: `rotateStack( depth )`, for `1 ≤ depth ≤ stackSize` (where no index
is negative). `copy` is the content of `stack` on entry (line 93); the iterations
`0 .. depth-2` of the loop under `#pragma omp parallel for` execute their critical
section one at a time, in the order `order`. -/
def rotateStack (order : List Nat) (depth : Nat) (s : State) : State :=
  let temp := s.stack (s.stackSize - depth)
  let copy := s.stack
  let stack := order.foldl (fun stack i => rotateBody s.stackSize depth copy i stack) s.stack
  { s with stack := store stack (s.stackSize - 1) temp }

end Cwk1

namespace DistributedCount

/-! # distributedCount.c : counting with `MPI_Bcast`, `MPI_Scatter` and `MPI_Gather` -/

/-- Line 27: `#define N 9999999`. -/
def N : Nat := 9999999

/-- Line 52: `globalSize = numProcs * ( (N+numProcs-1)/numProcs );`. -/
def globalSize (N numProcs : Nat) : Nat := numProcs * ((N + numProcs - 1) / numProcs)

/-- Line 85: `localSize = globalSize / numProcs;`, which line 96 broadcasts to all
ranks. -/
def localSize (N numProcs : Nat) : Nat := globalSize N numProcs / numProcs

/-- Lines 133-135 (and lines 174-176): the number of elements below 10 among the
first `size` elements of `data`. -/
def count (size : Nat) (data : Nat → Int) : Nat :=
  HeatEqn2.forLoop 0 size (fun i count => if data i < 10 then count + 1 else count) 0

/-- Lines 115 and 125: the content of `localData` on process `rank` after
`MPI_Scatter` with `localSize` elements per process. -/
def scatter (localSize : Nat) (globalData : Nat → Int) (rank : Nat) : Nat → Int :=
  fun i => globalData (rank * localSize + i)

/-- Line 140 on rank 0: `MPI_Gather( &count, 1, MPI_INT, localData, 1, MPI_INT, 0, .. )`
stores the count of process `p` in `localData[p]` for every `p < numProcs`.
`localData` was allocated with `localSize` elements (line 99): the result is `none`
when the call writes beyond its end. -/
def gather (numProcs localSize : Nat) (counts : Nat → Nat) (localData : Nat → Int) :
    Option (Nat → Int) :=
  if numProcs ≤ localSize then
    some (fun p => if p < numProcs then (counts p : Int) else localData p)
  else none

/-- Lines 155-158: `total = 0; for(p=0;p<numProcs;p++){ total+=localData[p]; }`. -/
def total (numProcs : Nat) (localData : Nat → Int) : Int :=
  HeatEqn2.forLoop 0 numProcs (fun p total => total + localData p) 0

/-- Lines 96-178 as rank 0 sees them, for the array `globalData` that lines 66-67
filled: the two numbers that line 178 prints, the distributed count `total` and the
serial count `check`. The result is `none` when the gather of line 140 overruns
`localData`. -/
def main (N numProcs : Nat) (globalData : Nat → Int) : Option (Int × Int) :=
  let globalSize := globalSize N numProcs
  let localSize := localSize N numProcs
  let counts := fun rank => count localSize (scatter localSize globalData rank)
  match gather numProcs localSize counts (scatter localSize globalData 0) with
  | none => none
  | some localData =>
    let total := total numProcs localData
    let check := count globalSize globalData
    some (total, (check : Int))

end DistributedCount

namespace HeatEqn2

/-! ## The square-root loop -/

theorem squareLoop_spec (n : Nat) :
    ∀ fuel p : Nat, n - p < fuel → 1 ≤ p → (∀ q, 1 ≤ q → q < p → q * q < n) →
      ∃ r, squareLoop n fuel p = some r ∧ p ≤ r ∧ n ≤ r * r ∧
        ∀ q, 1 ≤ q → q < r → q * q < n := by
  intro fuel
  induction fuel with
  | zero => intro p h; omega
  | succ fuel ih =>
    intro p hf hp hlow
    unfold squareLoop
    by_cases hc : p * p < n
    · have hpn : p < n := lt_of_le_of_lt (Nat.le_mul_self p) hc
      have hstep : ∀ q, 1 ≤ q → q < p + 1 → q * q < n := by
        intro q hq1 hq2
        rcases Nat.lt_succ_iff_lt_or_eq.mp hq2 with h | h
        · exact hlow q hq1 h
        · subst h; exact hc
      obtain ⟨r, hr, hpr, hn, hmin⟩ := ih (p + 1) (by omega) (by omega) hstep
      exact ⟨r, by simp [hc, hr], by omega, hn, hmin⟩
    · exact ⟨p, by simp [hc], le_refl p, by omega, hlow⟩

theorem squareLoop_result (numProcs fuel : Nat) (hP : 1 ≤ numProcs) (hf : numProcs ≤ fuel) :
    ∃ p, squareLoop numProcs fuel 1 = some p ∧ 1 ≤ p ∧ numProcs ≤ p * p ∧
      ∀ q, 1 ≤ q → q < p → q * q < numProcs :=
  squareLoop_spec numProcs fuel 1 (by omega) (le_refl 1) (by intro q h1 h2; omega)

theorem squareLoop_square (p : Nat) (hp : 1 ≤ p) :
    squareLoop (p * p) (p * p + 1) 1 = some p := by
  obtain ⟨r, hr, h1, hge, hmin⟩ := squareLoop_result (p * p) (p * p + 1)
    (Nat.mul_pos hp hp) (Nat.le_succ _)
  have h2 : ¬ p < r := fun h => absurd (hmin p hp h) (lt_irrefl _)
  have h3 : ¬ r < p := fun h => absurd (Nat.mul_self_lt_mul_self h) (not_lt.mpr hge)
  have : r = p := by omega
  rw [hr, this]

/-- Within the `int` range: for at most `46340 * 46340` processes the last (and
largest) product `p*p` the loop computes is below `2^31`. -/
theorem squareLoop_no_overflow (numProcs r : Nat) (hP : 1 ≤ numProcs)
    (hmax : numProcs ≤ 46340 * 46340)
    (h : squareLoop numProcs (numProcs + 1) 1 = some r) : r * r < 2 ^ 31 := by
  obtain ⟨p, hp, _, _, hmin⟩ := squareLoop_result numProcs (numProcs + 1) hP (Nat.le_succ _)
  rw [hp] at h
  have hrp : r = p := (Option.some.inj h).symm
  subst hrp
  have hle : r ≤ 46340 := by
    by_contra hgt
    have := hmin 46340 (by norm_num) (by omega)
    omega
  calc r * r ≤ 46340 * 46340 := Nat.mul_le_mul hle hle
    _ < 2 ^ 31 := by norm_num

/-- Over the integers, without the limits of `int`: for every `numProcs ≥ 1` the loop
ends (any allowance of at least `numProcs` condition tests is enough) with `p` the
least positive integer such that `p*p ≥ numProcs`; `p*p = numProcs` holds exactly
when `numProcs` is a perfect square, and then `p` is its integer square root. -/
theorem squareLoop_least_root (numProcs : Nat) (hP : 1 ≤ numProcs) :
    ∃ p, (∀ fuel, numProcs ≤ fuel → squareLoop numProcs fuel 1 = some p) ∧
      1 ≤ p ∧ numProcs ≤ p * p ∧
      (∀ q, 1 ≤ q → numProcs ≤ q * q → p ≤ q) ∧
      (p * p = numProcs ↔ ∃ k, k * k = numProcs) ∧
      (p * p = numProcs → p = Nat.sqrt numProcs) := by
  obtain ⟨p, hp, h1, hge, hmin⟩ := squareLoop_result numProcs numProcs hP (le_refl _)
  refine ⟨p, ?_, h1, hge, ?_, ?_, ?_⟩
  · intro fuel hf
    obtain ⟨p', hp', _, hge', hmin'⟩ := squareLoop_result numProcs fuel hP hf
    have h2 : ¬ p < p' := fun h => absurd (hmin' p h1 h) (not_lt.mpr hge)
    have h3 : ¬ p' < p := fun h => absurd (hmin p' (by omega) h) (not_lt.mpr hge')
    have : p' = p := by omega
    rw [hp', this]
  · intro q hq hqq
    by_contra hlt
    exact absurd (hmin q hq (not_le.mp hlt)) (not_lt.mpr hqq)
  · constructor
    · intro h; exact ⟨p, h⟩
    · rintro ⟨k, hk⟩
      have hk1 : 1 ≤ k := by
        rcases Nat.eq_zero_or_pos k with h | h
        · subst h; omega
        · exact h
      have h2 : ¬ k < p := fun h => absurd (hmin k hk1 h) (by omega)
      have h3 : ¬ p < k := fun h => absurd (Nat.mul_self_lt_mul_self h) (by omega)
      have : p = k := by omega
      rw [this]; exact hk
  · intro h
    rw [← h, Nat.sqrt_eq]

/-! ## The square-root loop in `int` arithmetic -/

theorem int32_of_small (x : Int) (h0 : 0 ≤ x) (h1 : x < 2 ^ 31) : int32 x = x := by
  unfold int32
  omega

theorem int32_natCast_mul (p : Nat) (hp : p ≤ 46340) :
    int32 ((p : Int) * p) = ((p * p : Nat) : Int) := by
  have h : p * p ≤ 46340 * 46340 := Nat.mul_le_mul hp hp
  rw [← Nat.cast_mul]
  apply int32_of_small <;> omega

/-- For at most `46340 * 46340` processes no product or increment of the loop leaves
the range of `int`: the loop in `int` arithmetic does what the loop over the
integers does. -/
theorem squareLoopInt_eq (numProcs : Nat) (hmax : numProcs ≤ 46340 * 46340) :
    ∀ fuel p : Nat, p ≤ 46340 →
      squareLoopInt numProcs fuel p = (squareLoop numProcs fuel p).map Int.ofNat := by
  intro fuel
  induction fuel with
  | zero => intro p _; rfl
  | succ fuel ih =>
    intro p hp
    unfold squareLoopInt squareLoop
    rw [int32_natCast_mul p hp]
    by_cases hc : p * p < numProcs
    · have hlt : p < 46340 := by
        by_contra hge
        have h1 : p = 46340 := by omega
        subst h1
        omega
      have hnext : int32 ((p : Int) + 1) = ((p + 1 : Nat) : Int) := by
        rw [int32_of_small _ (by omega) (by omega)]
        rfl
      rw [if_pos (by exact_mod_cast hc), if_pos hc, hnext]
      exact ih (p + 1) (by omega)
    · rw [if_neg (by exact_mod_cast hc), if_neg hc]
      rfl

/-- A square is 0, 1 or 4 modulo 8, so in `int` arithmetic `p*p` is never
`INT_MAX = 2147483647`: it is below it. -/
theorem int32_sq_lt (p : Int) : int32 (p * p) < 2147483647 := by
  have h8 : (p * p) % 8 = 0 ∨ (p * p) % 8 = 1 ∨ (p * p) % 8 = 4 := by
    have hc : p % 8 = 0 ∨ p % 8 = 1 ∨ p % 8 = 2 ∨ p % 8 = 3 ∨ p % 8 = 4 ∨ p % 8 = 5 ∨
        p % 8 = 6 ∨ p % 8 = 7 := by omega
    rcases hc with h | h | h | h | h | h | h | h <;> simp [Int.mul_emod, h]
  unfold int32
  omega

theorem squareLoopInt_INT_MAX : ∀ (fuel : Nat) (p : Int),
    squareLoopInt 2147483647 fuel p = none := by
  intro fuel
  induction fuel with
  | zero => intro p; rfl
  | succ fuel ih =>
    intro p
    unfold squareLoopInt
    rw [if_pos (int32_sq_lt p)]
    exact ih _

theorem INT_MAX_not_square : ¬ ∃ p : Nat, p * p = 2147483647 := by
  rintro ⟨p, hp⟩
  have h1 : ¬ p ≤ 46340 := fun h => by
    have := Nat.mul_le_mul h h
    omega
  have h2 : 46341 * 46341 ≤ p * p := Nat.mul_le_mul (by omega) (by omega)
  omega

/-- C4 fails as stated: with `numProcs = 2147483647` (`INT_MAX`) the product `p*p`,
reduced to the range of `int`, is below `numProcs` for every `p`, so the condition
of the loop of lines 60-61 holds at every test and the loop does not end, whatever
the number of tests allowed. -/
theorem C4_loop_never_ends :
    (∀ p : Int, int32 (p * p) < 2147483647) ∧
    ∀ fuel, squareLoopInt 2147483647 fuel 1 = none :=
  ⟨int32_sq_lt, fun fuel => squareLoopInt_INT_MAX fuel 1⟩

/-- C4, amended: for every `numProcs` from 1 to `46340 * 46340 = 2147395600`, the
largest square in the range of `int`, the loop of lines 60-61 in `int` arithmetic
ends (any allowance of at least `numProcs` condition tests is enough) with `p` the
least positive integer such that `p*p ≥ numProcs`, and `p*p` is below `2^31`; the
test `p*p != numProcs` of line 62 lets the process continue exactly when `numProcs`
is a perfect square, and then `p` is its integer square root. -/
theorem C4_squareLoop_least_root (numProcs : Nat) (hP : 1 ≤ numProcs)
    (hmax : numProcs ≤ 46340 * 46340) :
    ∃ p : Nat, (∀ fuel, numProcs ≤ fuel → squareLoopInt numProcs fuel 1 = some (p : Int)) ∧
      1 ≤ p ∧ numProcs ≤ p * p ∧ p * p < 2 ^ 31 ∧
      int32 ((p : Int) * p) = ((p * p : Nat) : Int) ∧
      (∀ q, 1 ≤ q → numProcs ≤ q * q → p ≤ q) ∧
      (int32 ((p : Int) * p) = (numProcs : Int) ↔ ∃ k, k * k = numProcs) ∧
      (int32 ((p : Int) * p) = (numProcs : Int) → p = Nat.sqrt numProcs) := by
  obtain ⟨p, hp, h1, hge, hmin, hsq, hroot⟩ := squareLoop_least_root numProcs hP
  have hle : p ≤ 46340 := hmin 46340 (by omega) hmax
  have hpp : p * p ≤ 46340 * 46340 := Nat.mul_le_mul hle hle
  have hint := int32_natCast_mul p hle
  refine ⟨p, ?_, h1, hge, by omega, hint, hmin, ?_, ?_⟩
  · intro fuel hf
    have h := squareLoopInt_eq numProcs hmax fuel 1 (by omega)
    rw [hp fuel hf] at h
    exact h
  · rw [hint, Nat.cast_inj]
    exact hsq
  · rw [hint, Nat.cast_inj]
    exact hroot

/-- C4 (amended) at `numProcs = 4`: the loop ends with `p = 2`. -/
theorem C4_squareLoop_least_root_witness :
    ∃ p : Nat, (∀ fuel, 4 ≤ fuel → squareLoopInt (4 : Nat) fuel 1 = some (p : Int)) ∧
      1 ≤ p ∧ 4 ≤ p * p ∧ p * p < 2 ^ 31 ∧
      int32 ((p : Int) * p) = ((p * p : Nat) : Int) ∧
      (∀ q, 1 ≤ q → 4 ≤ q * q → p ≤ q) ∧
      (int32 ((p : Int) * p) = ((4 : Nat) : Int) ↔ ∃ k, k * k = 4) ∧
      (int32 ((p : Int) * p) = ((4 : Nat) : Int) → p = Nat.sqrt 4) :=
  C4_squareLoop_least_root 4 (by decide) (by decide)

/-! ## The configuration checks -/

theorem setup_valid (L p rank : Nat) (hp : 1 ≤ p) (hd : L % p = 0) :
    setup L (p * p) rank
      = some ([.MPI_Init, .MPI_Comm_size, .MPI_Comm_rank], some (p, L / p)) := by
  simp [setup, squareLoop_square p hp, hd]

theorem setup_not_square (L numProcs rank : Nat) (hP : 1 ≤ numProcs)
    (hsq : ¬ ∃ k, k * k = numProcs) :
    setup L numProcs rank
      = some ([.MPI_Init, .MPI_Comm_size, .MPI_Comm_rank]
          ++ (if rank = 0 then [.printf squareMessage []] else [])
          ++ [.MPI_Finalize], none) := by
  obtain ⟨p, hp, _, _, _⟩ := squareLoop_result numProcs (numProcs + 1) hP (Nat.le_succ _)
  have hne : p * p ≠ numProcs := fun h => hsq ⟨p, h⟩
  simp [setup, hp, hne]

theorem setup_not_multiple (L p rank : Nat) (hp : 1 ≤ p) (hd : L % p ≠ 0) :
    setup L (p * p) rank
      = some ([.MPI_Init, .MPI_Comm_size, .MPI_Comm_rank]
          ++ (if rank = 0 then [.printf multipleMessage [L, p]] else [])
          ++ [.MPI_Finalize], none) := by
  simp [setup, squareLoop_square p hp, hd]

theorem side_pos {p numProcs : Nat} (hP : 1 ≤ numProcs) (h : p * p = numProcs) : 1 ≤ p := by
  rcases Nat.eq_zero_or_pos p with h0 | h0
  · subst h0; omega
  · exact h0

theorem declareRequests_mem_program (p local_L rank : Nat) :
    Stmt.declareRequests ∈ program p local_L rank := by
  simp [program, iterationBody]

theorem stmt_mem_compute (p local_L rank iter : Nat) (s : Stmt)
    (hi : iter < NUM_ITERATIONS) (hs : s ∈ program p local_L rank) :
    Action.stmt iter s ∈ compute p local_L rank := by
  unfold compute
  simp only [List.mem_append, List.mem_flatMap, List.mem_range, List.mem_map]
  exact Or.inl (Or.inl (Or.inl (Or.inl (Or.inl (Or.inr ⟨iter, hi, s, hs, rfl⟩)))))

theorem main_valid (L p rank : Nat) (hp : 1 ≤ p) (hd : L % p = 0) :
    main L (p * p) rank
      = some ([.MPI_Init, .MPI_Comm_size, .MPI_Comm_rank] ++ compute p (L / p) rank,
          EXIT_SUCCESS) := by
  simp [main, setup_valid L p rank hp hd]

theorem main_not_square (L numProcs rank : Nat) (hP : 1 ≤ numProcs)
    (hsq : ¬ ∃ k, k * k = numProcs) :
    main L numProcs rank
      = some ([.MPI_Init, .MPI_Comm_size, .MPI_Comm_rank]
          ++ (if rank = 0 then [.printf squareMessage []] else [])
          ++ [.MPI_Finalize], EXIT_FAILURE) := by
  simp [main, setup_not_square L numProcs rank hP hsq]

theorem main_not_multiple (L p rank : Nat) (hp : 1 ≤ p) (hd : L % p ≠ 0) :
    main L (p * p) rank
      = some ([.MPI_Init, .MPI_Comm_size, .MPI_Comm_rank]
          ++ (if rank = 0 then [.printf multipleMessage [L, p]] else [])
          ++ [.MPI_Finalize], EXIT_FAILURE) := by
  simp [main, setup_not_multiple L p rank hp hd]

/-- The actions of a process that fails a check are the initial enquiries, at most
one `printf`, and `MPI_Finalize`. -/
theorem failure_actions_silent (rank : Nat) (fmt : String) (args : List Nat) (a : Action)
    (ha : a ∈ [Action.MPI_Init, .MPI_Comm_size, .MPI_Comm_rank]
          ++ (if rank = 0 then [Action.printf fmt args] else []) ++ [Action.MPI_Finalize]) :
    a = Action.MPI_Init ∨ a = Action.MPI_Comm_size ∨ a = Action.MPI_Comm_rank
      ∨ a = Action.MPI_Finalize ∨ ∃ fmt args, a = Action.printf fmt args := by
  simp only [List.mem_append, List.mem_cons, List.not_mem_nil, or_false] at ha
  rcases ha with ((h | h | h) | h) | h
  · exact Or.inl h
  · exact Or.inr (Or.inl h)
  · exact Or.inr (Or.inr (Or.inl h))
  · by_cases hr : rank = 0
    · simp [hr] at h
      exact Or.inr (Or.inr (Or.inr (Or.inr ⟨fmt, args, h⟩)))
    · simp [hr] at h
  · exact Or.inr (Or.inr (Or.inr (Or.inl h)))

theorem failure_actions_no_malloc (rank n : Nat) (fmt : String) (args : List Nat) :
    Action.malloc n ∉ [Action.MPI_Init, .MPI_Comm_size, .MPI_Comm_rank]
          ++ (if rank = 0 then [Action.printf fmt args] else []) ++ [Action.MPI_Finalize] := by
  intro h
  rcases failure_actions_silent rank fmt args _ h with h | h | h | h | ⟨_, _, h⟩ <;> cases h

/-- Over the integers, without the limits of `int`: a process goes on to allocate its
grid and to iterate exactly when `numProcs = p*p` and `L % p = 0`; it then returns
`EXIT_SUCCESS` having executed every statement of all `NUM_ITERATIONS` iterations.
In every other case the process, whatever its rank, returns `EXIT_FAILURE` and its
actions are only the three initial MPI enquiries, possibly a `printf`, and
`MPI_Finalize`. -/
theorem main_proceeds_iff_valid (L numProcs rank : Nat) (hP : 1 ≤ numProcs) :
    ∃ acts code, main L numProcs rank = some (acts, code) ∧
      ((∃ p, p * p = numProcs ∧ L % p = 0) ↔
        ((∃ n, Action.malloc n ∈ acts) ∧ ∃ iter s, Action.stmt iter s ∈ acts)) ∧
      (∀ p, p * p = numProcs → L % p = 0 →
        code = EXIT_SUCCESS ∧ Action.malloc ((L / p + 2) * (L / p + 2)) ∈ acts ∧
        ∀ iter, iter < NUM_ITERATIONS → ∀ s ∈ program p (L / p) rank,
          Action.stmt iter s ∈ acts) ∧
      ((¬ ∃ p, p * p = numProcs ∧ L % p = 0) →
        code = EXIT_FAILURE ∧
        ∀ a ∈ acts, a = Action.MPI_Init ∨ a = Action.MPI_Comm_size ∨ a = Action.MPI_Comm_rank
          ∨ a = Action.MPI_Finalize ∨ ∃ fmt args, a = Action.printf fmt args) := by
  by_cases hsq : ∃ k, k * k = numProcs
  · obtain ⟨p, hpp⟩ := hsq
    have hp : 1 ≤ p := side_pos hP hpp
    have huniq : ∀ q, q * q = numProcs → q = p := by
      intro q hq
      exact Nat.mul_self_inj.mp (hq.trans hpp.symm)
    subst hpp
    by_cases hd : L % p = 0
    · refine ⟨_, _, main_valid L p rank hp hd, ?_, ?_, ?_⟩
      · refine ⟨fun _ => ⟨⟨(L / p + 2) * (L / p + 2), ?_⟩, 0, Stmt.declareRequests, ?_⟩,
          fun _ => ⟨p, rfl, hd⟩⟩
        · simp [compute]
        · exact List.mem_append_right _ (stmt_mem_compute p (L / p) rank 0 _
            (by decide) (declareRequests_mem_program _ _ _))
      · intro q hq _
        have := huniq q hq
        subst this
        refine ⟨rfl, by simp [compute], ?_⟩
        intro iter hi s hs
        exact List.mem_append_right _ (stmt_mem_compute q (L / q) rank iter s hi hs)
      · intro hno
        exact absurd ⟨p, rfl, hd⟩ hno
    · have hinv : ¬ ∃ q, q * q = p * p ∧ L % q = 0 := by
        rintro ⟨q, hq, hq0⟩
        rw [huniq q hq] at hq0
        exact hd hq0
      refine ⟨_, _, main_not_multiple L p rank hp hd, ?_, ?_, ?_⟩
      · refine ⟨fun h => absurd h hinv, ?_⟩
        rintro ⟨⟨n, hn⟩, _⟩
        exact absurd hn (failure_actions_no_malloc rank n _ _)
      · intro q hq hq0
        exact absurd ⟨q, hq, hq0⟩ hinv
      · intro _
        exact ⟨rfl, fun a ha => failure_actions_silent rank _ _ a ha⟩
  · have hinv : ¬ ∃ q, q * q = numProcs ∧ L % q = 0 := by
      rintro ⟨q, hq, _⟩
      exact hsq ⟨q, hq⟩
    refine ⟨_, _, main_not_square L numProcs rank hP hsq, ?_, ?_, ?_⟩
    · refine ⟨fun h => absurd h hinv, ?_⟩
      rintro ⟨⟨n, hn⟩, _⟩
      exact absurd hn (failure_actions_no_malloc rank n _ _)
    · intro q hq hq0
      exact absurd ⟨q, hq, hq0⟩ hinv
    · intro _
      exact ⟨rfl, fun a ha => failure_actions_silent rank _ _ a ha⟩

/-- Over the integers, without the limits of `int`: in an invalid configuration every
process returns `EXIT_FAILURE`, and a diagnostic is printed by the process of rank 0
and by no other. Rank 0 prints, before `MPI_Finalize`, the message of line 64 when
`numProcs` is not a square and the message of line 72 (with `L` and `p`) when `p`
does not divide `L`. -/
theorem main_only_rank0_prints (L numProcs rank : Nat) (hP : 1 ≤ numProcs)
    (hinv : ¬ ∃ p, p * p = numProcs ∧ L % p = 0) :
    ∃ acts, main L numProcs rank = some (acts, EXIT_FAILURE) ∧
      ((∃ fmt args, Action.printf fmt args ∈ acts) ↔ rank = 0) ∧
      (rank = 0 →
        ((¬ ∃ k, k * k = numProcs) →
          acts = [Action.MPI_Init, Action.MPI_Comm_size, Action.MPI_Comm_rank,
            Action.printf squareMessage [], Action.MPI_Finalize]) ∧
        (∀ p, p * p = numProcs →
          acts = [Action.MPI_Init, Action.MPI_Comm_size, Action.MPI_Comm_rank,
            Action.printf multipleMessage [L, p], Action.MPI_Finalize])) := by
  by_cases hsq : ∃ k, k * k = numProcs
  · obtain ⟨p, hpp⟩ := hsq
    have hp : 1 ≤ p := side_pos hP hpp
    have huniq : ∀ q, q * q = numProcs → q = p := by
      intro q hq
      exact Nat.mul_self_inj.mp (hq.trans hpp.symm)
    have hd : L % p ≠ 0 := fun h => hinv ⟨p, hpp, h⟩
    subst hpp
    refine ⟨_, main_not_multiple L p rank hp hd, ?_, ?_⟩
    · by_cases hr : rank = 0 <;> simp [hr]
    · intro hr
      refine ⟨fun h => absurd ⟨p, rfl⟩ h, ?_⟩
      intro q hq
      rw [huniq q hq]
      simp [hr]
  · refine ⟨_, main_not_square L numProcs rank hP hsq, ?_, ?_⟩
    · by_cases hr : rank = 0 <;> simp [hr]
    · intro hr
      refine ⟨fun _ => by simp [hr], ?_⟩
      intro q hq
      exact absurd ⟨q, hq⟩ hsq

/-! ## The configuration checks in `int` arithmetic -/

theorem setupInt_eq (fuel L numProcs rank : Nat) (hP : 1 ≤ numProcs)
    (hmax : numProcs ≤ 46340 * 46340) (hf : numProcs ≤ fuel) :
    setupInt fuel L numProcs rank = setup L numProcs rank := by
  obtain ⟨p, hp, h1, hge, hmin, -, -⟩ := squareLoop_least_root numProcs hP
  have hle : p ≤ 46340 := hmin 46340 (by omega) hmax
  have hloop : squareLoopInt numProcs fuel 1 = some (p : Int) := by
    have h := squareLoopInt_eq numProcs hmax fuel 1 (by omega)
    rw [hp fuel hf] at h
    exact h
  unfold setupInt setup
  rw [hloop, hp (numProcs + 1) (by omega)]
  simp only [Option.map_some', Int.ofNat_eq_coe, int32_natCast_mul p hle, Int.toNat_ofNat,
    ← Int.ofNat_tmod, ← Int.ofNat_tdiv, ne_eq, Nat.cast_inj, Nat.cast_eq_zero]

theorem mainInt_eq (fuel L numProcs rank : Nat) (hP : 1 ≤ numProcs)
    (hmax : numProcs ≤ 46340 * 46340) (hf : numProcs ≤ fuel) :
    mainInt fuel L numProcs rank = main L numProcs rank := by
  unfold mainInt main
  rw [setupInt_eq fuel L numProcs rank hP hmax hf]

theorem mainInt_INT_MAX (fuel L rank : Nat) : mainInt fuel L 2147483647 rank = none := by
  unfold mainInt setupInt
  rw [show ((2147483647 : Nat) : Int) = 2147483647 from rfl, squareLoopInt_INT_MAX]

/-- C5 fails as stated: `numProcs = 2147483647` (`INT_MAX`) is not a perfect square,
yet no process returns `EXIT_FAILURE`: the loop of lines 60-61 does not end, so the
process never gets to the checks, whatever `L`, its rank and the number of tests of
the loop condition allowed. -/
theorem C5_worker_never_returns :
    (¬ ∃ p : Nat, p * p = 2147483647) ∧
    ∀ fuel L rank, mainInt fuel L 2147483647 rank = none :=
  ⟨INT_MAX_not_square, mainInt_INT_MAX⟩

/-- C5, amended: for `1 ≤ numProcs ≤ 46340 * 46340` a process goes on to allocate its
grid and to iterate exactly when `numProcs = p*p` and `L % p = 0`; it then returns
`EXIT_SUCCESS` having executed every statement of all `NUM_ITERATIONS` iterations.
In every other case the process, whatever its rank, returns `EXIT_FAILURE` and its
actions are only the three initial MPI enquiries, possibly a `printf`, and
`MPI_Finalize`: no allocation, initialisation, display, message or iteration. -/
theorem C5_proceeds_iff_valid (fuel L numProcs rank : Nat) (hP : 1 ≤ numProcs)
    (hmax : numProcs ≤ 46340 * 46340) (hf : numProcs ≤ fuel) :
    ∃ acts code, mainInt fuel L numProcs rank = some (acts, code) ∧
      ((∃ p, p * p = numProcs ∧ L % p = 0) ↔
        ((∃ n, Action.malloc n ∈ acts) ∧ ∃ iter s, Action.stmt iter s ∈ acts)) ∧
      (∀ p, p * p = numProcs → L % p = 0 →
        code = EXIT_SUCCESS ∧ Action.malloc ((L / p + 2) * (L / p + 2)) ∈ acts ∧
        ∀ iter, iter < NUM_ITERATIONS → ∀ s ∈ program p (L / p) rank,
          Action.stmt iter s ∈ acts) ∧
      ((¬ ∃ p, p * p = numProcs ∧ L % p = 0) →
        code = EXIT_FAILURE ∧
        ∀ a ∈ acts, a = Action.MPI_Init ∨ a = Action.MPI_Comm_size ∨ a = Action.MPI_Comm_rank
          ∨ a = Action.MPI_Finalize ∨ ∃ fmt args, a = Action.printf fmt args) := by
  rw [mainInt_eq fuel L numProcs rank hP hmax hf]
  exact main_proceeds_iff_valid L numProcs rank hP

/-- C5 (amended) at `L = 8`, `numProcs = 4`, `rank = 0`, with 4 tests allowed. -/
theorem C5_proceeds_iff_valid_witness :
    ∃ acts code, mainInt 4 8 4 0 = some (acts, code) ∧
      ((∃ p, p * p = 4 ∧ 8 % p = 0) ↔
        ((∃ n, Action.malloc n ∈ acts) ∧ ∃ iter s, Action.stmt iter s ∈ acts)) ∧
      (∀ p, p * p = 4 → 8 % p = 0 →
        code = EXIT_SUCCESS ∧ Action.malloc ((8 / p + 2) * (8 / p + 2)) ∈ acts ∧
        ∀ iter, iter < NUM_ITERATIONS → ∀ s ∈ program p (8 / p) 0,
          Action.stmt iter s ∈ acts) ∧
      ((¬ ∃ p, p * p = 4 ∧ 8 % p = 0) →
        code = EXIT_FAILURE ∧
        ∀ a ∈ acts, a = Action.MPI_Init ∨ a = Action.MPI_Comm_size ∨ a = Action.MPI_Comm_rank
          ∨ a = Action.MPI_Finalize ∨ ∃ fmt args, a = Action.printf fmt args) :=
  C5_proceeds_iff_valid 4 8 4 0 (by decide) (by decide) (by decide)

/-- C6 fails as stated: with `L = 8` and `numProcs = 2` (not a square), the process
of rank 1 returns `EXIT_FAILURE` without any `printf`. -/
theorem C6_rank1_prints_nothing :
    (¬ ∃ p, p * p = 2 ∧ 8 % p = 0) ∧ 1 < 2 ∧
    (∀ fuel, 2 ≤ fuel →
      mainInt fuel 8 2 1 = some ([Action.MPI_Init, Action.MPI_Comm_size,
        Action.MPI_Comm_rank, Action.MPI_Finalize], EXIT_FAILURE)) ∧
    ¬ ∃ fmt args, Action.printf fmt args ∈
      [Action.MPI_Init, Action.MPI_Comm_size, Action.MPI_Comm_rank, Action.MPI_Finalize] := by
  refine ⟨?_, by decide, ?_, by simp⟩
  · rintro ⟨p, hp, _⟩
    have h2 : p < 2 := by
      by_contra h
      have : 2 * 2 ≤ p * p := Nat.mul_le_mul (not_lt.mp h) (not_lt.mp h)
      omega
    interval_cases p <;> omega
  · intro fuel hf
    rw [mainInt_eq fuel 8 2 1 (by decide) (by decide) hf]
    decide

/-- C6, amended: in an invalid configuration with `1 ≤ numProcs ≤ 46340 * 46340`
every process returns `EXIT_FAILURE`, and a diagnostic is printed by the process of
rank 0 and by no other. Rank 0 prints, before `MPI_Finalize`, the message of line 64
when `numProcs` is not a square and the message of line 72 (with `L` and `p`) when
`p` does not divide `L`. -/
theorem C6_only_rank0_prints (fuel L numProcs rank : Nat) (hP : 1 ≤ numProcs)
    (hmax : numProcs ≤ 46340 * 46340) (hf : numProcs ≤ fuel)
    (hinv : ¬ ∃ p, p * p = numProcs ∧ L % p = 0) :
    ∃ acts, mainInt fuel L numProcs rank = some (acts, EXIT_FAILURE) ∧
      ((∃ fmt args, Action.printf fmt args ∈ acts) ↔ rank = 0) ∧
      (rank = 0 →
        ((¬ ∃ k, k * k = numProcs) →
          acts = [Action.MPI_Init, Action.MPI_Comm_size, Action.MPI_Comm_rank,
            Action.printf squareMessage [], Action.MPI_Finalize]) ∧
        (∀ p, p * p = numProcs →
          acts = [Action.MPI_Init, Action.MPI_Comm_size, Action.MPI_Comm_rank,
            Action.printf multipleMessage [L, p], Action.MPI_Finalize])) := by
  rw [mainInt_eq fuel L numProcs rank hP hmax hf]
  exact main_only_rank0_prints L numProcs rank hP hinv

/-- C6 (amended) at `L = 8`, `numProcs = 9`, `rank = 0`: 9 is a square but 3 does not
divide 8. -/
theorem C6_only_rank0_prints_witness :
    (¬ ∃ p, p * p = 9 ∧ 8 % p = 0) ∧
    ∃ acts, mainInt 9 8 9 0 = some (acts, EXIT_FAILURE) ∧
      ((∃ fmt args, Action.printf fmt args ∈ acts) ↔ 0 = 0) ∧
      (0 = 0 →
        ((¬ ∃ k, k * k = 9) →
          acts = [Action.MPI_Init, Action.MPI_Comm_size, Action.MPI_Comm_rank,
            Action.printf squareMessage [], Action.MPI_Finalize]) ∧
        (∀ p, p * p = 9 →
          acts = [Action.MPI_Init, Action.MPI_Comm_size, Action.MPI_Comm_rank,
            Action.printf multipleMessage [8, p], Action.MPI_Finalize])) :=
  have hinv : ¬ ∃ p, p * p = 9 ∧ 8 % p = 0 := by
    rintro ⟨p, hp, hd⟩
    have h4 : p < 4 := by
      by_contra h
      have : 4 * 4 ≤ p * p := Nat.mul_le_mul (not_lt.mp h) (not_lt.mp h)
      omega
    interval_cases p <;> omega
  ⟨hinv, C6_only_rank0_prints 9 8 9 0 (by decide) (by decide) (by decide) hinv⟩

/-- C7: for `L > 0`, `numProcs = p*p` and `p` dividing `L`, every process reaches
line 78 with `local_L = L / p`; this value is positive, satisfies
`p * local_L = L`, and is the same for every rank. -/
theorem C7_local_L (L p rank : Nat) (hL : 0 < L) (hp : 1 ≤ p) (hd : L % p = 0) :
    (∃ acts, setup L (p * p) rank = some (acts, some (p, L / p))) ∧
      0 < L / p ∧ p * (L / p) = L ∧
      ∀ rank', (setup L (p * p) rank').map Prod.snd = (setup L (p * p) rank).map Prod.snd := by
  have hmul : p * (L / p) = L := Nat.mul_div_cancel' (Nat.dvd_of_mod_eq_zero hd)
  refine ⟨⟨_, setup_valid L p rank hp hd⟩, ?_, hmul, ?_⟩
  · rcases Nat.eq_zero_or_pos (L / p) with h | h
    · rw [h] at hmul; omega
    · exact h
  · intro rank'
    rw [setup_valid L p rank hp hd, setup_valid L p rank' hp hd]

/-- C7 at `L = 8`, `p = 2`, `rank = 3`. -/
theorem C7_local_L_witness :
    (∃ acts, setup 8 (2 * 2) 3 = some (acts, some (2, 8 / 2))) ∧
      0 < 8 / 2 ∧ 2 * (8 / 2) = 8 ∧
      ∀ rank', (setup 8 (2 * 2) rank').map Prod.snd = (setup 8 (2 * 2) 3).map Prod.snd :=
  C7_local_L 8 2 3 (by decide) (by decide) (by decide)

/-! ## Positions in the `p x p` topology -/

theorem position_unique (p x r c : Nat) (hc : c < p) (hx : x = p * r + c) :
    x / p = r ∧ x % p = c := by
  subst hx
  have hp : 0 < p := by omega
  constructor
  · rw [Nat.mul_add_div hp, Nat.div_eq_of_lt hc, Nat.add_zero]
  · rw [Nat.mul_add_mod, Nat.mod_eq_of_lt hc]

theorem row_lt_side {p rank : Nat} (hlt : rank < p * p) : rank / p < p :=
  Nat.div_lt_of_lt_mul hlt

theorem up_position {p rank : Nat} (hp : 1 ≤ p) (h : 0 < rank / p) :
    p ≤ rank ∧ (rank - p) / p + 1 = rank / p ∧ (rank - p) % p = rank % p := by
  have hd := Nat.div_add_mod rank p
  have hc := Nat.mod_lt rank hp
  obtain ⟨k, hk⟩ : ∃ k, rank / p = k + 1 := ⟨rank / p - 1, by omega⟩
  have hmul : p * (rank / p) = p * k + p := by rw [hk, Nat.mul_succ]
  have hx : rank - p = p * k + rank % p := by omega
  obtain ⟨h1, h2⟩ := position_unique p (rank - p) k (rank % p) hc hx
  exact ⟨by omega, by omega, h2⟩

theorem down_position {p rank : Nat} (hlt : rank < p * p) (h : rank / p < p - 1) :
    rank + p < p * p ∧ (rank + p) / p = rank / p + 1 ∧ (rank + p) % p = rank % p := by
  have hp : 1 ≤ p := by
    rcases Nat.eq_zero_or_pos p with h0 | h0
    · subst h0; simp at h
    · exact h0
  have hd := Nat.div_add_mod rank p
  have hc := Nat.mod_lt rank hp
  have hmul : p * (rank / p + 1) = p * (rank / p) + p := Nat.mul_succ _ _
  have hle : p * (rank / p + 2) ≤ p * p := Nat.mul_le_mul_left p (by omega)
  have hmul2 : p * (rank / p + 2) = p * (rank / p) + 2 * p := by ring
  have hx : rank + p = p * (rank / p + 1) + rank % p := by omega
  obtain ⟨h1, h2⟩ := position_unique p (rank + p) (rank / p + 1) (rank % p) hc hx
  exact ⟨by omega, h1, h2⟩

theorem left_position {p rank : Nat} (hp : 1 ≤ p) (h : 0 < rank % p) :
    1 ≤ rank ∧ (rank - 1) / p = rank / p ∧ (rank - 1) % p + 1 = rank % p := by
  have hd := Nat.div_add_mod rank p
  have hc := Nat.mod_lt rank hp
  have hx : rank - 1 = p * (rank / p) + (rank % p - 1) := by omega
  obtain ⟨h1, h2⟩ := position_unique p (rank - 1) (rank / p) (rank % p - 1) (by omega) hx
  exact ⟨by omega, h1, by omega⟩

theorem right_position {p rank : Nat} (hlt : rank < p * p) (h : rank % p < p - 1) :
    rank + 1 < p * p ∧ (rank + 1) / p = rank / p ∧ (rank + 1) % p = rank % p + 1 := by
  have hd := Nat.div_add_mod rank p
  have hr := row_lt_side hlt
  have hle : p * (rank / p + 1) ≤ p * p := Nat.mul_le_mul_left p (by omega)
  have hmul : p * (rank / p + 1) = p * (rank / p) + p := Nat.mul_succ _ _
  have hx : rank + 1 = p * (rank / p) + (rank % p + 1) := by omega
  obtain ⟨h1, h2⟩ := position_unique p (rank + 1) (rank / p) (rank % p + 1) (by omega) hx
  exact ⟨by omega, h1, h2⟩

theorem peers_eq (p local_L rank : Nat) :
    peers p local_L rank =
      (if 0 < rank / p then [rank - p] else []) ++
      (if rank / p < p - 1 then [rank + p] else []) ++
      (if rank / p < p - 1 then [rank + p] else []) ++
      (if 0 < rank / p then [rank - p] else []) ++
      (if 0 < rank % p then [rank - 1] else []) ++
      (if rank % p < p - 1 then [rank + 1] else []) ++
      (if rank % p < p - 1 then [rank + 1] else []) ++
      (if 0 < rank % p then [rank - 1] else []) := by
  by_cases h1 : 0 < rank / p <;> by_cases h2 : rank / p < p - 1 <;>
    by_cases h3 : 0 < rank % p <;> by_cases h4 : rank % p < p - 1 <;>
    simp [peers, program, iterationBody, h1, h2, h3, h4, Stmt.peer]

theorem mem_peers_iff (p local_L rank q : Nat) :
    q ∈ peers p local_L rank ↔
      (0 < rank / p ∧ q = rank - p) ∨ (rank / p < p - 1 ∧ q = rank + p) ∨
      (0 < rank % p ∧ q = rank - 1) ∨ (rank % p < p - 1 ∧ q = rank + 1) := by
  rw [peers_eq]
  by_cases h1 : 0 < rank / p <;> by_cases h2 : rank / p < p - 1 <;>
    by_cases h3 : 0 < rank % p <;> by_cases h4 : rank % p < p - 1 <;>
    simp [h1, h2, h3, h4] <;> tauto

/-- C8: process `rank` at position `(rank / p, rank % p)` exchanges messages with
`rank-p` exactly when its row is positive, with `rank+p` exactly when its row is
below `p-1`, with `rank-1` exactly when its column is positive and with `rank+1`
exactly when its column is below `p-1`. Every rank it exchanges messages with is a
rank of the run and sits at the position directly above, below, left or right. -/
theorem C8_neighbour_topology (p local_L rank : Nat) (hp : 1 ≤ p) (hlt : rank < p * p) :
    ((∃ q ∈ peers p local_L rank, q + p = rank) ↔ 0 < rank / p) ∧
    (rank + p ∈ peers p local_L rank ↔ rank / p < p - 1) ∧
    ((∃ q ∈ peers p local_L rank, q + 1 = rank) ↔ 0 < rank % p) ∧
    (rank + 1 ∈ peers p local_L rank ↔ rank % p < p - 1) ∧
    ∀ q ∈ peers p local_L rank, q < p * p ∧
      ((q + p = rank ∧ q / p + 1 = rank / p ∧ q % p = rank % p) ∨
       (q = rank + p ∧ q / p = rank / p + 1 ∧ q % p = rank % p) ∨
       (q + 1 = rank ∧ q / p = rank / p ∧ q % p + 1 = rank % p) ∨
       (q = rank + 1 ∧ q / p = rank / p ∧ q % p = rank % p + 1)) := by
  have hc := Nat.mod_lt rank hp
  have hr0 := Nat.zero_le (rank / p)
  have hone : p = 1 → p * p = 1 := fun h => by rw [h]
  refine ⟨⟨?_, ?_⟩, ⟨?_, ?_⟩, ⟨?_, ?_⟩, ⟨?_, ?_⟩, ?_⟩
  · rintro ⟨q, hq, hqp⟩
    rcases (mem_peers_iff p local_L rank q).mp hq with ⟨h, _⟩ | ⟨_, h⟩ | ⟨h, h'⟩ | ⟨_, h⟩
    · exact h
    · omega
    · omega
    · omega
  · intro h
    obtain ⟨h1, _, _⟩ := up_position hp h
    exact ⟨rank - p, (mem_peers_iff p local_L rank _).mpr (Or.inl ⟨h, rfl⟩), by omega⟩
  · intro hq
    rcases (mem_peers_iff p local_L rank _).mp hq with ⟨h, h'⟩ | ⟨h, _⟩ | ⟨h, h'⟩ | ⟨h, h'⟩
    · omega
    · exact h
    · omega
    · omega
  · intro h
    exact (mem_peers_iff p local_L rank _).mpr (Or.inr (Or.inl ⟨h, rfl⟩))
  · rintro ⟨q, hq, hqp⟩
    rcases (mem_peers_iff p local_L rank q).mp hq with ⟨h, h'⟩ | ⟨_, h⟩ | ⟨h, _⟩ | ⟨_, h⟩
    · obtain ⟨h1, _, _⟩ := up_position hp h
      omega
    · omega
    · exact h
    · omega
  · intro h
    obtain ⟨h1, _, _⟩ := left_position hp h
    exact ⟨rank - 1, (mem_peers_iff p local_L rank _).mpr (Or.inr (Or.inr (Or.inl ⟨h, rfl⟩))),
      by omega⟩
  · intro hq
    rcases (mem_peers_iff p local_L rank _).mp hq with ⟨h, h'⟩ | ⟨h, h'⟩ | ⟨h, h'⟩ | ⟨h, h'⟩
    · omega
    · omega
    · omega
    · exact h
  · intro h
    exact (mem_peers_iff p local_L rank _).mpr (Or.inr (Or.inr (Or.inr ⟨h, rfl⟩)))
  · intro q hq
    rcases (mem_peers_iff p local_L rank q).mp hq with ⟨h, h'⟩ | ⟨h, h'⟩ | ⟨h, h'⟩ | ⟨h, h'⟩
    · obtain ⟨h1, h2, h3⟩ := up_position hp h
      subst h'
      exact ⟨by omega, Or.inl ⟨by omega, h2, h3⟩⟩
    · obtain ⟨h1, h2, h3⟩ := down_position hlt h
      subst h'
      exact ⟨h1, Or.inr (Or.inl ⟨rfl, h2, h3⟩)⟩
    · obtain ⟨h1, h2, h3⟩ := left_position hp h
      subst h'
      exact ⟨by omega, Or.inr (Or.inr (Or.inl ⟨by omega, h2, h3⟩))⟩
    · obtain ⟨h1, h2, h3⟩ := right_position hlt h
      subst h'
      exact ⟨h1, Or.inr (Or.inr (Or.inr ⟨rfl, h2, h3⟩))⟩

/-- C8 at `p = 2`, `rank = 3` (position `(1, 1)`). -/
theorem C8_neighbour_topology_witness :
    ((∃ q ∈ peers 2 4 3, q + 2 = 3) ↔ 0 < 3 / 2) ∧
    (3 + 2 ∈ peers 2 4 3 ↔ 3 / 2 < 2 - 1) ∧
    ((∃ q ∈ peers 2 4 3, q + 1 = 3) ↔ 0 < 3 % 2) ∧
    (3 + 1 ∈ peers 2 4 3 ↔ 3 % 2 < 2 - 1) ∧
    ∀ q ∈ peers 2 4 3, q < 2 * 2 ∧
      ((q + 2 = 3 ∧ q / 2 + 1 = 3 / 2 ∧ q % 2 = 3 % 2) ∨
       (q = 3 + 2 ∧ q / 2 = 3 / 2 + 1 ∧ q % 2 = 3 % 2) ∨
       (q + 1 = 3 ∧ q / 2 = 3 / 2 ∧ q % 2 + 1 = 3 % 2) ∨
       (q = 3 + 1 ∧ q / 2 = 3 / 2 ∧ q % 2 = 3 % 2 + 1)) :=
  C8_neighbour_topology 2 4 3 (by decide) (by decide)

/-! ## Matching of sends and receives -/

theorem sendCount_eq (p local_L a b : Nat) :
    (program p local_L a).countP (Stmt.sendsTo b) =
      (if 0 < a / p ∧ a - p = b then 1 else 0) + (if a / p < p - 1 ∧ a + p = b then 1 else 0)
      + (if 0 < a % p ∧ a - 1 = b then 1 else 0)
      + (if a % p < p - 1 ∧ a + 1 = b then 1 else 0) := by
  by_cases h1 : 0 < a / p <;> by_cases h2 : a / p < p - 1 <;>
    by_cases h3 : 0 < a % p <;> by_cases h4 : a % p < p - 1 <;>
    simp [program, iterationBody, h1, h2, h3, h4, Stmt.sendsTo, List.countP_cons] <;> ring

theorem recvCount_eq (p local_L a b : Nat) :
    (program p local_L b).countP (Stmt.receivesFrom a) =
      (if b / p < p - 1 ∧ b + p = a then 1 else 0) + (if 0 < b / p ∧ b - p = a then 1 else 0)
      + (if b % p < p - 1 ∧ b + 1 = a then 1 else 0)
      + (if 0 < b % p ∧ b - 1 = a then 1 else 0) := by
  by_cases h1 : 0 < b / p <;> by_cases h2 : b / p < p - 1 <;>
    by_cases h3 : 0 < b % p <;> by_cases h4 : b % p < p - 1 <;>
    simp [program, iterationBody, h1, h2, h3, h4, Stmt.receivesFrom, List.countP_cons] <;> ring

theorem rank_of_position (p x : Nat) : x = p * (x / p) + x % p :=
  (Nat.div_add_mod x p).symm

theorem above_iff {p a b : Nat} (hp : 1 ≤ p) :
    (0 < a / p ∧ a - p = b) ↔ (a % p = b % p ∧ b / p + 1 = a / p) := by
  constructor
  · rintro ⟨h, rfl⟩
    obtain ⟨_, h2, h3⟩ := up_position hp h
    exact ⟨h3.symm, h2⟩
  · rintro ⟨hc, hr⟩
    have ha := rank_of_position p a
    have hb := rank_of_position p b
    have hb0 := Nat.zero_le (b / p)
    rw [← hr, Nat.mul_succ, hc] at ha
    exact ⟨by omega, by omega⟩

theorem below_iff {p a b : Nat} (hb : b < p * p) :
    (a / p < p - 1 ∧ a + p = b) ↔ (a % p = b % p ∧ a / p + 1 = b / p) := by
  constructor
  · rintro ⟨h, rfl⟩
    have hp : 1 ≤ p := by
      rcases Nat.eq_zero_or_pos p with h0 | h0
      · subst h0; simp at h
      · exact h0
    exact ⟨(Nat.add_mod_right a p).symm, (Nat.add_div_right a hp).symm⟩
  · rintro ⟨hc, hr⟩
    have ha := rank_of_position p a
    have hb' := rank_of_position p b
    have hrb := row_lt_side hb
    rw [← hr, Nat.mul_succ, ← hc] at hb'
    exact ⟨by omega, by omega⟩

theorem left_iff {p a b : Nat} (hp : 1 ≤ p) :
    (0 < a % p ∧ a - 1 = b) ↔ (a / p = b / p ∧ b % p + 1 = a % p) := by
  constructor
  · rintro ⟨h, rfl⟩
    obtain ⟨_, h2, h3⟩ := left_position hp h
    exact ⟨h2.symm, h3⟩
  · rintro ⟨hr, hc⟩
    have ha := rank_of_position p a
    have hb := rank_of_position p b
    rw [← hr] at hb
    exact ⟨by omega, by omega⟩

theorem right_iff {p a b : Nat} (ha : a < p * p) (hp : 1 ≤ p) :
    (a % p < p - 1 ∧ a + 1 = b) ↔ (a / p = b / p ∧ a % p + 1 = b % p) := by
  constructor
  · rintro ⟨h, rfl⟩
    obtain ⟨_, h2, h3⟩ := right_position ha h
    exact ⟨h2.symm, h3.symm⟩
  · rintro ⟨hr, hc⟩
    have ha' := rank_of_position p a
    have hb := rank_of_position p b
    have hcb := Nat.mod_lt b hp
    rw [← hr] at hb
    exact ⟨by omega, by omega⟩

/-- C9: within one iteration the number of sends process `a` issues to process `b`
equals the number of receives `b` posts from `a`; it is 1 when `a` and `b` are
neighbours in the `p x p` topology and 0 otherwise, and every send and receive of
the iteration transfers exactly `local_L` floats. -/
theorem C9_sends_match_receives (p local_L a b : Nat) (hp : 1 ≤ p)
    (ha : a < p * p) (hb : b < p * p) :
    (program p local_L a).countP (Stmt.sendsTo b)
        = (program p local_L b).countP (Stmt.receivesFrom a) ∧
    (program p local_L a).countP (Stmt.sendsTo b) = (if adjacent p a b then 1 else 0) ∧
    (∀ s ∈ program p local_L a, ∀ n, s.count = some n → n = local_L) ∧
    (∀ s ∈ program p local_L b, ∀ n, s.count = some n → n = local_L) := by
  have hcount : ∀ rank, ∀ s ∈ program p local_L rank, ∀ n, s.count = some n → n = local_L := by
    intro rank s hs n hn
    simp only [program, iterationBody, List.mem_map, List.mem_filter, List.mem_cons,
      List.not_mem_nil, or_false] at hs
    obtain ⟨ln, ⟨hl, _⟩, rfl⟩ := hs
    rcases hl with h | h | h | h | h | h | h | h | h | h | h | h | h | h | h | h | h <;>
      subst h <;> simp [Stmt.count] at hn <;> omega
  refine ⟨?_, ?_, hcount a, hcount b⟩
  · rw [sendCount_eq, recvCount_eq]
    simp only [above_iff hp, below_iff hb, left_iff hp, right_iff ha hp,
      below_iff ha, right_iff hb hp]
    split_ifs <;> omega
  · rw [sendCount_eq]
    simp only [above_iff hp, below_iff hb, left_iff hp, right_iff ha hp]
    unfold adjacent
    split_ifs <;> omega

/-- C9 at `p = 2`, `local_L = 4`, from rank 1 to rank 3 (its lower neighbour). -/
theorem C9_sends_match_receives_witness :
    (program 2 4 1).countP (Stmt.sendsTo 3) = (program 2 4 3).countP (Stmt.receivesFrom 1) ∧
    (program 2 4 1).countP (Stmt.sendsTo 3) = (if adjacent 2 1 3 then 1 else 0) ∧
    (∀ s ∈ program 2 4 1, ∀ n, s.count = some n → n = 4) ∧
    (∀ s ∈ program 2 4 3, ∀ n, s.count = some n → n = 4) :=
  C9_sends_match_receives 2 4 1 3 (by decide) (by decide) (by decide)

/-! ## Requests still pending at the edge update -/

theorem pending_before_edge (p local_L rank : Nat) :
    (requestsBeforeEdge p local_L rank Requests.initial).pending =
      if 0 < rank / p ∧ rank / p < p - 1 then
        [Stmt.MPI_Isend (_index local_L 1 1) local_L (rank - p) Handle.Urequest,
         Stmt.MPI_Isend (_index local_L local_L 1) local_L (rank + p) Handle.Lrequest]
      else [] := by
  by_cases h1 : 0 < rank / p <;> by_cases h2 : rank / p < p - 1 <;>
    by_cases h3 : 0 < rank % p <;> by_cases h4 : rank % p < p - 1 <;>
    simp [requestsBeforeEdge, program, iterationBody, h1, h2, h3, h4, trackRequests,
      Requests.initial, Requests.get, Requests.set, List.takeWhile]

/-- C3 fails on the code: with `L = 8` on 16 processes (`p = 4`, `local_L = 2`) the
process of rank 4 (row 1 of 4) reaches the edge update of an iteration with both of
its `MPI_Isend` requests still pending: each was overwritten in its handle by the
`MPI_Irecv` that follows, so the two `MPI_Wait` calls completed the receives only. -/
theorem C3_sends_left_unwaited :
    (requestsBeforeEdge 4 2 4 Requests.initial).pending =
      [Stmt.MPI_Isend (_index 2 1 1) 2 0 Handle.Urequest,
       Stmt.MPI_Isend (_index 2 2 1) 2 8 Handle.Lrequest] := by
  decide

/-! ## Loops, cells and buffers -/

theorem foldl_induct {σ : Type} (P : σ → Prop) (body : Nat → σ → σ) (Q : Nat → Prop) :
    ∀ (xs : List Nat) (s : σ), (∀ i ∈ xs, Q i) → P s →
      (∀ i s, Q i → P s → P (body i s)) → P (xs.foldl (fun s i => body i s) s) := by
  intro xs
  induction xs with
  | nil => intro s _ h0 _; exact h0
  | cons x xs ih =>
    intro s hQ h0 hstep
    rw [List.foldl_cons]
    exact ih (body x s) (fun i hi => hQ i (List.mem_cons_of_mem _ hi))
      (hstep x s (hQ x (List.mem_cons_self _ _)) h0) hstep

/-- A property that holds before a `for` loop and is kept by every pass of its body
holds after the loop. -/
theorem forLoop_induct {σ : Type} (P : σ → Prop) (lo hi : Nat) (body : Nat → σ → σ) (s : σ)
    (h0 : P s) (hstep : ∀ i s, lo ≤ i → i < hi → P s → P (body i s)) :
    P (forLoop lo hi body s) := by
  unfold forLoop
  refine foldl_induct P body (fun i => lo ≤ i ∧ i < hi) _ s ?_ h0
    (fun i s hi hs => hstep i s hi.1 hi.2 hs)
  intro i hi
  rw [List.mem_range'_1] at hi
  omega

theorem setCell_same (a : Nat → ℚ) (i : Nat) (v : ℚ) : setCell a i v i = v := by
  simp [setCell]

theorem setCell_other (a : Nat → ℚ) (i j : Nat) (v : ℚ) (h : j ≠ i) : setCell a i v j = a j := by
  simp [setCell, h]

/-- A loop of cell assignments leaves every cell it does not assign unchanged. -/
theorem forLoop_setCell_other (lo hi : Nat) (ix : Nat → Nat) (v : Nat → (Nat → ℚ) → ℚ)
    (a : Nat → ℚ) (x : Nat) (h : ∀ i, lo ≤ i → i < hi → ix i ≠ x) :
    forLoop lo hi (fun i a => setCell a (ix i) (v i a)) a x = a x := by
  refine forLoop_induct (fun b => b x = a x) lo hi _ a rfl ?_
  intro i s h1 h2 hs
  show setCell s (ix i) (v i s) x = a x
  rw [setCell_other _ _ _ _ (fun hx => h i h1 h2 hx.symm), hs]

/-- A loop assigning `a[ix i] = v i` for `i = lo .. hi-1`, with `ix` one-to-one on
that range, leaves `v i` in cell `ix i`. -/
theorem forLoop_setCell_at (lo hi : Nat) (ix : Nat → Nat) (v : Nat → ℚ) (a : Nat → ℚ)
    (hinj : ∀ i j, lo ≤ i → i < hi → lo ≤ j → j < hi → ix i = ix j → i = j)
    (i : Nat) (h1 : lo ≤ i) (h2 : i < hi) :
    forLoop lo hi (fun i a => setCell a (ix i) (v i)) a (ix i) = v i := by
  have key : ∀ (n lo' : Nat) (a : Nat → ℚ), lo ≤ lo' → lo' + n ≤ hi → lo' ≤ i → i < lo' + n →
      (List.range' lo' n).foldl (fun a i => setCell a (ix i) (v i)) a (ix i) = v i := by
    intro n
    induction n with
    | zero => intro lo' a _ _ h3 h4; omega
    | succ n ih =>
      intro lo' a hlo hhi h3 h4
      rw [List.range'_succ, List.foldl_cons]
      by_cases hi' : i = lo'
      · subst hi'
        have hmiss := foldl_induct (fun b : Nat → ℚ => b (ix i) = v i)
          (fun j b => setCell b (ix j) (v j)) (fun j => i + 1 ≤ j ∧ j < hi)
          (List.range' (i + 1) n) (setCell a (ix i) (v i))
          (by intro j hj; rw [List.mem_range'_1] at hj; omega)
          (setCell_same _ _ _)
          (by
            intro j s hj hs
            show setCell s (ix j) (v j) (ix i) = v i
            rw [setCell_other _ _ _ _ (fun hx => by
              have := hinj i j (by omega) (by omega) (by omega) hj.2 hx
              omega), hs])
        exact hmiss
      · exact ih (lo' + 1) _ (by omega) (by omega) (by omega) (by omega)
  unfold forLoop
  exact key (hi - lo) lo a (le_refl _) (by omega) h1 (by omega)

theorem _index_inj {l r c r' c' : Nat} (hc : c < l + 2) (hc' : c' < l + 2)
    (h : _index l r c = _index l r' c') : r = r' ∧ c = c' := by
  unfold _index at h
  have e1 := position_unique (l + 2) (r * (l + 2) + c) r c hc (by ring)
  have e2 := position_unique (l + 2) (r' * (l + 2) + c') r' c' hc' (by ring)
  rw [h] at e1
  exact ⟨e1.1.symm.trans e2.1, e1.2.symm.trans e2.2⟩

theorem readFrom_length (a : Nat → ℚ) (buf count : Nat) :
    (readFrom a buf count).length = count := by
  simp [readFrom]

theorem readFrom_getD (a : Nat → ℚ) (buf count k : Nat) (h : k < count) :
    (readFrom a buf count).getD k 0 = a (buf + k) := by
  simp [readFrom, List.getD_eq_getElem?_getD, h]

theorem storeAt_other (a : Nat → ℚ) (buf : Nat) (msg : List ℚ) (i : Nat)
    (h : ¬ (buf ≤ i ∧ i < buf + msg.length)) : storeAt a buf msg i = a i := by
  simp only [storeAt, h, if_false]

theorem storeAt_readFrom (a b : Nat → ℚ) (buf src count k : Nat) (h : k < count) :
    storeAt a buf ((readFrom b src count).take count) (buf + k) = b (src + k) := by
  rw [List.take_of_length_le (by rw [readFrom_length])]
  simp only [storeAt, readFrom_length]
  rw [if_pos ⟨by omega, by omega⟩, Nat.add_sub_cancel_left, readFrom_getD _ _ _ _ h]


theorem _index_in_row {l r c n i j : Nat} (hn : c + n ≤ l + 2) (hj : j < l + 2)
    (h1 : _index l r c ≤ _index l i j) (h2 : _index l i j < _index l r c + n) :
    i = r ∧ c ≤ j ∧ j < c + n := by
  obtain ⟨k, hk⟩ : ∃ k, _index l i j = _index l r c + k := ⟨_, (Nat.add_sub_cancel' h1).symm⟩
  have hk' : _index l i j = _index l r (c + k) := by rw [hk]; unfold _index; ring
  obtain ⟨e1, e2⟩ := _index_inj hj (by omega) hk'
  exact ⟨e1, by omega, by omega⟩

/-- The interior update writes interior cells only. -/
theorem interiorUpdate_frame (l : Nat) (g : Nat → ℚ) (i j : Nat) (hj : j < l + 2)
    (h : ¬ (2 ≤ i ∧ i < l ∧ 2 ≤ j ∧ j < l)) :
    interiorUpdate l g (_index l i j) = g (_index l i j) := by
  unfold interiorUpdate
  refine forLoop_induct (fun b => b (_index l i j) = g (_index l i j)) 2 l _ g rfl ?_
  intro row s hr1 hr2 hs
  show forLoop 2 l _ s (_index l i j) = g (_index l i j)
  rw [forLoop_setCell_other 2 l (fun col => _index l row col) (fun col a => stencil l a row col)
    s (_index l i j) ?_, hs]
  intro col hc1 hc2 he
  obtain ⟨e1, e2⟩ := _index_inj (by omega) hj he
  omega

/-- The edge update writes owned cells only. -/
theorem edgeUpdate_frame (l : Nat) (g : Nat → ℚ) (i j : Nat) (hj : j < l + 2)
    (h : ¬ (1 ≤ i ∧ i ≤ l ∧ 1 ≤ j ∧ j ≤ l)) :
    edgeUpdate l g (_index l i j) = g (_index l i j) := by
  unfold edgeUpdate
  refine forLoop_induct (fun b => b (_index l i j) = g (_index l i j)) 1 (l + 1) _ g rfl ?_
  intro row s hr1 hr2 hs
  show forLoop 1 (l + 1) _ s (_index l i j) = g (_index l i j)
  refine (forLoop_induct (fun b => b (_index l i j) = s (_index l i j)) 1 (l + 1) _ s rfl ?_).trans hs
  intro col t hc1 hc2 ht
  show (if row = 1 ∨ row = l ∨ col = 1 ∨ col = l then
      setCell t (_index l row col) (stencil l t row col) else t) (_index l i j) = _
  split
  · rw [setCell_other _ _ _ _ ?_, ht]
    intro he
    obtain ⟨e1, e2⟩ := _index_inj hj (by omega) he
    omega
  · exact ht


theorem mem_program {p l w : Nat} {s : Stmt} (hs : s ∈ program p l w) :
      s = .declareRequests ∨
      (0 < w / p ∧ s = .MPI_Isend (_index l 1 1) l (w - p) .Urequest) ∨
      (w / p < p - 1 ∧ s = .MPI_Irecv (_index l (l + 1) 1) l (w + p) .Urequest) ∨
      (w / p < p - 1 ∧ s = .MPI_Isend (_index l l 1) l (w + p) .Lrequest) ∨
      (0 < w / p ∧ s = .MPI_Irecv (_index l 0 1) l (w - p) .Lrequest) ∨
      (0 < w % p ∧ s = .packColumn 1) ∨
      (0 < w % p ∧ s = .MPI_Send l (w - 1)) ∨
      (w % p < p - 1 ∧ s = .MPI_Recv l (w + 1)) ∨
      (w % p < p - 1 ∧ s = .unpackColumn (l + 1)) ∨
      (w % p < p - 1 ∧ s = .packColumn l) ∨
      (w % p < p - 1 ∧ s = .MPI_Send l (w + 1)) ∨
      (0 < w % p ∧ s = .MPI_Recv l (w - 1)) ∨
      (0 < w % p ∧ s = .unpackColumn 0) ∨
      s = .interiorUpdate ∨ s = .MPI_Wait .Urequest ∨ s = .MPI_Wait .Lrequest ∨
      s = .edgeUpdate := by
  simp only [program, iterationBody, List.mem_map, List.mem_filter, List.mem_cons,
    List.not_mem_nil, or_false] at hs
  obtain ⟨ln, ⟨hl, hg⟩, rfl⟩ := hs
  rcases hl with h | h | h | h | h | h | h | h | h | h | h | h | h | h | h | h | h <;>
    subst h <;> simp at hg ⊢ <;> simp [hg]

theorem handlesOK_of_eq {p l w : Nat} {rq rq' : Requests} (h : handlesOK p l w rq)
    (hU : rq'.Urequest = rq.Urequest) (hL : rq'.Lrequest = rq.Lrequest) :
    handlesOK p l w rq' := by
  unfold handlesOK at *
  rw [hU, hL]
  exact h

/-- Every statement of the program of process `w` keeps `zeroBoundary`, whatever
message it receives. -/
theorem execLocal_keeps (p l w : Nat) (s : Stmt) (hs : s ∈ program p l w)
    (incoming : Option (List ℚ)) (pr : Proc) (h : zeroBoundary p l w pr) :
    zeroBoundary p l w (execLocal l s incoming pr) := by
  obtain ⟨hH, hZ⟩ := h
  have hr0 := Nat.zero_le (w / p)
  have hc0 := Nat.zero_le (w % p)
  rcases mem_program hs with h | ⟨hg, h⟩ | ⟨hg, h⟩ | ⟨hg, h⟩ | ⟨hg, h⟩ | ⟨hg, h⟩ | ⟨hg, h⟩ |
    ⟨hg, h⟩ | ⟨hg, h⟩ | ⟨hg, h⟩ | ⟨hg, h⟩ | ⟨hg, h⟩ | ⟨hg, h⟩ | h | h | h | h
  all_goals subst h
  · -- declareRequests
    refine ⟨?_, hZ⟩
    constructor <;> intro buf count src hd hh <;> simp [execLocal, trackRequests] at hh
  · -- MPI_Isend, Urequest
    refine ⟨?_, hZ⟩
    constructor
    · intro buf count src hd hh
      simp [execLocal, trackRequests, Requests.set] at hh
    · intro buf count src hd hh
      exact hH.2 buf count src hd (by simpa [execLocal, trackRequests, Requests.set] using hh)
  · -- MPI_Irecv, Urequest
    refine ⟨?_, hZ⟩
    constructor
    · intro buf count src hd hh
      simp [execLocal, trackRequests, Requests.set] at hh
      exact ⟨hh.1.symm, hh.2.1.symm, hg⟩
    · intro buf count src hd hh
      exact hH.2 buf count src hd (by simpa [execLocal, trackRequests, Requests.set] using hh)
  · -- MPI_Isend, Lrequest
    refine ⟨?_, hZ⟩
    constructor
    · intro buf count src hd hh
      exact hH.1 buf count src hd (by simpa [execLocal, trackRequests, Requests.set] using hh)
    · intro buf count src hd hh
      simp [execLocal, trackRequests, Requests.set] at hh
  · -- MPI_Irecv, Lrequest
    refine ⟨?_, hZ⟩
    constructor
    · intro buf count src hd hh
      exact hH.1 buf count src hd (by simpa [execLocal, trackRequests, Requests.set] using hh)
    · intro buf count src hd hh
      simp [execLocal, trackRequests, Requests.set] at hh
      exact ⟨hh.1.symm, hh.2.1.symm, hg⟩
  · exact ⟨hH, hZ⟩
  · exact ⟨hH, hZ⟩
  · cases incoming <;> exact ⟨hH, hZ⟩
  · -- unpackColumn (l + 1)
    refine ⟨hH, ?_⟩
    intro i j hi hj hb
    show forLoop 1 (l + 1) _ pr.grid (_index l i j) = 0
    rw [forLoop_setCell_other 1 (l + 1) (fun row => _index l row (l + 1))
      (fun row _ => pr.column (row - 1)) pr.grid (_index l i j) ?_]
    · exact hZ i j hi hj hb
    · intro row h1 h2 he
      obtain ⟨e1, e2⟩ := _index_inj (by omega) (by omega) he
      unfold boundaryCell at hb
      omega
  · exact ⟨hH, hZ⟩
  · exact ⟨hH, hZ⟩
  · cases incoming <;> exact ⟨hH, hZ⟩
  · -- unpackColumn 0
    refine ⟨hH, ?_⟩
    intro i j hi hj hb
    show forLoop 1 (l + 1) _ pr.grid (_index l i j) = 0
    rw [forLoop_setCell_other 1 (l + 1) (fun row => _index l row 0)
      (fun row _ => pr.column (row - 1)) pr.grid (_index l i j) ?_]
    · exact hZ i j hi hj hb
    · intro row h1 h2 he
      obtain ⟨e1, e2⟩ := _index_inj (by omega) (by omega) he
      unfold boundaryCell at hb
      omega
  · -- interiorUpdate
    refine ⟨hH, ?_⟩
    intro i j hi hj hb
    show interiorUpdate l pr.grid (_index l i j) = 0
    rw [interiorUpdate_frame l _ i j (by omega) (by unfold boundaryCell at hb; omega)]
    exact hZ i j hi hj hb
  · -- MPI_Wait Urequest
    rcases hU : pr.req.Urequest with _ | _ | call
    · refine ⟨?_, by simpa [execLocal, Requests.get, hU] using hZ⟩
      exact handlesOK_of_eq hH (by simp [execLocal, trackRequests, Requests.get, hU])
        (by simp [execLocal, trackRequests, Requests.get, hU])
    · refine ⟨?_, by simpa [execLocal, Requests.get, hU] using hZ⟩
      exact handlesOK_of_eq hH (by simp [execLocal, trackRequests, Requests.get, hU])
        (by simp [execLocal, trackRequests, Requests.get, hU])
    · have hH' : handlesOK p l w (trackRequests pr.req (.MPI_Wait .Urequest)) := by
        constructor
        · intro buf count src hd hh
          simp [trackRequests, Requests.get, Requests.set, hU] at hh
        · intro buf count src hd hh
          exact hH.2 buf count src hd
            (by simpa [trackRequests, Requests.get, Requests.set, hU] using hh)
      cases call with
      | MPI_Irecv buf count src hd =>
        obtain ⟨hbuf, hcount, hrow⟩ := hH.1 buf count src hd hU
        cases incoming with
        | none => exact ⟨by simpa [execLocal, Requests.get, hU] using hH',
            by simpa [execLocal, Requests.get, hU] using hZ⟩
        | some msg =>
          refine ⟨by simpa [execLocal, Requests.get, hU] using hH', ?_⟩
          intro i j hi hj hb
          have hlen : (msg.take count).length ≤ l := by
            rw [List.length_take, hcount]; exact Nat.min_le_left _ _
          simp only [execLocal, Requests.get, hU]
          rw [storeAt_other _ _ _ _ ?_]
          · exact hZ i j hi hj hb
          · rintro ⟨h1, h2⟩
            rw [hbuf] at h1 h2
            obtain ⟨e1, e2, e3⟩ := _index_in_row (n := (msg.take count).length)
              (by omega) (by omega) h1 h2
            unfold boundaryCell at hb
            omega
      | _ => exact ⟨by simpa [execLocal, Requests.get, hU] using hH',
            by simpa [execLocal, Requests.get, hU] using hZ⟩
  · -- MPI_Wait Lrequest
    rcases hU : pr.req.Lrequest with _ | _ | call
    · refine ⟨?_, by simpa [execLocal, Requests.get, hU] using hZ⟩
      exact handlesOK_of_eq hH (by simp [execLocal, trackRequests, Requests.get, hU])
        (by simp [execLocal, trackRequests, Requests.get, hU])
    · refine ⟨?_, by simpa [execLocal, Requests.get, hU] using hZ⟩
      exact handlesOK_of_eq hH (by simp [execLocal, trackRequests, Requests.get, hU])
        (by simp [execLocal, trackRequests, Requests.get, hU])
    · have hH' : handlesOK p l w (trackRequests pr.req (.MPI_Wait .Lrequest)) := by
        constructor
        · intro buf count src hd hh
          exact hH.1 buf count src hd
            (by simpa [trackRequests, Requests.get, Requests.set, hU] using hh)
        · intro buf count src hd hh
          simp [trackRequests, Requests.get, Requests.set, hU] at hh
      cases call with
      | MPI_Irecv buf count src hd =>
        obtain ⟨hbuf, hcount, hrow⟩ := hH.2 buf count src hd hU
        cases incoming with
        | none => exact ⟨by simpa [execLocal, Requests.get, hU] using hH',
            by simpa [execLocal, Requests.get, hU] using hZ⟩
        | some msg =>
          refine ⟨by simpa [execLocal, Requests.get, hU] using hH', ?_⟩
          intro i j hi hj hb
          have hlen : (msg.take count).length ≤ l := by
            rw [List.length_take, hcount]; exact Nat.min_le_left _ _
          simp only [execLocal, Requests.get, hU]
          rw [storeAt_other _ _ _ _ ?_]
          · exact hZ i j hi hj hb
          · rintro ⟨h1, h2⟩
            rw [hbuf] at h1 h2
            obtain ⟨e1, e2, e3⟩ := _index_in_row (n := (msg.take count).length)
              (by omega) (by omega) h1 h2
            unfold boundaryCell at hb
            omega
      | _ => exact ⟨by simpa [execLocal, Requests.get, hU] using hH',
            by simpa [execLocal, Requests.get, hU] using hZ⟩
  · -- edgeUpdate
    refine ⟨hH, ?_⟩
    intro i j hi hj hb
    show edgeUpdate l pr.grid (_index l i j) = 0
    rw [edgeUpdate_frame l _ i j (by omega) (by unfold boundaryCell at hb; omega)]
    exact hZ i j hi hj hb

/-! ## Lockstep execution, line by line -/

theorem lockstep_cons (p l : Nat) (ln : Line) (lines : List Line) (W : World) :
    lockstep p l (ln :: lines) W = lockstep p l lines (execLine (p * p) l ln W) := rfl

theorem lockstep_nil (p l : Nat) (W : World) : lockstep p l [] W = W := rfl

theorem lockstep_append (p l : Nat) (xs ys : List Line) (W : World) :
    lockstep p l (xs ++ ys) W = lockstep p l ys (lockstep p l xs W) := by
  simp [lockstep, List.foldl_append]

/-! ### The effect of a statement on each part of the process state -/

theorem execLocal_req (l : Nat) (s : Stmt) (inc : Option (List ℚ)) (pr : Proc) :
    (execLocal l s inc pr).req = trackRequests pr.req s := by
  cases s <;> simp only [execLocal]
  · cases inc <;> rfl
  · rename_i h
    split
    · cases inc <;> rfl
    · rfl

theorem execLocal_grid (l : Nat) (s : Stmt) (inc : Option (List ℚ)) (pr : Proc)
    (hs : (∀ col, s ≠ .unpackColumn col) ∧ s ≠ .interiorUpdate ∧ (∀ h, s ≠ .MPI_Wait h)
      ∧ s ≠ .edgeUpdate) :
    (execLocal l s inc pr).grid = pr.grid := by
  obtain ⟨h1, h2, h3, h4⟩ := hs
  cases s <;> simp only [execLocal]
  · cases inc <;> rfl
  · exact absurd rfl (h1 _)
  · exact absurd rfl h2
  · exact absurd rfl (h3 _)
  · exact absurd rfl h4

theorem execLocal_column (l : Nat) (s : Stmt) (inc : Option (List ℚ)) (pr : Proc)
    (hs : (∀ col, s ≠ .packColumn col) ∧ (∀ count source, s ≠ .MPI_Recv count source)) :
    (execLocal l s inc pr).column = pr.column := by
  obtain ⟨h1, h2⟩ := hs
  cases s <;> simp only [execLocal]
  · exact absurd rfl (h1 _)
  · exact absurd rfl (h2 _ _)
  · split
    · cases inc <;> rfl
    · rfl

theorem execLocal_starved (l : Nat) (s : Stmt) (inc : Option (List ℚ)) (pr : Proc)
    (hs : (∀ count source, s ≠ .MPI_Recv count source) ∧ (∀ h, s ≠ .MPI_Wait h)) :
    (execLocal l s inc pr).starved = pr.starved := by
  obtain ⟨h1, h2⟩ := hs
  cases s <;> simp only [execLocal]
  · exact absurd rfl (h1 _ _)
  · exact absurd rfl (h2 _)


/-! ### The effect of one line on the world, by kind of statement -/

theorem execLine_proc (P l : Nat) (ln : Line) (W : World) (w : Nat) :
    (execLine P l ln W).proc w =
      if (decide (w < P) && ln.guard w) = true then
        execLocal l (ln.stmt w)
          (((ln.stmt w).awaits (W.proc w).req).bind (fun source => (W.chan source w).head?))
          (W.proc w)
      else W.proc w := rfl

theorem execLine_req (P l : Nat) (ln : Line) (W : World) (w : Nat) :
    ((execLine P l ln W).proc w).req =
      if w < P ∧ ln.guard w = true then trackRequests (W.proc w).req (ln.stmt w)
      else (W.proc w).req := by
  rw [execLine_proc]
  by_cases h : w < P ∧ ln.guard w = true
  · rw [if_pos (by simpa using h), if_pos h, execLocal_req]
  · rw [if_neg (by simpa using h), if_neg h]

theorem execLine_grid_same (P l : Nat) (ln : Line) (W : World) (w : Nat)
    (hs : (∀ col, ln.stmt w ≠ .unpackColumn col) ∧ ln.stmt w ≠ .interiorUpdate
      ∧ (∀ h, ln.stmt w ≠ .MPI_Wait h) ∧ ln.stmt w ≠ .edgeUpdate) :
    ((execLine P l ln W).proc w).grid = (W.proc w).grid := by
  rw [execLine_proc]
  split
  · exact execLocal_grid l _ _ _ hs
  · rfl

theorem execLine_column_same (P l : Nat) (ln : Line) (W : World) (w : Nat)
    (hs : (∀ col, ln.stmt w ≠ .packColumn col) ∧ (∀ count source, ln.stmt w ≠ .MPI_Recv count source)) :
    ((execLine P l ln W).proc w).column = (W.proc w).column := by
  rw [execLine_proc]
  split
  · exact execLocal_column l _ _ _ hs
  · rfl

theorem execLine_starved_same (P l : Nat) (ln : Line) (W : World) (w : Nat)
    (hs : (∀ count source, ln.stmt w ≠ .MPI_Recv count source) ∧ (∀ h, ln.stmt w ≠ .MPI_Wait h)) :
    ((execLine P l ln W).proc w).starved = (W.proc w).starved := by
  rw [execLine_proc]
  split
  · exact execLocal_starved l _ _ _ hs
  · rfl

theorem execLine_chan_same (P l : Nat) (ln : Line) (W : World) (s d : Nat)
    (ha : ∀ rq, (ln.stmt d).awaits rq = none) (he : ∀ pr, (ln.stmt s).emits pr = none) :
    (execLine P l ln W).chan s d = W.chan s d := by
  simp [execLine, ha, he]

theorem execLine_chan_send (P l : Nat) (ln : Line) (W : World) (s d dest : Nat) (msg : List ℚ)
    (ha : ∀ rq, (ln.stmt d).awaits rq = none)
    (he : (ln.stmt s).emits (W.proc s) = some (dest, msg)) :
    (execLine P l ln W).chan s d =
      if (s < P ∧ ln.guard s = true) ∧ dest = d then W.chan s d ++ [msg] else W.chan s d := by
  simp only [execLine, ha, he]
  by_cases h1 : s < P ∧ ln.guard s = true
  · by_cases h2 : dest = d <;> simp [h1, h2]
  · have : ¬ ((decide (s < P) && ln.guard s) = true) := by simpa using h1
    simp [h1, this]

theorem execLine_chan_recv (P l : Nat) (ln : Line) (W : World) (s d : Nat)
    (he : ∀ pr, (ln.stmt s).emits pr = none) :
    (execLine P l ln W).chan s d =
      if (d < P ∧ ln.guard d = true) ∧ (ln.stmt d).awaits (W.proc d).req = some s
      then (W.chan s d).tail else W.chan s d := by
  simp only [execLine, he]
  by_cases h1 : (d < P ∧ ln.guard d = true) ∧ (ln.stmt d).awaits (W.proc d).req = some s
  · have : (decide (d < P) && ln.guard d) = true := by simpa using h1.1
    simp [h1, this]
  · by_cases h2 : (decide (d < P) && ln.guard d) = true
    · have h3 : ¬ (ln.stmt d).awaits (W.proc d).req = some s := by
        intro h; exact h1 ⟨by simpa using h2, h⟩
      simp [h1, h2, h3]
    · simp [h1, h2]

/-- Lines 106-115: the vertical exchange is issued. Grids are untouched, each handle
holds the request of the last call that was given it, and the payloads (row 1 sent
upwards, row `l` sent downwards) are in flight. -/
theorem vertical_issue (p l : Nat) (W0 : World) :
    (∀ w, ((lockstep p l ((iterationBody p l).take 5) W0).proc w).grid = (W0.proc w).grid) ∧
    (∀ w, ((lockstep p l ((iterationBody p l).take 5) W0).proc w).starved
        = (W0.proc w).starved) ∧
    (∀ w, w < p * p →
      ((lockstep p l ((iterationBody p l).take 5) W0).proc w).req.Urequest =
        (if w / p < p - 1 then
          .active (.MPI_Irecv (_index l (l + 1) 1) l (w + p) .Urequest)
         else if 0 < w / p then .active (.MPI_Isend (_index l 1 1) l (w - p) .Urequest)
         else .uninitialised) ∧
      ((lockstep p l ((iterationBody p l).take 5) W0).proc w).req.Lrequest =
        (if 0 < w / p then .active (.MPI_Irecv (_index l 0 1) l (w - p) .Lrequest)
         else if w / p < p - 1 then .active (.MPI_Isend (_index l l 1) l (w + p) .Lrequest)
         else .uninitialised)) ∧
    (∀ s d, (lockstep p l ((iterationBody p l).take 5) W0).chan s d =
      (W0.chan s d ++
        (if (s < p * p ∧ 0 < s / p) ∧ s - p = d
          then [readFrom (W0.proc s).grid (_index l 1 1) l] else [])) ++
        (if (s < p * p ∧ s / p < p - 1) ∧ s + p = d
          then [readFrom (W0.proc s).grid (_index l l 1) l] else [])) := by
  simp only [iterationBody, List.take, lockstep_cons, lockstep_nil]
  refine ⟨?_, ?_, ?_, ?_⟩
  · intro w
    repeat rw [execLine_grid_same _ _ _ _ _ (by simp)]
  · intro w
    repeat rw [execLine_starved_same _ _ _ _ _ (by simp)]
  · intro w hw
    simp only [execLine_req, trackRequests, Requests.set]
    by_cases h1 : 0 < w / p <;> by_cases h2 : w / p < p - 1 <;> simp [hw, h1, h2]
  · intro s d
    rw [execLine_chan_same _ _ _ _ _ _ (by intro; rfl) (by intro; rfl)]
    rw [execLine_chan_send _ _ _ _ _ _ _ _ (by intro; rfl) (by rfl)]
    rw [execLine_chan_same _ _ _ _ _ _ (by intro; rfl) (by intro; rfl)]
    rw [execLine_chan_send _ _ _ _ _ _ _ _ (by intro; rfl) (by rfl)]
    rw [execLine_chan_same _ _ _ _ _ _ (by intro; rfl) (by intro; rfl)]
    repeat rw [execLine_grid_same _ _ _ _ _ (by simp)]
    simp only [decide_eq_true_eq]
    split_ifs <;> simp

/-- Packing a column: afterwards `column[k] = grid[_index(k+1, col)]` for `k < l`. -/
theorem packColumn_at (l col : Nat) (inc : Option (List ℚ)) (pr : Proc) (k : Nat) (hk : k < l) :
    (execLocal l (.packColumn col) inc pr).column k = pr.grid (_index l (k + 1) col) := by
  have h := forLoop_setCell_at 1 (l + 1) (fun row => row - 1)
    (fun row => pr.grid (_index l row col)) pr.column
    (by intro i j h1 _ h3 _ h; simp only at h; omega) (k + 1) (by omega) (by omega)
  simpa [execLocal] using h

/-- Unpacking a column: afterwards `grid[_index(row, col)] = column[row-1]` for
`1 ≤ row ≤ l`, and every other cell is unchanged. -/
theorem unpackColumn_at (l col : Nat) (hcol : col < l + 2) (inc : Option (List ℚ)) (pr : Proc)
    (row : Nat) (h1 : 1 ≤ row) (h2 : row ≤ l) :
    (execLocal l (.unpackColumn col) inc pr).grid (_index l row col) = pr.column (row - 1) := by
  have h := forLoop_setCell_at 1 (l + 1) (fun row => _index l row col)
    (fun row => pr.column (row - 1)) pr.grid
    (by intro i j _ _ _ _ h; exact (_index_inj hcol hcol h).1) row h1 (by omega)
  simpa [execLocal] using h

theorem unpackColumn_other (l col : Nat) (inc : Option (List ℚ)) (pr : Proc) (x : Nat)
    (hx : ∀ row, 1 ≤ row → row ≤ l → _index l row col ≠ x) :
    (execLocal l (.unpackColumn col) inc pr).grid x = pr.grid x := by
  have h := forLoop_setCell_other 1 (l + 1) (fun row => _index l row col)
    (fun row _ => pr.column (row - 1)) pr.grid x (by intro i h1 h2; exact hx i h1 (by omega))
  simpa [execLocal] using h

/-- One direction of the horizontal exchange (lines 118-127 or 130-139): the senders
pack column `colS` and send it to `dest`, the receivers receive from `src` and
unpack into column `colR`. If senders and receivers are paired and the channels
used are empty beforehand, then afterwards the channels are as before, and every
receiver holds in its column `colR` the column `colS` of its partner. -/
theorem horizontal_exchange (P l : Nat) (gS gR : Nat → Bool) (dest src : Nat → Nat)
    (colS colR : Nat) (hcolR : colR < l + 2) (W : World)
    (hpairR : ∀ d, d < P → gR d = true → src d < P ∧ gS (src d) = true ∧ dest (src d) = d)
    (hpairS : ∀ s, s < P → gS s = true → dest s < P ∧ gR (dest s) = true ∧ src (dest s) = s)
    (hempty : ∀ d, d < P → gR d = true → W.chan (src d) d = []) :
    let W' := execLine P l ⟨gR, fun _ => .unpackColumn colR⟩
      (execLine P l ⟨gR, fun rank => .MPI_Recv l (src rank)⟩
        (execLine P l ⟨gS, fun rank => .MPI_Send l (dest rank)⟩
          (execLine P l ⟨gS, fun _ => .packColumn colS⟩ W)))
    (∀ s d, W'.chan s d = W.chan s d) ∧
    (∀ w, (W'.proc w).req = (W.proc w).req) ∧
    (∀ w, (W'.proc w).starved = (W.proc w).starved) ∧
    (∀ w, w < P → gR w = true → ∀ row, 1 ≤ row → row ≤ l →
      (W'.proc w).grid (_index l row colR) = (W.proc (src w)).grid (_index l row colS)) ∧
    (∀ w x, (∀ row, 1 ≤ row → row ≤ l → _index l row colR ≠ x) →
      (W'.proc w).grid x = (W.proc w).grid x) ∧
    (∀ w, ¬ (w < P ∧ gR w = true) → (W'.proc w).grid = (W.proc w).grid) := by
  intro W'
  -- the four intermediate worlds
  set W1 := execLine P l ⟨gS, fun _ => .packColumn colS⟩ W with hW1
  set W2 := execLine P l ⟨gS, fun rank => .MPI_Send l (dest rank)⟩ W1 with hW2
  set W3 := execLine P l ⟨gR, fun rank => .MPI_Recv l (src rank)⟩ W2 with hW3
  -- channels
  have c1 : ∀ s d, W1.chan s d = W.chan s d := fun s d =>
    execLine_chan_same _ _ _ _ _ _ (by intro; rfl) (by intro; rfl)
  have c2 : ∀ s d, W2.chan s d =
      if (s < P ∧ gS s = true) ∧ dest s = d then W.chan s d ++ [readFrom (W1.proc s).column 0 l]
      else W.chan s d := by
    intro s d
    rw [hW2, execLine_chan_send _ _ _ _ _ _ _ _ (by intro; rfl) (by rfl), c1]
  have c3 : ∀ s d, W3.chan s d = W.chan s d := by
    intro s d
    rw [hW3, execLine_chan_recv _ _ _ _ _ _ (by intro; rfl), c2]
    by_cases hr : (d < P ∧ gR d = true) ∧ src d = s
    · obtain ⟨⟨hd, hg⟩, rfl⟩ := hr
      obtain ⟨h1, h2, h3⟩ := hpairR d hd hg
      have : (Stmt.MPI_Recv l (src d)).awaits (W2.proc d).req = some (src d) := rfl
      simp [hd, hg, h1, h2, h3, Stmt.awaits, hempty d hd hg]
    · have hne : ¬ ((s < P ∧ gS s = true) ∧ dest s = d) := by
        rintro ⟨⟨hs, hg⟩, rfl⟩
        obtain ⟨h1, h2, h3⟩ := hpairS s hs hg
        exact hr ⟨⟨h1, h2⟩, h3⟩
      have hr' : ¬ ((d < P ∧ gR d = true) ∧ some (src d) = some s) := by
        simpa using hr
      simp only [Stmt.awaits]
      rw [if_neg hr', if_neg hne]
  have c4 : ∀ s d, W'.chan s d = W.chan s d := fun s d =>
    (execLine_chan_same _ _ _ _ _ _ (by intro; rfl) (by intro; rfl)).trans (c3 s d)
  -- requests and the starvation flag
  have r4 : ∀ w, (W'.proc w).req = (W.proc w).req := by
    intro w
    simp only [W', hW3, hW2, hW1, execLine_req, trackRequests, ite_self]
  have g3 : ∀ w, (W3.proc w).grid = (W.proc w).grid := by
    intro w
    rw [hW3, execLine_grid_same _ _ _ _ _ (by simp), hW2,
      execLine_grid_same _ _ _ _ _ (by simp), hW1, execLine_grid_same _ _ _ _ _ (by simp)]
  -- what each receiver finds
  have k3 : ∀ w, w < P → gR w = true →
      (W3.proc w).column = storeAt (W2.proc w).column 0
        ((readFrom (W1.proc (src w)).column 0 l).take l) ∧
      (W3.proc w).starved = (W.proc w).starved := by
    intro w hw hg
    obtain ⟨h1, h2, h3⟩ := hpairR w hw hg
    have hch : W2.chan (src w) w = [readFrom (W1.proc (src w)).column 0 l] := by
      rw [c2, if_pos ⟨⟨h1, h2⟩, h3⟩, hempty w hw hg, List.nil_append]
    have hst : (W2.proc w).starved = (W.proc w).starved := by
      rw [hW2, execLine_starved_same _ _ _ _ _ (by simp), hW1,
        execLine_starved_same _ _ _ _ _ (by simp)]
    rw [hW3, execLine_proc, if_pos (by simp [hw, hg])]
    simp only [Stmt.awaits, Option.bind, hch, List.head?, execLocal]
    exact ⟨trivial, hst⟩
  have s4 : ∀ w, (W'.proc w).starved = (W.proc w).starved := by
    intro w
    show ((execLine P l _ W3).proc w).starved = _
    rw [execLine_starved_same _ _ _ _ _ (by simp)]
    by_cases hr : w < P ∧ gR w = true
    · exact (k3 w hr.1 hr.2).2
    · rw [hW3, execLine_proc, if_neg (by simpa using hr), hW2,
        execLine_starved_same _ _ _ _ _ (by simp), hW1,
        execLine_starved_same _ _ _ _ _ (by simp)]
  refine ⟨c4, r4, s4, ?_, ?_, ?_⟩
  · intro w hw hg row hr1 hr2
    obtain ⟨h1, h2, h3⟩ := hpairR w hw hg
    show ((execLine P l _ W3).proc w).grid _ = _
    rw [execLine_proc, if_pos (by simp [hw, hg]), unpackColumn_at l colR hcolR _ _ row hr1 hr2,
      (k3 w hw hg).1]
    have hk : row - 1 < l := by omega
    have := storeAt_readFrom (W2.proc w).column (W1.proc (src w)).column 0 0 l (row - 1) hk
    simp only [Nat.zero_add] at this
    rw [this, hW1, execLine_proc, if_pos (by simp [h1, h2]), packColumn_at l colS _ _ _ hk]
    have : row - 1 + 1 = row := by omega
    rw [this]
  · intro w x hx
    show ((execLine P l _ W3).proc w).grid x = _
    rw [execLine_proc]
    split
    · rw [unpackColumn_other l colR _ _ x hx, g3]
    · rw [g3]
  · intro w hw
    show ((execLine P l _ W3).proc w).grid = _
    rw [execLine_proc, if_neg (by simpa using hw), g3]

/-! ## The update reads cells already updated in the same sweep -/

/-- C1 fails on the code: with `L = 8` on 4 processes (`p = 2`, `local_L = 4`, fresh
memory zeroed), in the first iteration of rank 0 the edge cell `(1, 2)` becomes
`5/8`, whereas a quarter of the sum of the four neighbour values held when the
update began is `3/4`: its west neighbour `(1, 1)`, equal to 1 when the update began,
had already been overwritten with `1/2` in the same sweep. -/
theorem C1_edge_cell_reads_updated_neighbour :
    ((run 2 4 (fun _ _ => 0) (fun _ _ => 0) 1).proc 0).grid (_index 4 1 2) = 5 / 8 ∧
    stencil 4 ((lockstep 2 4 ((iterationBody 2 4).take 13)
      (initialWorld 4 (fun _ _ => 0) (fun _ _ => 0))).proc 0).grid 1 2 = 3 / 4 ∧
    ((lockstep 2 4 ((iterationBody 2 4).take 13)
      (initialWorld 4 (fun _ _ => 0) (fun _ _ => 0))).proc 0).grid (_index 4 1 1) = 1 ∧
    ((run 2 4 (fun _ _ => 0) (fun _ _ => 0) 1).proc 0).grid (_index 4 1 1) = 1 / 2 := by
  decide!

/-! ## The initial grid -/

/-- If one pass of a loop leaves the value `val` in cell `x` and no other pass
touches that cell, the loop leaves `val` in cell `x`. -/
theorem forLoop_pass_at (lo hi : Nat) (body : Nat → (Nat → ℚ) → (Nat → ℚ)) (a : Nat → ℚ)
    (x : Nat) (val : ℚ) (i0 : Nat) (h1 : lo ≤ i0) (h2 : i0 < hi)
    (hhit : ∀ b, body i0 b x = val)
    (hmiss : ∀ i b, lo ≤ i → i < hi → i ≠ i0 → body i b x = b x) :
    forLoop lo hi body a x = val := by
  have key : ∀ (n lo' : Nat) (a : Nat → ℚ), lo ≤ lo' → lo' + n ≤ hi → lo' ≤ i0 → i0 < lo' + n →
      (List.range' lo' n).foldl (fun a i => body i a) a x = val := by
    intro n
    induction n with
    | zero => intro lo' a _ _ h3 h4; omega
    | succ n ih =>
      intro lo' a hlo hhi h3 h4
      rw [List.range'_succ, List.foldl_cons]
      by_cases hi' : i0 = lo'
      · subst hi'
        exact foldl_induct (fun b : Nat → ℚ => b x = val) body (fun j => i0 + 1 ≤ j ∧ j < hi)
          (List.range' (i0 + 1) n) (body i0 a)
          (by intro j hj; rw [List.mem_range'_1] at hj; omega)
          (hhit a)
          (by
            intro j s hj hs
            show body j s x = val
            rw [hmiss j s (by omega) hj.2 (by omega), hs])
      · exact ih (lo' + 1) _ (by omega) (by omega) (by omega) (by omega)
  unfold forLoop
  exact key (hi - lo) lo a (le_refl _) (by omega) h1 (by omega)

/-- A nest of two loops assigning `a[_index(i,j)] = v` over a rectangle of cells
leaves `v` in each cell of the rectangle and every other cell unchanged. -/
theorem fill_at (l lo hi : Nat) (v : ℚ) (a : Nat → ℚ) (i j : Nat)
    (hhi : hi ≤ l + 2) (hi1 : lo ≤ i) (hi2 : i < hi) (hj1 : lo ≤ j) (hj2 : j < hi) :
    forLoop lo hi (fun i grid =>
      forLoop lo hi (fun j grid => setCell grid (_index l i j) v) grid) a (_index l i j) = v := by
  refine forLoop_pass_at lo hi _ a _ v i hi1 hi2 ?_ ?_
  · intro b
    exact forLoop_setCell_at lo hi (fun j => _index l i j) (fun _ => v) b
      (by intro c c' _ h2 _ h4 h; exact (_index_inj (by omega) (by omega) h).2) j hj1 hj2
  · intro i' b h1 h2 hne
    refine forLoop_setCell_other lo hi (fun j => _index l i' j) (fun _ _ => v) b _ ?_
    intro c _ hc2 h
    exact hne (_index_inj (by omega) (by omega) h).1

theorem fill_other (l lo hi : Nat) (v : ℚ) (a : Nat → ℚ) (x : Nat)
    (hx : ∀ i j, lo ≤ i → i < hi → lo ≤ j → j < hi → _index l i j ≠ x) :
    forLoop lo hi (fun i grid =>
      forLoop lo hi (fun j grid => setCell grid (_index l i j) v) grid) a x = a x := by
  refine forLoop_induct (fun b => b x = a x) lo hi _ a rfl ?_
  intro i s h1 h2 hs
  show forLoop lo hi _ s x = a x
  rw [forLoop_setCell_other lo hi (fun j => _index l i j) (fun _ _ => v) s x
    (fun j hj1 hj2 => hx i j h1 h2 hj1 hj2), hs]

/-- After `initialiseGrid` every cell of the `(l+2) x (l+2)` grid holds `rank+1` if
it is an owned cell and 0 if it is a halo cell, whatever the memory held before. -/
theorem initialiseGrid_at (l rank : Nat) (fresh : Nat → ℚ) (i j : Nat)
    (hi : i ≤ l + 1) (hj : j ≤ l + 1) :
    initialiseGrid l rank fresh (_index l i j) =
      if 1 ≤ i ∧ i ≤ l ∧ 1 ≤ j ∧ j ≤ l then (rank : ℚ) + 1 else 0 := by
  unfold initialiseGrid
  by_cases h : 1 ≤ i ∧ i ≤ l ∧ 1 ≤ j ∧ j ≤ l
  · rw [if_pos h]
    exact fill_at l 1 (l + 1) _ _ i j (by omega) h.1 (by omega) h.2.2.1 (by omega)
  · rw [if_neg h, fill_other l 1 (l + 1) _ _ _ ?_]
    · exact fill_at l 0 (l + 2) 0 fresh i j (le_refl _) (Nat.zero_le _) (by omega)
        (Nat.zero_le _) (by omega)
    · intro i' j' h1 h2 h3 h4 he
      obtain ⟨e1, e2⟩ := _index_inj (by omega) (by omega) he
      omega

/-! ## Cells that no step writes -/

theorem execLine_keeps (p l : Nat) (ln : Line) (hln : ln ∈ iterationBody p l) (W : World)
    (w : Nat) (h : zeroBoundary p l w (W.proc w)) :
    zeroBoundary p l w ((execLine (p * p) l ln W).proc w) := by
  rw [execLine_proc]
  split
  · rename_i hrun
    have hg : ln.guard w = true := by
      simp only [Bool.and_eq_true] at hrun
      exact hrun.2
    exact execLocal_keeps p l w _
      (List.mem_map.mpr ⟨ln, List.mem_filter.mpr ⟨hln, hg⟩, rfl⟩) _ _ h
  · exact h

theorem lockstep_keeps (p l : Nat) (w : Nat) :
    ∀ (lines : List Line), (∀ ln ∈ lines, ln ∈ iterationBody p l) → ∀ W : World,
      zeroBoundary p l w (W.proc w) → zeroBoundary p l w ((lockstep p l lines W).proc w) := by
  intro lines
  induction lines with
  | nil => intro _ W h; exact h
  | cons ln lines ih =>
    intro hmem W h
    rw [lockstep_cons]
    exact ih (fun x hx => hmem x (List.mem_cons_of_mem _ hx)) _
      (execLine_keeps p l ln (hmem ln (List.mem_cons_self _ _)) W w h)

theorem run_keeps (p l : Nat) (freshGrid freshColumn : Nat → Nat → ℚ) (w : Nat) :
    ∀ n, zeroBoundary p l w ((run p l freshGrid freshColumn n).proc w) := by
  intro n
  induction n with
  | zero =>
    refine ⟨⟨?_, ?_⟩, ?_⟩
    · intro buf count src h hh; simp [run, initialWorld, Requests.initial] at hh
    · intro buf count src h hh; simp [run, initialWorld, Requests.initial] at hh
    · intro i j hi hj hb
      show initialiseGrid l w (freshGrid w) (_index l i j) = 0
      rw [initialiseGrid_at l w _ i j hi hj, if_neg]
      unfold boundaryCell at hb
      omega
  | succ n ih =>
    exact lockstep_keeps p l w _ (fun _ h => h) _ ih

/-- C10: after any number `n` of iterations, and after any number `k` of lines of
the next one (`k = 0` being the state between two iterations), every halo cell of process `w` on a side where it has no neighbour (row 0 if
its row is 0, row `l+1` if its row is `p-1`, column 0 if its column is 0, column
`l+1` if its column is `p-1`) and each of its four corner cells holds the value 0
written by `initialiseGrid`. -/
theorem C10_boundary_halo_stays_zero (p l : Nat) (freshGrid freshColumn : Nat → Nat → ℚ)
    (n k w : Nat) :
    (w / p = 0 → ∀ j, j ≤ l + 1 →
      ((lockstep p l ((iterationBody p l).take k) (run p l freshGrid freshColumn n)).proc w).grid
        (_index l 0 j) = 0) ∧
    (w / p = p - 1 → ∀ j, j ≤ l + 1 →
      ((lockstep p l ((iterationBody p l).take k) (run p l freshGrid freshColumn n)).proc w).grid
        (_index l (l + 1) j) = 0) ∧
    (w % p = 0 → ∀ i, i ≤ l + 1 →
      ((lockstep p l ((iterationBody p l).take k) (run p l freshGrid freshColumn n)).proc w).grid
        (_index l i 0) = 0) ∧
    (w % p = p - 1 → ∀ i, i ≤ l + 1 →
      ((lockstep p l ((iterationBody p l).take k) (run p l freshGrid freshColumn n)).proc w).grid
        (_index l i (l + 1)) = 0) ∧
    (∀ i j, (i = 0 ∨ i = l + 1) → (j = 0 ∨ j = l + 1) →
      ((lockstep p l ((iterationBody p l).take k) (run p l freshGrid freshColumn n)).proc w).grid
        (_index l i j) = 0) := by
  have h := (lockstep_keeps p l w ((iterationBody p l).take k)
    (fun _ hx => List.mem_of_mem_take hx) _ (run_keeps p l freshGrid freshColumn w n)).2
  refine ⟨?_, ?_, ?_, ?_, ?_⟩
  · intro hr j hj
    exact h 0 j (by omega) hj (Or.inl ⟨rfl, Or.inl hr⟩)
  · intro hr j hj
    exact h (l + 1) j (le_refl _) hj (Or.inr (Or.inl ⟨rfl, Or.inl hr⟩))
  · intro hc i hi
    exact h i 0 hi (by omega) (Or.inr (Or.inr (Or.inl ⟨rfl, hc⟩)))
  · intro hc i hi
    exact h i (l + 1) hi (le_refl _) (Or.inr (Or.inr (Or.inr ⟨rfl, hc⟩)))
  · intro i j hi hj
    rcases hi with hi | hi
    · exact h i j (by omega) (by omega) (Or.inl ⟨hi, Or.inr hj⟩)
    · exact h i j (by omega) (by omega) (Or.inr (Or.inl ⟨hi, Or.inr hj⟩))

/-! ## Completion of the vertical exchange -/

/-- A wait on a handle that holds the request of a receive whose message has
arrived stores the message in the receive buffer. -/
theorem wait_receives (P l : Nat) (h : Handle) (W : World) (w : Nat) (hw : w < P)
    (buf count src : Nat) (h' : Handle) (m : List ℚ) (rest : List (List ℚ))
    (hreq : (W.proc w).req.get h = .active (.MPI_Irecv buf count src h'))
    (hch : W.chan src w = m :: rest) :
    ((execLine P l ⟨fun _ => true, fun _ => .MPI_Wait h⟩ W).proc w).grid
        = storeAt (W.proc w).grid buf (m.take count) ∧
    ((execLine P l ⟨fun _ => true, fun _ => .MPI_Wait h⟩ W).proc w).starved
        = (W.proc w).starved := by
  rw [execLine_proc, if_pos (by simp [hw])]
  simp [execLocal, Stmt.awaits, hreq, hch]

/-- A wait on a handle that does not hold the request of a receive leaves the grid
as it is. -/
theorem wait_idle (P l : Nat) (h : Handle) (W : World) (w : Nat)
    (hreq : ∀ buf count src h', (W.proc w).req.get h ≠ .active (.MPI_Irecv buf count src h')) :
    ((execLine P l ⟨fun _ => true, fun _ => .MPI_Wait h⟩ W).proc w).grid = (W.proc w).grid ∧
    ((execLine P l ⟨fun _ => true, fun _ => .MPI_Wait h⟩ W).proc w).starved
        = (W.proc w).starved := by
  rw [execLine_proc]
  split
  · rcases hg : (W.proc w).req.get h with _ | _ | call
    · simp [execLocal, hg]
    · simp [execLocal, hg]
    · cases call with
      | MPI_Irecv buf count src h' => exact absurd hg (hreq buf count src h')
      | _ => simp [execLocal, hg]
  · exact ⟨rfl, rfl⟩

theorem wait_chan (P l : Nat) (h : Handle) (W : World) (s d : Nat) :
    (execLine P l ⟨fun _ => true, fun _ => .MPI_Wait h⟩ W).chan s d =
      if d < P ∧ (Stmt.MPI_Wait h).awaits (W.proc d).req = some s
      then (W.chan s d).tail else W.chan s d := by
  rw [execLine_chan_recv _ _ _ _ _ _ (by intro; rfl)]
  simp

theorem wait_other_handle (P l : Nat) (W : World) (w : Nat) :
    ((execLine P l ⟨fun _ => true, fun _ => .MPI_Wait .Urequest⟩ W).proc w).req.Lrequest
      = (W.proc w).req.Lrequest := by
  rw [execLine_req]
  split
  · simp only [trackRequests]
    rcases hg : (W.proc w).req.get .Urequest with _ | _ | call <;> simp [Requests.set]
  · rfl

/-! ## The exchange phase -/

theorem take16_eq (p l : Nat) :
    (iterationBody p l).take 16 =
      (iterationBody p l).take 5 ++
      ([⟨fun rank => decide (rank % p > 0), fun _ => .packColumn 1⟩,
        ⟨fun rank => decide (rank % p > 0), fun rank => .MPI_Send l (rank - 1)⟩,
        ⟨fun rank => decide (rank % p < p - 1), fun rank => .MPI_Recv l (rank + 1)⟩,
        ⟨fun rank => decide (rank % p < p - 1), fun _ => .unpackColumn (l + 1)⟩] ++
      ([⟨fun rank => decide (rank % p < p - 1), fun _ => .packColumn l⟩,
        ⟨fun rank => decide (rank % p < p - 1), fun rank => .MPI_Send l (rank + 1)⟩,
        ⟨fun rank => decide (rank % p > 0), fun rank => .MPI_Recv l (rank - 1)⟩,
        ⟨fun rank => decide (rank % p > 0), fun _ => .unpackColumn 0⟩] ++
       [⟨fun _ => true, fun _ => .interiorUpdate⟩,
        ⟨fun _ => true, fun _ => .MPI_Wait .Urequest⟩,
        ⟨fun _ => true, fun _ => .MPI_Wait .Lrequest⟩])) := rfl

theorem _index_row (l r j : Nat) (hj : 1 ≤ j) : _index l r j = _index l r 1 + (j - 1) := by
  unfold _index; omega

/-- The exchange phase of one iteration (lines 106-157: the exchange calls, the
interior update and the two waits), started with nothing in flight. Afterwards
nothing is in flight, no process has starved, and every halo cell facing a
neighbour holds the value the neighbour's adjacent owned cell had when the
iteration began. -/
theorem exchange_spec (p l : Nat) (hp : 1 ≤ p) (W0 : World) (hq : ∀ s d, W0.chan s d = []) :
    (∀ s d, (lockstep p l ((iterationBody p l).take 16) W0).chan s d = []) ∧
    (∀ w, ((lockstep p l ((iterationBody p l).take 16) W0).proc w).starved
        = (W0.proc w).starved) ∧
    (∀ w, w < p * p →
      (0 < w / p → ∀ j, 1 ≤ j → j ≤ l →
        ((lockstep p l ((iterationBody p l).take 16) W0).proc w).grid (_index l 0 j)
          = (W0.proc (w - p)).grid (_index l l j)) ∧
      (w / p < p - 1 → ∀ j, 1 ≤ j → j ≤ l →
        ((lockstep p l ((iterationBody p l).take 16) W0).proc w).grid (_index l (l + 1) j)
          = (W0.proc (w + p)).grid (_index l 1 j)) ∧
      (0 < w % p → ∀ i, 1 ≤ i → i ≤ l →
        ((lockstep p l ((iterationBody p l).take 16) W0).proc w).grid (_index l i 0)
          = (W0.proc (w - 1)).grid (_index l i l)) ∧
      (w % p < p - 1 → ∀ i, 1 ≤ i → i ≤ l →
        ((lockstep p l ((iterationBody p l).take 16) W0).proc w).grid (_index l i (l + 1))
          = (W0.proc (w + 1)).grid (_index l i 1))) := by
  obtain ⟨g5, st5, rq5, c5⟩ := vertical_issue p l W0
  rw [take16_eq]
  simp only [lockstep_append]
  set W5 := lockstep p l ((iterationBody p l).take 5) W0 with hW5
  simp only [lockstep_cons, lockstep_nil]
  have hone : p = 1 → p * p = 1 := fun h => by rw [h]
  -- channels after the vertical calls
  have c5' : ∀ s d, W5.chan s d =
      (if (s < p * p ∧ 0 < s / p) ∧ s - p = d
        then [readFrom (W0.proc s).grid (_index l 1 1) l] else []) ++
      (if (s < p * p ∧ s / p < p - 1) ∧ s + p = d
        then [readFrom (W0.proc s).grid (_index l l 1) l] else []) := by
    intro s d
    rw [c5, hq, List.nil_append]
  -- left boundary, lines 118-127
  obtain ⟨c9, rq9, st9, gR9, gO9, -⟩ := horizontal_exchange (p * p) l
    (fun rank => decide (rank % p > 0)) (fun rank => decide (rank % p < p - 1))
    (fun rank => rank - 1) (fun rank => rank + 1) 1 (l + 1) (by omega) W5
    (by
      intro d hd hg
      have hg' : d % p < p - 1 := by simpa using hg
      obtain ⟨h1, h2, h3⟩ := right_position hd hg'
      dsimp only
      exact ⟨h1, by simp [h3], by simp⟩)
    (by
      intro s hs hg
      have hg' : 0 < s % p := by simpa using hg
      obtain ⟨h1, h2, h3⟩ := left_position hp hg'
      have hc := Nat.mod_lt s hp
      dsimp only
      exact ⟨by omega, by simp; omega, by omega⟩)
    (by
      intro d hd hg
      have hg' : d % p < p - 1 := by simpa using hg
      have hc0 := Nat.zero_le (d % p)
      have hr0 := Nat.zero_le ((d + 1) / p)
      have hup : 0 < (d + 1) / p → p ≤ d + 1 := fun h => (up_position hp h).1
      dsimp only
      rw [c5', if_neg (by omega), if_neg (by omega)]
      rfl)
  set W9 := execLine (p * p) l ⟨fun rank => decide (rank % p < p - 1), fun _ => .unpackColumn (l + 1)⟩
    (execLine (p * p) l ⟨fun rank => decide (rank % p < p - 1), fun rank => .MPI_Recv l (rank + 1)⟩
      (execLine (p * p) l ⟨fun rank => decide (rank % p > 0), fun rank => .MPI_Send l (rank - 1)⟩
        (execLine (p * p) l ⟨fun rank => decide (rank % p > 0), fun _ => .packColumn 1⟩ W5)))
    with hW9
  -- right boundary, lines 130-139
  obtain ⟨c13, rq13, st13, gL13, gO13, -⟩ := horizontal_exchange (p * p) l
    (fun rank => decide (rank % p < p - 1)) (fun rank => decide (rank % p > 0))
    (fun rank => rank + 1) (fun rank => rank - 1) l 0 (by omega) W9
    (by
      intro d hd hg
      have hg' : 0 < d % p := by simpa using hg
      obtain ⟨h1, h2, h3⟩ := left_position hp hg'
      have hc := Nat.mod_lt d hp
      dsimp only
      exact ⟨by omega, by simp; omega, by omega⟩)
    (by
      intro s hs hg
      have hg' : s % p < p - 1 := by simpa using hg
      obtain ⟨h1, h2, h3⟩ := right_position hs hg'
      dsimp only
      exact ⟨h1, by simp [h3], by simp⟩)
    (by
      intro d hd hg
      have hg' : 0 < d % p := by simpa using hg
      obtain ⟨h1, h2, h3⟩ := left_position hp hg'
      have hc := Nat.mod_lt d hp
      dsimp only
      rw [c9, c5', if_neg (by omega), if_neg (by omega)]
      rfl)
  set W13 := execLine (p * p) l ⟨fun rank => decide (rank % p > 0), fun _ => .unpackColumn 0⟩
    (execLine (p * p) l ⟨fun rank => decide (rank % p > 0), fun rank => .MPI_Recv l (rank - 1)⟩
      (execLine (p * p) l ⟨fun rank => decide (rank % p < p - 1), fun rank => .MPI_Send l (rank + 1)⟩
        (execLine (p * p) l ⟨fun rank => decide (rank % p < p - 1), fun _ => .packColumn l⟩ W9)))
    with hW13
  -- requests are still those of the vertical calls
  have rqU : ∀ w, w < p * p → (W13.proc w).req.Urequest =
      (if w / p < p - 1 then
        .active (.MPI_Irecv (_index l (l + 1) 1) l (w + p) .Urequest)
       else if 0 < w / p then .active (.MPI_Isend (_index l 1 1) l (w - p) .Urequest)
       else .uninitialised) := by
    intro w hw
    rw [rq13, rq9]
    exact (rq5 w hw).1
  have rqL : ∀ w, w < p * p → (W13.proc w).req.Lrequest =
      (if 0 < w / p then .active (.MPI_Irecv (_index l 0 1) l (w - p) .Lrequest)
       else if w / p < p - 1 then .active (.MPI_Isend (_index l l 1) l (w + p) .Lrequest)
       else .uninitialised) := by
    intro w hw
    rw [rq13, rq9]
    exact (rq5 w hw).2
  have c13' : ∀ s d, W13.chan s d = W5.chan s d := fun s d => (c13 s d).trans (c9 s d)
  -- interior update, lines 146-153
  set W14 := execLine (p * p) l ⟨fun _ => true, fun _ => .interiorUpdate⟩ W13 with hW14
  have c14 : ∀ s d, W14.chan s d = W5.chan s d := fun s d =>
    (execLine_chan_same _ _ _ _ _ _ (by intro; rfl) (by intro; rfl)).trans (c13' s d)
  have rq14 : ∀ w, (W14.proc w).req = (W13.proc w).req := by
    intro w
    simp only [hW14, execLine_req, trackRequests, ite_self]
  have st14 : ∀ w, (W14.proc w).starved = (W13.proc w).starved := fun w =>
    execLine_starved_same _ _ _ _ _ (by simp)
  have g14 : ∀ w i j, j < l + 2 → ¬ (2 ≤ i ∧ i < l ∧ 2 ≤ j ∧ j < l) →
      (W14.proc w).grid (_index l i j) = (W13.proc w).grid (_index l i j) := by
    intro w i j hj hij
    rw [hW14, execLine_proc]
    split
    · exact interiorUpdate_frame l _ i j hj hij
    · rfl
  -- what the two waits await
  have awU : ∀ d, d < p * p → (Stmt.MPI_Wait .Urequest).awaits (W14.proc d).req =
      if d / p < p - 1 then some (d + p) else none := by
    intro d hd
    simp only [Stmt.awaits, Requests.get, rq14, rqU d hd]
    by_cases h1 : d / p < p - 1 <;> by_cases h2 : 0 < d / p <;> simp [h1, h2]
  -- first wait, line 156
  set W15 := execLine (p * p) l ⟨fun _ => true, fun _ => .MPI_Wait .Urequest⟩ W14 with hW15
  have c15 : ∀ s d, W15.chan s d =
      (if (s < p * p ∧ s / p < p - 1) ∧ s + p = d
        then [readFrom (W0.proc s).grid (_index l l 1) l] else []) := by
    intro s d
    have hr0 := Nat.zero_le (s / p)
    have hrd0 := Nat.zero_le (d / p)
    rw [hW15, wait_chan, c14, c5']
    by_cases hup : (s < p * p ∧ 0 < s / p) ∧ s - p = d
    · obtain ⟨⟨hs, hr⟩, rfl⟩ := hup
      obtain ⟨h1, h2, h3⟩ := up_position hp hr
      have hrs := row_lt_side hs
      rw [if_pos ⟨by omega, by rw [awU _ (by omega), if_pos (by omega)]; congr 1; omega⟩,
        if_pos ⟨⟨hs, hr⟩, rfl⟩, if_neg (by omega)]
      rfl
    · rw [if_neg hup, List.nil_append, if_neg]
      rintro ⟨hd, haw⟩
      rw [awU d hd] at haw
      by_cases hrd : d / p < p - 1
      · rw [if_pos hrd] at haw
        obtain ⟨h1, h2, h3⟩ := down_position hd hrd
        have hsd : d + p = s := Option.some.inj haw
        subst hsd
        exact hup ⟨⟨h1, by omega⟩, by omega⟩
      · rw [if_neg hrd] at haw
        cases haw
  have rq15L : ∀ w, (W15.proc w).req.Lrequest = (W13.proc w).req.Lrequest := by
    intro w
    rw [hW15, wait_other_handle, rq14]
  have awL : ∀ d, d < p * p → (Stmt.MPI_Wait .Lrequest).awaits (W15.proc d).req =
      if 0 < d / p then some (d - p) else none := by
    intro d hd
    simp only [Stmt.awaits, Requests.get, rq15L, rqL d hd]
    by_cases h1 : d / p < p - 1 <;> by_cases h2 : 0 < d / p <;> simp [h1, h2]
  -- second wait, line 157
  set W16 := execLine (p * p) l ⟨fun _ => true, fun _ => .MPI_Wait .Lrequest⟩ W15 with hW16
  have c16 : ∀ s d, W16.chan s d = [] := by
    intro s d
    have hr0 := Nat.zero_le (s / p)
    have hrd0 := Nat.zero_le (d / p)
    rw [hW16, wait_chan, c15]
    by_cases hdn : (s < p * p ∧ s / p < p - 1) ∧ s + p = d
    · obtain ⟨⟨hs, hr⟩, rfl⟩ := hdn
      obtain ⟨h1, h2, h3⟩ := down_position hs hr
      rw [if_pos ⟨h1, by rw [awL _ h1, if_pos (by omega)]; congr 1; omega⟩,
        if_pos ⟨⟨hs, hr⟩, rfl⟩]
      rfl
    · rw [if_neg hdn]
      split <;> rfl
  -- the grids after the first wait
  have hlen : ∀ (a : Nat → ℚ) (buf : Nat), ((readFrom a buf l).take l).length = l := by
    intro a buf
    rw [List.take_of_length_le (by rw [readFrom_length]), readFrom_length]
  have w15 : ∀ w, w < p * p → w / p < p - 1 →
      (W15.proc w).grid = storeAt (W14.proc w).grid (_index l (l + 1) 1)
        ((readFrom (W0.proc (w + p)).grid (_index l 1 1) l).take l) ∧
      (W15.proc w).starved = (W14.proc w).starved := by
    intro w hw hr
    obtain ⟨h1, h2, h3⟩ := down_position hw hr
    have hr0 := Nat.zero_le (w / p)
    refine wait_receives (p * p) l .Urequest W14 w hw _ l (w + p) .Urequest _ [] ?_ ?_
    · rw [Requests.get, rq14, rqU w hw, if_pos hr]
    · rw [c14, c5', if_pos ⟨⟨h1, by omega⟩, by omega⟩, if_neg (by omega)]
      rfl
  have i15 : ∀ w, ¬ (w < p * p ∧ w / p < p - 1) →
      (W15.proc w).grid = (W14.proc w).grid ∧ (W15.proc w).starved = (W14.proc w).starved := by
    intro w hw
    by_cases hlt : w < p * p
    · refine wait_idle (p * p) l .Urequest W14 w ?_
      intro buf count src h'
      rw [Requests.get, rq14, rqU w hlt, if_neg (fun h => hw ⟨hlt, h⟩)]
      split <;> simp
    · rw [hW15, execLine_proc, if_neg (by simpa using hlt)]
      exact ⟨rfl, rfl⟩
  have f15 : ∀ w x, ¬ (_index l (l + 1) 1 ≤ x ∧ x < _index l (l + 1) 1 + l) →
      (W15.proc w).grid x = (W14.proc w).grid x := by
    intro w x hx
    by_cases hw : w < p * p ∧ w / p < p - 1
    · rw [(w15 w hw.1 hw.2).1, storeAt_other _ _ _ _ (by rw [hlen]; exact hx)]
    · rw [(i15 w hw).1]
  have v15 : ∀ w, w < p * p → w / p < p - 1 → ∀ j, 1 ≤ j → j ≤ l →
      (W15.proc w).grid (_index l (l + 1) j) = (W0.proc (w + p)).grid (_index l 1 j) := by
    intro w hw hr j hj1 hj2
    rw [(w15 w hw hr).1, _index_row l (l + 1) j hj1, storeAt_readFrom _ _ _ _ _ _ (by omega),
      ← _index_row l 1 j hj1]
  -- the grids after the second wait
  have w16 : ∀ w, w < p * p → 0 < w / p →
      (W16.proc w).grid = storeAt (W15.proc w).grid (_index l 0 1)
        ((readFrom (W0.proc (w - p)).grid (_index l l 1) l).take l) ∧
      (W16.proc w).starved = (W15.proc w).starved := by
    intro w hw hr
    obtain ⟨h1, h2, h3⟩ := up_position hp hr
    have hrw := row_lt_side hw
    have hr0 := Nat.zero_le ((w - p) / p)
    refine wait_receives (p * p) l .Lrequest W15 w hw _ l (w - p) .Lrequest _ [] ?_ ?_
    · rw [Requests.get, rq15L, rqL w hw, if_pos hr]
    · rw [c15, if_pos ⟨⟨by omega, by omega⟩, by omega⟩]
  have i16 : ∀ w, ¬ (w < p * p ∧ 0 < w / p) →
      (W16.proc w).grid = (W15.proc w).grid ∧ (W16.proc w).starved = (W15.proc w).starved := by
    intro w hw
    by_cases hlt : w < p * p
    · refine wait_idle (p * p) l .Lrequest W15 w ?_
      intro buf count src h'
      rw [Requests.get, rq15L, rqL w hlt, if_neg (fun h => hw ⟨hlt, h⟩)]
      split <;> simp
    · rw [hW16, execLine_proc, if_neg (by simpa using hlt)]
      exact ⟨rfl, rfl⟩
  have f16 : ∀ w x, ¬ (_index l 0 1 ≤ x ∧ x < _index l 0 1 + l) →
      (W16.proc w).grid x = (W15.proc w).grid x := by
    intro w x hx
    by_cases hw : w < p * p ∧ 0 < w / p
    · rw [(w16 w hw.1 hw.2).1, storeAt_other _ _ _ _ (by rw [hlen]; exact hx)]
    · rw [(i16 w hw).1]
  have v16 : ∀ w, w < p * p → 0 < w / p → ∀ j, 1 ≤ j → j ≤ l →
      (W16.proc w).grid (_index l 0 j) = (W0.proc (w - p)).grid (_index l l j) := by
    intro w hw hr j hj1 hj2
    rw [(w16 w hw hr).1, _index_row l 0 j hj1, storeAt_readFrom _ _ _ _ _ _ (by omega),
      ← _index_row l l j hj1]
  -- cells outside the two receive buffers
  have notRow : ∀ r i j, j < l + 2 → (i ≠ r ∨ j = 0 ∨ j = l + 1) →
      ¬ (_index l r 1 ≤ _index l i j ∧ _index l i j < _index l r 1 + l) := by
    rintro r i j hj hij ⟨h1, h2⟩
    obtain ⟨e1, e2, e3⟩ := _index_in_row (by omega) hj h1 h2
    omega
  refine ⟨c16, ?_, ?_⟩
  · intro w
    have e16 : (W16.proc w).starved = (W15.proc w).starved := by
      by_cases hw : w < p * p ∧ 0 < w / p
      · exact (w16 w hw.1 hw.2).2
      · exact (i16 w hw).2
    have e15 : (W15.proc w).starved = (W14.proc w).starved := by
      by_cases hw : w < p * p ∧ w / p < p - 1
      · exact (w15 w hw.1 hw.2).2
      · exact (i15 w hw).2
    rw [e16, e15, st14, st13, st9, st5]
  · intro w hw
    refine ⟨v16 w hw, ?_, ?_, ?_⟩
    · intro hr j hj1 hj2
      rw [f16 w _ (notRow 0 (l + 1) j (by omega) (Or.inl (by omega))), v15 w hw hr j hj1 hj2]
    · intro hc i hi1 hi2
      obtain ⟨h1, h2, h3⟩ := left_position hp hc
      have hcw := Nat.mod_lt w hp
      rw [f16 w _ (notRow 0 i 0 (by omega) (Or.inr (Or.inl rfl))),
        f15 w _ (notRow (l + 1) i 0 (by omega) (Or.inr (Or.inl rfl))),
        g14 w i 0 (by omega) (by omega),
        gL13 w hw (by simpa using hc) i hi1 hi2,
        gO9 (w - 1) _ (by
          intro row _ _ he
          have := (_index_inj (by omega) (by omega) he).2
          omega),
        g5]
    · intro hc i hi1 hi2
      rw [f16 w _ (notRow 0 i (l + 1) (by omega) (Or.inr (Or.inr rfl))),
        f15 w _ (notRow (l + 1) i (l + 1) (by omega) (Or.inr (Or.inr rfl))),
        g14 w i (l + 1) (by omega) (by omega),
        gO13 w _ (by
          intro row _ _ he
          have := (_index_inj (by omega) (by omega) he).2
          omega),
        gR9 w hw (by simpa using hc) i hi1 hi2, g5]

/-! ## The halo after the exchange -/

theorem iterationBody_eq (p l : Nat) :
    iterationBody p l = (iterationBody p l).take 16 ++ [⟨fun _ => true, fun _ => .edgeUpdate⟩] :=
  rfl

/-- An iteration started with nothing in flight ends with nothing in flight and
with no new starved process. -/
theorem iteration_quiet (p l : Nat) (hp : 1 ≤ p) (W0 : World) (hq : ∀ s d, W0.chan s d = []) :
    (∀ s d, (iteration p l W0).chan s d = []) ∧
    (∀ w, ((iteration p l W0).proc w).starved = (W0.proc w).starved) := by
  obtain ⟨c16, st16, -⟩ := exchange_spec p l hp W0 hq
  unfold iteration
  rw [iterationBody_eq, lockstep_append]
  simp only [lockstep_cons, lockstep_nil]
  constructor
  · intro s d
    rw [execLine_chan_same _ _ _ _ _ _ (by intro; rfl) (by intro; rfl)]
    exact c16 s d
  · intro w
    rw [execLine_starved_same _ _ _ _ _ (by simp)]
    exact st16 w

theorem run_quiet (p l : Nat) (hp : 1 ≤ p) (freshGrid freshColumn : Nat → Nat → ℚ) :
    ∀ n, (∀ s d, (run p l freshGrid freshColumn n).chan s d = []) ∧
      (∀ w, ((run p l freshGrid freshColumn n).proc w).starved = false) := by
  intro n
  induction n with
  | zero => exact ⟨fun _ _ => rfl, fun _ => rfl⟩
  | succ n ih =>
    obtain ⟨h1, h2⟩ := iteration_quiet p l hp _ ih.1
    exact ⟨h1, fun w => (h2 w).trans (ih.2 w)⟩

/-- C2: in the lockstep execution of all `p*p` processes, let `n ≥ 0` iterations be
complete and let the exchange phase of the next iteration (lines 106-157, up to and
including the two waits) be executed. Then for every process `w` and every `j` in
`1..l`: if `w` has a neighbour above, its halo cell `(0, j)` equals cell `(l, j)` of
process `w-p` as it was at the end of the `n` iterations; if it has a neighbour
below, halo `(l+1, j)` equals cell `(1, j)` of `w+p`; if it has a left neighbour,
halo `(j, 0)` equals cell `(j, l)` of `w-1`; if it has a right neighbour, halo
`(j, l+1)` equals cell `(j, 1)` of `w+1`. Every receive found its message, and no
message is left in flight. -/
theorem C2_halo_equals_neighbour_boundary (p l : Nat) (freshGrid freshColumn : Nat → Nat → ℚ)
    (n w j : Nat) (hp : 1 ≤ p) (hw : w < p * p) (hj1 : 1 ≤ j) (hj2 : j ≤ l) :
    (0 < w / p →
      ((lockstep p l ((iterationBody p l).take 16) (run p l freshGrid freshColumn n)).proc w).grid
          (_index l 0 j)
        = ((run p l freshGrid freshColumn n).proc (w - p)).grid (_index l l j)) ∧
    (w / p < p - 1 →
      ((lockstep p l ((iterationBody p l).take 16) (run p l freshGrid freshColumn n)).proc w).grid
          (_index l (l + 1) j)
        = ((run p l freshGrid freshColumn n).proc (w + p)).grid (_index l 1 j)) ∧
    (0 < w % p →
      ((lockstep p l ((iterationBody p l).take 16) (run p l freshGrid freshColumn n)).proc w).grid
          (_index l j 0)
        = ((run p l freshGrid freshColumn n).proc (w - 1)).grid (_index l j l)) ∧
    (w % p < p - 1 →
      ((lockstep p l ((iterationBody p l).take 16) (run p l freshGrid freshColumn n)).proc w).grid
          (_index l j (l + 1))
        = ((run p l freshGrid freshColumn n).proc (w + 1)).grid (_index l j 1)) ∧
    ((lockstep p l ((iterationBody p l).take 16) (run p l freshGrid freshColumn n)).proc w).starved
        = false ∧
    (∀ s d, (lockstep p l ((iterationBody p l).take 16)
        (run p l freshGrid freshColumn n)).chan s d = []) := by
  obtain ⟨hq, hst⟩ := run_quiet p l hp freshGrid freshColumn n
  obtain ⟨c16, st16, h16⟩ := exchange_spec p l hp (run p l freshGrid freshColumn n) hq
  obtain ⟨hU, hD, hL, hR⟩ := h16 w hw
  exact ⟨fun h => hU h j hj1 hj2, fun h => hD h j hj1 hj2, fun h => hL h j hj1 hj2,
    fun h => hR h j hj1 hj2, (st16 w).trans (hst w), c16⟩

/-- C2 at `p = 2`, `l = 4`, zeroed fresh memory, first iteration, rank 0, `j = 1`. -/
theorem C2_halo_equals_neighbour_boundary_witness :
    (0 < 0 / 2 →
      ((lockstep 2 4 ((iterationBody 2 4).take 16)
          (run 2 4 (fun _ _ => 0) (fun _ _ => 0) 0)).proc 0).grid (_index 4 0 1)
        = ((run 2 4 (fun _ _ => 0) (fun _ _ => 0) 0).proc (0 - 2)).grid (_index 4 4 1)) ∧
    (0 / 2 < 2 - 1 →
      ((lockstep 2 4 ((iterationBody 2 4).take 16)
          (run 2 4 (fun _ _ => 0) (fun _ _ => 0) 0)).proc 0).grid (_index 4 (4 + 1) 1)
        = ((run 2 4 (fun _ _ => 0) (fun _ _ => 0) 0).proc (0 + 2)).grid (_index 4 1 1)) ∧
    (0 < 0 % 2 →
      ((lockstep 2 4 ((iterationBody 2 4).take 16)
          (run 2 4 (fun _ _ => 0) (fun _ _ => 0) 0)).proc 0).grid (_index 4 1 0)
        = ((run 2 4 (fun _ _ => 0) (fun _ _ => 0) 0).proc (0 - 1)).grid (_index 4 1 4)) ∧
    (0 % 2 < 2 - 1 →
      ((lockstep 2 4 ((iterationBody 2 4).take 16)
          (run 2 4 (fun _ _ => 0) (fun _ _ => 0) 0)).proc 0).grid (_index 4 1 (4 + 1))
        = ((run 2 4 (fun _ _ => 0) (fun _ _ => 0) 0).proc (0 + 1)).grid (_index 4 1 1)) ∧
    ((lockstep 2 4 ((iterationBody 2 4).take 16)
        (run 2 4 (fun _ _ => 0) (fun _ _ => 0) 0)).proc 0).starved = false ∧
    (∀ s d, (lockstep 2 4 ((iterationBody 2 4).take 16)
        (run 2 4 (fun _ _ => 0) (fun _ _ => 0) 0)).chan s d = []) :=
  C2_halo_equals_neighbour_boundary 2 4 (fun _ _ => 0) (fun _ _ => 0) 0 0 1
    (by decide) (by decide) (by decide) (by decide)

/-! ## Ranks and positions correspond one to one -/

/-- C19: for `p ≥ 1` the map `rank ↦ (rank / p, rank % p)` of line 101 sends the
ranks below `p*p` one-to-one onto the positions `(r, c)` with `r, c < p`, and
`source = p*rowBlock + colBlock` of line 258 is its inverse in both directions. -/
theorem C19_position_bijection (p : Nat) (hp : 1 ≤ p) :
    (∀ rank, rank < p * p →
      (position p rank).1 < p ∧ (position p rank).2 < p ∧
      source p (position p rank).1 (position p rank).2 = rank) ∧
    (∀ r c, r < p → c < p →
      source p r c < p * p ∧ position p (source p r c) = (r, c)) ∧
    (∀ r c, c < p → (p * r + c) / p = r ∧ (p * r + c) % p = c) ∧
    (∀ rank, p * (rank / p) + rank % p = rank) ∧
    Set.BijOn (position p) {rank | rank < p * p} {rc | rc.1 < p ∧ rc.2 < p} := by
  have hfwd : ∀ rank, rank < p * p →
      (position p rank).1 < p ∧ (position p rank).2 < p ∧
      source p (position p rank).1 (position p rank).2 = rank := by
    intro rank h
    exact ⟨row_lt_side h, Nat.mod_lt rank hp, Nat.div_add_mod rank p⟩
  have hbwd : ∀ r c, r < p → c < p →
      source p r c < p * p ∧ position p (source p r c) = (r, c) := by
    intro r c hr hc
    obtain ⟨h1, h2⟩ := position_unique p (p * r + c) r c hc rfl
    refine ⟨?_, ?_⟩
    · have hle : p * (r + 1) ≤ p * p := Nat.mul_le_mul_left p hr
      have hmul : p * (r + 1) = p * r + p := Nat.mul_succ _ _
      unfold source
      omega
    · unfold position source
      rw [h1, h2]
  refine ⟨hfwd, hbwd, fun r c hc => position_unique p (p * r + c) r c hc rfl,
    fun rank => Nat.div_add_mod rank p, ?_, ?_, ?_⟩
  · intro rank h
    exact ⟨(hfwd rank h).1, (hfwd rank h).2.1⟩
  · intro a ha b hb hab
    have e1 := (hfwd a ha).2.2
    have e2 := (hfwd b hb).2.2
    rw [hab] at e1
    exact e1.symm.trans e2
  · rintro ⟨r, c⟩ ⟨hr, hc⟩
    exact ⟨source p r c, (hbwd r c hr hc).1, (hbwd r c hr hc).2⟩

/-- C19 at `p = 3`. -/
theorem C19_position_bijection_witness :
    (∀ rank, rank < 3 * 3 →
      (position 3 rank).1 < 3 ∧ (position 3 rank).2 < 3 ∧
      source 3 (position 3 rank).1 (position 3 rank).2 = rank) ∧
    (∀ r c, r < 3 → c < 3 →
      source 3 r c < 3 * 3 ∧ position 3 (source 3 r c) = (r, c)) ∧
    (∀ r c, c < 3 → (3 * r + c) / 3 = r ∧ (3 * r + c) % 3 = c) ∧
    (∀ rank, 3 * (rank / 3) + rank % 3 = rank) ∧
    Set.BijOn (position 3) {rank | rank < 3 * 3} {rc | rc.1 < 3 ∧ rc.2 < 3} :=
  C19_position_bijection 3 (by decide)

/-! ## The grid after `initialiseGrid` -/

theorem ulp_of_small (fuel n : Nat) (h : n < 2 ^ 24) : ulp fuel n = 1 := by
  cases fuel with
  | zero => rfl
  | succ fuel =>
    unfold ulp
    rw [if_pos h]

/-- Every integer from 0 to `2^24` is a `float`: the conversion does not change it. -/
theorem toFloat_exact (n : Nat) (h : n ≤ 2 ^ 24) : toFloat n = (n : ℚ) := by
  rcases Nat.lt_or_ge n (2 ^ 24) with hlt | hge
  · unfold toFloat
    simp only [ulp_of_small n n hlt, Nat.div_one, Nat.mod_one, Nat.mul_one]
    rw [if_pos (Or.inl (by decide))]
  · have e : n = 2 ^ 24 := by omega
    subst e
    decide!

theorem initialiseGridFloat_eq (l rank rank' : Nat) (fresh : Nat → ℚ)
    (h : toFloat (rank + 1) = (rank' : ℚ) + 1) :
    initialiseGridFloat l rank fresh = initialiseGrid l rank' fresh := by
  unfold initialiseGridFloat initialiseGrid
  rw [h]

/-- C18 fails as stated: `rank+1 = 16777217 = 2^24 + 1` is not a `float`. The
assignment of line 209 converts it to the nearest one, and for `rank = 16777216`
every owned cell holds `16777216`, not `rank+1`. -/
theorem C18_rank_plus_one_is_rounded :
    toFloat (16777216 + 1) = 16777216 ∧
    (∀ l (fresh : Nat → ℚ) i j, 1 ≤ i → i ≤ l → 1 ≤ j → j ≤ l →
      initialiseGridFloat l 16777216 fresh (_index l i j) = 16777216) ∧
    initialiseGridFloat 1 16777216 (fun _ => 0) (_index 1 1 1)
      ≠ ((16777216 : Nat) : ℚ) + 1 := by
  have hf : toFloat (16777216 + 1) = ((16777215 : Nat) : ℚ) + 1 := by decide!
  have hcell : ∀ l (fresh : Nat → ℚ) i j, 1 ≤ i → i ≤ l → 1 ≤ j → j ≤ l →
      initialiseGridFloat l 16777216 fresh (_index l i j) = 16777216 := by
    intro l fresh i j hi1 hi2 hj1 hj2
    rw [initialiseGridFloat_eq l 16777216 16777215 fresh hf,
      initialiseGrid_at l 16777215 fresh i j (by omega) (by omega),
      if_pos ⟨hi1, hi2, hj1, hj2⟩]
    norm_num
  refine ⟨by decide!, hcell, ?_⟩
  rw [hcell 1 _ 1 1 (le_refl 1) (le_refl 1) (le_refl 1) (le_refl 1)]
  norm_num

/-- C18, amended: for every `rank` below `2^24 = 16777216`, after
`initialiseGrid( grid, rank, p )` every cell `(i, j)` of the
`(local_L+2) x (local_L+2)` grid holds `rank+1` if `1 ≤ i, j ≤ local_L` and 0
otherwise, whatever the memory held before the call. -/
theorem C18_initialiseGrid_values (l rank : Nat) (fresh : Nat → ℚ) (i j : Nat)
    (hr : rank < 2 ^ 24) (hi : i ≤ l + 1) (hj : j ≤ l + 1) :
    initialiseGridFloat l rank fresh (_index l i j) =
      if 1 ≤ i ∧ i ≤ l ∧ 1 ≤ j ∧ j ≤ l then (rank : ℚ) + 1 else 0 := by
  have hf : toFloat (rank + 1) = (rank : ℚ) + 1 := by
    rw [toFloat_exact (rank + 1) (by omega)]
    push_cast
    rfl
  rw [initialiseGridFloat_eq l rank rank fresh hf]
  exact initialiseGrid_at l rank fresh i j hi hj

/-- C18 (amended) at `local_L = 4`, `rank = 2`, the corner cell `(5, 5)`. -/
theorem C18_initialiseGrid_values_witness :
    initialiseGridFloat 4 2 (fun _ => 7) (_index 4 5 5) =
      if 1 ≤ 5 ∧ 5 ≤ 4 ∧ 1 ≤ 5 ∧ 5 ≤ 4 then ((2 : Nat) : ℚ) + 1 else 0 :=
  C18_initialiseGrid_values 4 2 (fun _ => 7) 5 5 (by decide) (by decide) (by decide)

/-! ## What the update loops read and write -/

/-- A loop that appends to a list appends the pieces of its passes in order. -/
theorem forLoop_append {α : Type} (lo hi : Nat) (f : Nat → List α) (init : List α) :
    forLoop lo hi (fun i acc => acc ++ f i) init
      = init ++ (List.range' lo (hi - lo)).flatMap f := by
  unfold forLoop
  generalize List.range' lo (hi - lo) = xs
  induction xs generalizing init with
  | nil => simp
  | cons x xs ih => rw [List.foldl_cons, ih, List.flatMap_cons, List.append_assoc]

theorem interiorAccesses_eq (l : Nat) :
    interiorAccesses l = (List.range' 2 (l - 2)).flatMap (fun row =>
      (List.range' 2 (l - 2)).flatMap (fun col => stencilAccesses l row col)) := by
  unfold interiorAccesses
  have h : (fun (row : Nat) (acc : List Access) =>
      forLoop 2 l (fun col acc => acc ++ stencilAccesses l row col) acc)
      = fun row acc => acc ++ (List.range' 2 (l - 2)).flatMap
          (fun col => stencilAccesses l row col) := by
    funext row acc
    exact forLoop_append 2 l _ acc
  rw [h, forLoop_append, List.nil_append]

theorem edgeAccesses_eq (l : Nat) :
    edgeAccesses l = (List.range' 1 l).flatMap (fun row =>
      (List.range' 1 l).flatMap (fun col =>
        if row = 1 ∨ row = l ∨ col = 1 ∨ col = l then stencilAccesses l row col else [])) := by
  unfold edgeAccesses
  have h : (fun (row : Nat) (acc : List Access) =>
      forLoop 1 (l + 1) (fun col acc =>
        if row = 1 ∨ row = l ∨ col = 1 ∨ col = l then acc ++ stencilAccesses l row col
        else acc) acc)
      = fun row acc => acc ++ (List.range' 1 l).flatMap (fun col =>
          if row = 1 ∨ row = l ∨ col = 1 ∨ col = l then stencilAccesses l row col else []) := by
    funext row acc
    have h2 : (fun (col : Nat) (acc : List Access) =>
        if row = 1 ∨ row = l ∨ col = 1 ∨ col = l then acc ++ stencilAccesses l row col
        else acc)
        = fun col acc => acc ++
          (if row = 1 ∨ row = l ∨ col = 1 ∨ col = l then stencilAccesses l row col else []) := by
      funext col acc
      split <;> simp
    rw [h2, forLoop_append, Nat.add_sub_cancel]
  rw [h, forLoop_append, List.nil_append, Nat.add_sub_cancel]

theorem mem_interiorAccesses {l : Nat} {a : Access} :
    a ∈ interiorAccesses l ↔
      ∃ row col, (2 ≤ row ∧ row < l) ∧ (2 ≤ col ∧ col < l) ∧ a ∈ stencilAccesses l row col := by
  rw [interiorAccesses_eq]
  simp only [List.mem_flatMap, List.mem_range'_1]
  constructor
  · rintro ⟨row, hr, col, hc, ha⟩
    exact ⟨row, col, ⟨hr.1, by omega⟩, ⟨hc.1, by omega⟩, ha⟩
  · rintro ⟨row, col, hr, hc, ha⟩
    exact ⟨row, ⟨hr.1, by omega⟩, col, ⟨hc.1, by omega⟩, ha⟩

theorem mem_edgeAccesses {l : Nat} {a : Access} :
    a ∈ edgeAccesses l ↔
      ∃ row col, (1 ≤ row ∧ row ≤ l) ∧ (1 ≤ col ∧ col ≤ l) ∧
        (row = 1 ∨ row = l ∨ col = 1 ∨ col = l) ∧ a ∈ stencilAccesses l row col := by
  rw [edgeAccesses_eq]
  simp only [List.mem_flatMap, List.mem_range'_1]
  constructor
  · rintro ⟨row, hr, col, hc, ha⟩
    split at ha
    · rename_i hrim
      exact ⟨row, col, ⟨hr.1, by omega⟩, ⟨hc.1, by omega⟩, hrim, ha⟩
    · simp at ha
  · rintro ⟨row, col, hr, hc, hrim, ha⟩
    exact ⟨row, ⟨hr.1, by omega⟩, col, ⟨hc.1, by omega⟩, by rw [if_pos hrim]; exact ha⟩

/-- C11: the interior update (lines 146-153), which runs while the vertical exchange
is in flight, accesses only `grid`; it reads no halo cell (no cell of row or
column 0 or `local_L+1`), and it writes no halo cell and no cell of rows 1 and
`local_L` (the send buffers) or of rows 0 and `local_L+1` (the receive buffers).
Accordingly the values of all those cells are the same before and after it. -/
theorem C11_interior_update_frame (l i j : Nat) (hj : j ≤ l + 1) :
    ((i = 0 ∨ i = l + 1 ∨ j = 0 ∨ j = l + 1) →
      Access.read Buffer.grid (_index l i j) ∉ interiorAccesses l) ∧
    ((i = 0 ∨ i = 1 ∨ i = l ∨ i = l + 1 ∨ j = 0 ∨ j = l + 1) →
      Access.write Buffer.grid (_index l i j) ∉ interiorAccesses l) ∧
    (∀ a ∈ interiorAccesses l,
      ∃ x, a = Access.read Buffer.grid x ∨ a = Access.write Buffer.grid x) ∧
    ((i = 0 ∨ i = 1 ∨ i = l ∨ i = l + 1 ∨ j = 0 ∨ j = l + 1) →
      ∀ grid : Nat → ℚ, interiorUpdate l grid (_index l i j) = grid (_index l i j)) := by
  refine ⟨?_, ?_, ?_, ?_⟩
  · intro hhalo hmem
    obtain ⟨row, col, hr, hc, ha⟩ := mem_interiorAccesses.mp hmem
    simp only [stencilAccesses, List.mem_cons, List.not_mem_nil, or_false, Access.read.injEq,
      true_and, reduceCtorEq] at ha
    rcases ha with h | h | h | h <;>
      obtain ⟨e1, e2⟩ := _index_inj (by omega) (by omega) h <;> omega
  · intro hhalo hmem
    obtain ⟨row, col, hr, hc, ha⟩ := mem_interiorAccesses.mp hmem
    simp only [stencilAccesses, List.mem_cons, List.not_mem_nil, or_false, Access.write.injEq,
      true_and, reduceCtorEq, false_or] at ha
    obtain ⟨e1, e2⟩ := _index_inj (by omega) (by omega) ha
    omega
  · intro a hmem
    obtain ⟨row, col, hr, hc, ha⟩ := mem_interiorAccesses.mp hmem
    simp only [stencilAccesses, List.mem_cons, List.not_mem_nil, or_false] at ha
    rcases ha with h | h | h | h | h
    · exact ⟨_, Or.inl h⟩
    · exact ⟨_, Or.inl h⟩
    · exact ⟨_, Or.inl h⟩
    · exact ⟨_, Or.inl h⟩
    · exact ⟨_, Or.inr h⟩
  · intro hcell grid
    exact interiorUpdate_frame l grid i j (by omega) (by omega)

/-- C11 at `local_L = 4`, the send-buffer cell `(1, 2)`. -/
theorem C11_interior_update_frame_witness :
    ((1 = 0 ∨ 1 = 4 + 1 ∨ 2 = 0 ∨ 2 = 4 + 1) →
      Access.read Buffer.grid (_index 4 1 2) ∉ interiorAccesses 4) ∧
    ((1 = 0 ∨ 1 = 1 ∨ 1 = 4 ∨ 1 = 4 + 1 ∨ 2 = 0 ∨ 2 = 4 + 1) →
      Access.write Buffer.grid (_index 4 1 2) ∉ interiorAccesses 4) ∧
    (∀ a ∈ interiorAccesses 4,
      ∃ x, a = Access.read Buffer.grid x ∨ a = Access.write Buffer.grid x) ∧
    ((1 = 0 ∨ 1 = 1 ∨ 1 = 4 ∨ 1 = 4 + 1 ∨ 2 = 0 ∨ 2 = 4 + 1) →
      ∀ grid : Nat → ℚ, interiorUpdate 4 grid (_index 4 1 2) = grid (_index 4 1 2)) :=
  C11_interior_update_frame 4 1 2 (by decide)

theorem write_mem_stencil {l row col x : Nat} :
    Access.write Buffer.grid x ∈ stencilAccesses l row col ↔ x = _index l row col := by
  simp [stencilAccesses]

theorem write_mem_interior (l i j : Nat) (hj : j ≤ l + 1) :
    Access.write Buffer.grid (_index l i j) ∈ interiorAccesses l ↔
      (2 ≤ i ∧ i < l) ∧ (2 ≤ j ∧ j < l) := by
  rw [mem_interiorAccesses]
  constructor
  · rintro ⟨row, col, hr, hc, ha⟩
    obtain ⟨e1, e2⟩ := _index_inj (by omega) (by omega) (write_mem_stencil.mp ha)
    subst e1 e2
    exact ⟨hr, hc⟩
  · rintro ⟨hr, hc⟩
    exact ⟨i, j, hr, hc, write_mem_stencil.mpr rfl⟩

theorem write_mem_edge (l i j : Nat) (hj : j ≤ l + 1) :
    Access.write Buffer.grid (_index l i j) ∈ edgeAccesses l ↔
      (1 ≤ i ∧ i ≤ l) ∧ (1 ≤ j ∧ j ≤ l) ∧ (i = 1 ∨ i = l ∨ j = 1 ∨ j = l) := by
  rw [mem_edgeAccesses]
  constructor
  · rintro ⟨row, col, hr, hc, hrim, ha⟩
    obtain ⟨e1, e2⟩ := _index_inj (by omega) (by omega) (write_mem_stencil.mp ha)
    subst e1 e2
    exact ⟨hr, hc, hrim⟩
  · rintro ⟨hr, hc, hrim⟩
    exact ⟨i, j, hr, hc, hrim, write_mem_stencil.mpr rfl⟩

/-- C15 fails as stated: run on one process with `local_L = 8`, the owned cell
`(2, 2)` is assigned by the interior update, which the process executes before the
two waits, and is not assigned by the edge update. -/
theorem C15_cell_2_2_is_interior :
    program 1 8 0 = [Stmt.declareRequests, Stmt.interiorUpdate, Stmt.MPI_Wait Handle.Urequest,
      Stmt.MPI_Wait Handle.Lrequest, Stmt.edgeUpdate] ∧
    Access.write Buffer.grid (_index 8 2 2) ∈ interiorAccesses 8 ∧
    Access.write Buffer.grid (_index 8 2 2) ∉ edgeAccesses 8 := by
  refine ⟨by decide, ?_, ?_⟩
  · rw [write_mem_interior 8 2 2 (by decide)]; decide
  · rw [write_mem_edge 8 2 2 (by decide)]; decide

/-- C15, amended: run on one process with `local_L = L = 8`, the process executes the
interior update, then the two waits, then the edge update. An owned cell
`(row, col)` is assigned in the edge update exactly if `row` or `col` is 1 or 8
(28 cells), and in the interior update exactly if `2 ≤ row, col ≤ 7` (36 cells);
no owned cell is assigned in both. -/
theorem C15_edge_and_interior_cells (row col : Nat)
    (hr1 : 1 ≤ row) (hr2 : row ≤ 8) (hc1 : 1 ≤ col) (hc2 : col ≤ 8) :
    program 1 8 0 = [Stmt.declareRequests, Stmt.interiorUpdate, Stmt.MPI_Wait Handle.Urequest,
      Stmt.MPI_Wait Handle.Lrequest, Stmt.edgeUpdate] ∧
    (Access.write Buffer.grid (_index 8 row col) ∈ edgeAccesses 8 ↔
      (row = 1 ∨ row = 8 ∨ col = 1 ∨ col = 8)) ∧
    (Access.write Buffer.grid (_index 8 row col) ∈ interiorAccesses 8 ↔
      (2 ≤ row ∧ row ≤ 7 ∧ 2 ≤ col ∧ col ≤ 7)) ∧
    ¬ (Access.write Buffer.grid (_index 8 row col) ∈ edgeAccesses 8 ∧
       Access.write Buffer.grid (_index 8 row col) ∈ interiorAccesses 8) := by
  rw [write_mem_interior 8 row col (by omega), write_mem_edge 8 row col (by omega)]
  refine ⟨by decide, ?_, ?_, ?_⟩
  · constructor
    · rintro ⟨_, _, h⟩; exact h
    · intro h; exact ⟨⟨hr1, hr2⟩, ⟨hc1, hc2⟩, h⟩
  · constructor
    · rintro ⟨⟨h1, h2⟩, h3, h4⟩; omega
    · intro h; omega
  · rintro ⟨⟨_, _, h⟩, h'⟩
    omega

/-- C15 (amended) at the cell `(1, 5)`. -/
theorem C15_edge_and_interior_cells_witness :
    program 1 8 0 = [Stmt.declareRequests, Stmt.interiorUpdate, Stmt.MPI_Wait Handle.Urequest,
      Stmt.MPI_Wait Handle.Lrequest, Stmt.edgeUpdate] ∧
    (Access.write Buffer.grid (_index 8 1 5) ∈ edgeAccesses 8 ↔
      (1 = 1 ∨ 1 = 8 ∨ 5 = 1 ∨ 5 = 8)) ∧
    (Access.write Buffer.grid (_index 8 1 5) ∈ interiorAccesses 8 ↔
      (2 ≤ 1 ∧ 1 ≤ 7 ∧ 2 ≤ 5 ∧ 5 ≤ 7)) ∧
    ¬ (Access.write Buffer.grid (_index 8 1 5) ∈ edgeAccesses 8 ∧
       Access.write Buffer.grid (_index 8 1 5) ∈ interiorAccesses 8) :=
  C15_edge_and_interior_cells 1 5 (by decide) (by decide) (by decide) (by decide)

/-! ## One process against the reference stencil -/

/-- C16 fails on the code: run on one process with `L = 8` (fresh memory zeroed),
after the first iteration the cell `(1, 2)` holds `5/8`, whereas one sweep of the
reference stencil on the same initial grid gives `3/4`. -/
theorem C16_one_process_differs_from_reference :
    ((run 1 8 (fun _ _ => 0) (fun _ _ => 0) 1).proc 0).grid (_index 8 1 2) = 5 / 8 ∧
    reference 8 ((run 1 8 (fun _ _ => 0) (fun _ _ => 0) 0).proc 0).grid 1 (_index 8 1 2)
      = 3 / 4 := by
  decide!

/-! ## `displayGrid`: what is printed and which calls are made -/

theorem Shows.trans {D D' D'' : Display} {o o' : List Print} {c c' : Nat → List DisplayCall}
    (h : Shows D D' o c) (h' : Shows D' D'' o' c') :
    Shows D D'' (o ++ o') (fun r => c r ++ c' r) where
  chan := h'.chan
  out0 := by rw [h'.out0, h.out0, List.append_assoc]
  out := fun r hr => by rw [h'.out r hr, h.out r hr]
  calls := fun r => by rw [h'.calls r, h.calls r, List.append_assoc]
  starved := by rw [h'.starved, h.starved]

theorem shows_refl (D : Display) (hq : ∀ s d, D.chan s d = []) :
    Shows D D [] (fun _ => []) where
  chan := hq
  out0 := by simp
  out := fun _ _ => rfl
  calls := fun _ => by simp
  starved := rfl

theorem shows_print0 (items : List Print) (D : Display) (hq : ∀ s d, D.chan s d = []) :
    Shows D (print0 items D) items (fun _ => []) where
  chan := hq
  out0 := by simp [print0]
  out := fun r hr => by simp [print0, hr]
  calls := fun _ => by simp [print0]
  starved := rfl

theorem shows_foldl (body : Nat → Display → Display) (o : Nat → List Print)
    (c : Nat → Nat → List DisplayCall) (xs : List Nat)
    (hstep : ∀ i D, i ∈ xs → (∀ s d, D.chan s d = []) → Shows D (body i D) (o i) (c i))
    (D : Display) (hq : ∀ s d, D.chan s d = []) :
    Shows D (xs.foldl (fun s i => body i s) D) (xs.flatMap o)
      (fun r => xs.flatMap (fun i => c i r)) := by
  induction xs generalizing D with
  | nil => simpa using shows_refl D hq
  | cons x xs ih =>
    have h1 := hstep x D (List.mem_cons_self _ _) hq
    have h2 := ih (fun i D hi => hstep i D (List.mem_cons_of_mem _ hi)) (body x D) h1.chan
    simpa using h1.trans h2

theorem shows_forLoop (lo hi : Nat) (body : Nat → Display → Display) (o : Nat → List Print)
    (c : Nat → Nat → List DisplayCall)
    (hstep : ∀ i D, lo ≤ i → i < hi → (∀ s d, D.chan s d = []) →
      Shows D (body i D) (o i) (c i))
    (D : Display) (hq : ∀ s d, D.chan s d = []) :
    Shows D (forLoop lo hi body D) ((List.range' lo (hi - lo)).flatMap o)
      (fun r => (List.range' lo (hi - lo)).flatMap (fun i => c i r)) := by
  unfold forLoop
  refine shows_foldl body o c _ ?_ D hq
  intro i D hi hD
  rw [List.mem_range'_1] at hi
  exact hstep i D hi.1 (by omega) hD

theorem printRow_eq (l : Nat) (f : Nat → ℚ) :
    forLoop 1 (l + 1) (fun col out => out ++ [(⟨"%6.3f ", some (f col)⟩ : Print)]) []
      = (List.range' 1 l).map (fun col => ⟨"%6.3f ", some (f col)⟩) := by
  rw [forLoop_append 1 (l + 1) (fun col => [(⟨"%6.3f ", some (f col)⟩ : Print)]) []]
  simp only [List.nil_append, Nat.add_sub_cancel]
  generalize List.range' 1 l = xs
  induction xs with
  | nil => rfl
  | cons x xs ih => simp [List.flatMap_cons, ih]

theorem scratch_row (l : Nat) (a g : Nat → ℚ) (row : Nat) :
    (List.range' 1 l).map (fun col => (⟨"%6.3f ",
        some (storeAt a 0 ((readFrom g (_index l row 1) l).take l) (col - 1))⟩ : Print))
      = rowValues l g row := by
  unfold rowValues
  apply List.map_congr_left
  intro col hcol
  rw [List.mem_range'_1] at hcol
  have h := storeAt_readFrom a g 0 (_index l row 1) l (col - 1) (by omega)
  rw [Nat.zero_add] at h
  rw [h, ← _index_row l row col hcol.1]

theorem shows_displayBlock (p l : Nat) (grid : Nat → Nat → ℚ) (rowBlock row colBlock : Nat)
    (D : Display) (hq : ∀ s d, D.chan s d = []) :
    Shows D (displayBlock p l grid rowBlock row colBlock D)
      (rowValues l (grid (source p rowBlock colBlock)) row ++ [⟨"| ", none⟩])
      (blockCalls p l rowBlock row colBlock) := by
  by_cases h0 : source p rowBlock colBlock = 0
  · refine ⟨?_, ?_, ?_, ?_, ?_⟩
    · intro s d
      have hs : ¬ ((s ≠ 0 ∧ 0 = s) ∧ d = 0) := by omega
      simp [displayBlock, h0, print0, hq, hs]
    · simp [displayBlock, h0, print0, printRow_eq, rowValues]
    · intro r hr
      simp [displayBlock, h0, print0, hr]
    · intro r
      have hr : ¬ (r ≠ 0 ∧ 0 = r) := by omega
      simp [displayBlock, h0, print0, blockCalls, hr]
    · simp [displayBlock, h0, print0]
  · refine ⟨?_, ?_, ?_, ?_, ?_⟩
    · intro s d
      simp only [displayBlock, h0, hq, List.nil_append, if_false, print0, ne_eq,
        not_false_eq_true, true_and, and_true, if_true]
      by_cases hs : s = source p rowBlock colBlock ∧ d = 0
      · rw [if_pos hs]
      · rw [if_neg hs, ite_eq_right_iff]
        intro h
        exact absurd ⟨h.1.2.symm, h.2⟩ hs
    · simp only [displayBlock, h0, hq, List.nil_append, if_false, print0, ne_eq,
        not_false_eq_true, true_and, and_true, if_true, printRow_eq, scratch_row]
      rw [List.append_assoc]
    · intro r hr
      simp only [displayBlock, h0, hq, List.nil_append, if_false, print0, ne_eq,
        not_false_eq_true, true_and, and_true, if_true, if_neg hr]
    · intro r
      simp only [displayBlock, h0, hq, List.nil_append, if_false, print0, ne_eq,
        not_false_eq_true, true_and, and_true, if_true, blockCalls]
      by_cases hr : r = 0
      · subst hr
        simp [h0]
      · simp only [hr, not_false_eq_true, true_and, false_and, if_false]
        split <;> simp
    · simp only [displayBlock, h0, hq, List.nil_append, if_false, print0, ne_eq,
        not_false_eq_true, true_and, and_true, if_true]

theorem Shows.congr {D D' : Display} {o o' : List Print} {c c' : Nat → List DisplayCall}
    (h : Shows D D' o c) (ho : o = o') (hc : ∀ r, c r = c' r) : Shows D D' o' c' := by
  have hc' : c = c' := funext hc
  rw [← ho, ← hc']
  exact h

theorem shows_row (p l : Nat) (grid : Nat → Nat → ℚ) (rowBlock row : Nat)
    (D : Display) (hq : ∀ s d, D.chan s d = []) :
    Shows D
      (print0 [⟨"%6.3f\n", some 0⟩]
        (forLoop 0 p (fun colBlock D => displayBlock p l grid rowBlock row colBlock D)
          (print0 [⟨"%6.3f | ", some 0⟩] D)))
      (dataLine p l grid rowBlock row)
      (fun r => (List.range p).flatMap (fun colBlock =>
        blockCalls p l rowBlock row colBlock r)) := by
  have h1 := shows_print0 [⟨"%6.3f | ", some 0⟩] D hq
  have h2 := shows_forLoop 0 p
    (fun colBlock D => displayBlock p l grid rowBlock row colBlock D)
    (fun colBlock => rowValues l (grid (source p rowBlock colBlock)) row ++ [⟨"| ", none⟩])
    (fun colBlock => blockCalls p l rowBlock row colBlock)
    (fun i D _ _ hD => shows_displayBlock p l grid rowBlock row i D hD) _ h1.chan
  have h3 := shows_print0 [⟨"%6.3f\n", some 0⟩] _ h2.chan
  refine ((h1.trans h2).trans h3).congr ?_ ?_
  · simp [dataLine, List.range_eq_range']
  · intro r
    simp [List.range_eq_range']

theorem shows_rowBlock (p l : Nat) (grid : Nat → Nat → ℚ) (rowBlock : Nat)
    (D : Display) (hq : ∀ s d, D.chan s d = []) :
    Shows D
      (if rowBlock ≠ p - 1 then
        print0 (divider p l)
          (forLoop 1 (l + 1) (fun row D =>
            print0 [⟨"%6.3f\n", some 0⟩]
              (forLoop 0 p (fun colBlock D => displayBlock p l grid rowBlock row colBlock D)
                (print0 [⟨"%6.3f | ", some 0⟩] D))) D)
       else
        forLoop 1 (l + 1) (fun row D =>
          print0 [⟨"%6.3f\n", some 0⟩]
            (forLoop 0 p (fun colBlock D => displayBlock p l grid rowBlock row colBlock D)
              (print0 [⟨"%6.3f | ", some 0⟩] D))) D)
      ((List.range' 1 l).flatMap (fun row => dataLine p l grid rowBlock row)
        ++ (if rowBlock ≠ p - 1 then divider p l else []))
      (fun r => (List.range' 1 l).flatMap (fun row =>
        (List.range p).flatMap (fun colBlock => blockCalls p l rowBlock row colBlock r))) := by
  have h1 := shows_forLoop 1 (l + 1)
    (fun row D =>
      print0 [⟨"%6.3f\n", some 0⟩]
        (forLoop 0 p (fun colBlock D => displayBlock p l grid rowBlock row colBlock D)
          (print0 [⟨"%6.3f | ", some 0⟩] D)))
    (fun row => dataLine p l grid rowBlock row)
    (fun row r => (List.range p).flatMap (fun colBlock =>
        blockCalls p l rowBlock row colBlock r))
    (fun i D _ _ hD => shows_row p l grid rowBlock i D hD) D hq
  rw [Nat.add_sub_cancel] at h1
  by_cases hb : rowBlock ≠ p - 1
  · rw [if_pos hb, if_pos hb]
    have h2 := shows_print0 (divider p l) _ h1.chan
    refine (h1.trans h2).congr rfl ?_
    intro r
    simp
  · rw [if_neg hb, if_neg hb]
    refine h1.congr ?_ ?_
    · simp
    · intro r
      rfl

/-- What one call of `displayGrid` does when the grid is small enough to be shown and
nothing is in flight on entry: rank 0 prints `displayOutput`, no other rank prints,
process `rank` makes the calls `displayCalls p l rank`, every receive finds its
message and nothing is left in flight. -/
theorem displayGrid_shows (L p l : Nat) (grid : Nat → Nat → ℚ) (hL : L ≤ 32)
    (D : Display) (hq : ∀ s d, D.chan s d = []) :
    Shows D (displayGrid L p l grid D) (displayOutput p l grid) (displayCalls p l) := by
  have h1 := shows_print0 (boundaryLine p l ++ divider p l) D hq
  have h2 := shows_forLoop 0 p
    (fun rowBlock D =>
      if rowBlock ≠ p - 1 then
        print0 (divider p l)
          (forLoop 1 (l + 1) (fun row D =>
            print0 [⟨"%6.3f\n", some 0⟩]
              (forLoop 0 p (fun colBlock D => displayBlock p l grid rowBlock row colBlock D)
                (print0 [⟨"%6.3f | ", some 0⟩] D))) D)
       else
        forLoop 1 (l + 1) (fun row D =>
          print0 [⟨"%6.3f\n", some 0⟩]
            (forLoop 0 p (fun colBlock D => displayBlock p l grid rowBlock row colBlock D)
              (print0 [⟨"%6.3f | ", some 0⟩] D))) D)
    (fun rowBlock => (List.range' 1 l).flatMap (fun row => dataLine p l grid rowBlock row)
        ++ (if rowBlock ≠ p - 1 then divider p l else []))
    (fun rowBlock r => (List.range' 1 l).flatMap (fun row =>
        (List.range p).flatMap (fun colBlock => blockCalls p l rowBlock row colBlock r)))
    (fun i D _ _ hD => shows_rowBlock p l grid i D hD) _ h1.chan
  have h3 := shows_print0 (divider p l ++ boundaryLine p l) _ h2.chan
  have hD : displayGrid L p l grid D = print0 (divider p l ++ boundaryLine p l)
      (forLoop 0 p
        (fun rowBlock D =>
          if rowBlock ≠ p - 1 then
            print0 (divider p l)
              (forLoop 1 (l + 1) (fun row D =>
                print0 [⟨"%6.3f\n", some 0⟩]
                  (forLoop 0 p
                    (fun colBlock D => displayBlock p l grid rowBlock row colBlock D)
                    (print0 [⟨"%6.3f | ", some 0⟩] D))) D)
          else
            forLoop 1 (l + 1) (fun row D =>
              print0 [⟨"%6.3f\n", some 0⟩]
                (forLoop 0 p (fun colBlock D => displayBlock p l grid rowBlock row colBlock D)
                  (print0 [⟨"%6.3f | ", some 0⟩] D))) D)
        (print0 (boundaryLine p l ++ divider p l) D)) := by
    unfold displayGrid
    rw [if_neg (by omega)]
  rw [hD]
  refine ((h1.trans h2).trans h3).congr ?_ ?_
  · simp [displayOutput, List.range_eq_range']
  · intro r
    simp [displayCalls, List.range_eq_range']

/-! ## A single process -/

theorem displayCalls_one (l rank : Nat) : displayCalls 1 l rank = [] := by
  have h : ∀ row, blockCalls 1 l 0 row 0 rank = [] := by
    intro row
    unfold blockCalls source
    rw [if_neg (by omega), if_neg (by omega)]
  simp [displayCalls, h]

/-- C14: run on one process (`p = 1`, `local_L = L = l`), the statements of an
iteration are the declaration of the handles, the interior update, the two waits and
the edge update, so no send and no receive is issued and nothing is ever in flight;
`displayGrid` makes no MPI call on any rank; and after any number `n` of iterations
and any number `k` of lines of the next one, every cell of the four halo strips of
the grid is 0. -/
theorem C14_single_process (l n k : Nat) (freshGrid freshColumn fresh grid : Nat → Nat → ℚ) :
    program 1 l 0
      = [.declareRequests, .interiorUpdate, .MPI_Wait .Urequest, .MPI_Wait .Lrequest,
         .edgeUpdate] ∧
    (∀ s d, (run 1 l freshGrid freshColumn n).chan s d = []) ∧
    (∀ rank, (displayGrid l 1 l grid (Display.start fresh)).calls rank = []) ∧
    (∀ i j, i ≤ l + 1 → j ≤ l + 1 → (i = 0 ∨ i = l + 1 ∨ j = 0 ∨ j = l + 1) →
      ((lockstep 1 l ((iterationBody 1 l).take k)
        (run 1 l freshGrid freshColumn n)).proc 0).grid (_index l i j) = 0) := by
  refine ⟨?_, (run_quiet 1 l (le_refl 1) freshGrid freshColumn n).1, ?_, ?_⟩
  · simp [program, iterationBody]
  · intro rank
    by_cases hL : l > 32
    · unfold displayGrid
      rw [if_pos hL]
      rfl
    · have h := (displayGrid_shows l 1 l grid (by omega) (Display.start fresh)
        (fun _ _ => rfl)).calls rank
      rw [h, displayCalls_one]
      rfl
  · intro i j hi hj hb
    refine (lockstep_keeps 1 l 0 ((iterationBody 1 l).take k)
      (fun _ hx => List.mem_of_mem_take hx) _ (run_keeps 1 l freshGrid freshColumn 0 n)).2
      i j hi hj ?_
    unfold boundaryCell
    simp only [Nat.zero_div, Nat.zero_mod, Nat.sub_self, true_or, and_true]
    omega


/-! ## The layout of the displayed grid -/

theorem flatMap_const_singleton {α β : Type} (xs : List α) (z : β) :
    xs.flatMap (fun _ => [z]) = List.replicate xs.length z := by
  induction xs with
  | nil => rfl
  | cons x xs ih => simp [List.flatMap_cons, ih, List.replicate_succ]

theorem boundaryLine_eq (p l : Nat) : boundaryLine p l = zeroLine p l := by
  unfold boundaryLine zeroLine
  have h : (fun (_ : Nat) (out : List Print) =>
      forLoop 1 (l + 1) (fun _ out => out ++ [(⟨"%6.3f ", some 0⟩ : Print)]) out
        ++ [(⟨"| ", none⟩ : Print)])
      = fun _ out => out ++ (List.replicate l (⟨"%6.3f ", some 0⟩ : Print) ++ [⟨"| ", none⟩]) := by
    funext _ out
    rw [forLoop_append 1 (l + 1) (fun _ => [(⟨"%6.3f ", some 0⟩ : Print)]) out,
      flatMap_const_singleton, List.length_range', Nat.add_sub_cancel, List.append_assoc]
  simp only [h]
  simp only [forLoop_append, Nat.sub_zero, List.range_eq_range']

theorem divider_eq (p l : Nat) : divider p l = dashes p l := by
  unfold divider dashes
  rw [forLoop_append 0 _ (fun _ => [(⟨"-", none⟩ : Print)]) [], flatMap_const_singleton,
    List.length_range', Nat.sub_zero, List.nil_append]

theorem flatten_flatMap {α β : Type} (xs : List α) (f : α → List (List β)) :
    (xs.flatMap f).flatten = xs.flatMap (fun x => (f x).flatten) := by
  induction xs with
  | nil => rfl
  | cons x xs ih => simp [List.flatMap_cons, ih]

theorem flatten_map {α β : Type} (xs : List α) (f : α → List β) :
    (xs.map f).flatten = xs.flatMap f := by
  induction xs with
  | nil => rfl
  | cons x xs ih => simp [List.flatMap_cons, ih]

theorem displayOutput_eq (p l : Nat) (grid : Nat → Nat → ℚ) :
    displayOutput p l grid = (layout p l grid).flatten := by
  unfold displayOutput layout
  rw [boundaryLine_eq, divider_eq]
  simp only [List.flatten_append, flatten_flatMap, flatten_map, List.flatten_cons,
    List.flatten_nil, List.append_nil, List.append_assoc, List.cons_append, List.nil_append]
  congr 3
  apply List.flatMap_congr
  intro rb _
  split <;> simp

theorem countP_flatMap_const {α β : Type} (q : β → Bool) (xs : List α) (f : α → List β)
    (c : Nat) (h : ∀ x ∈ xs, (f x).countP q = c) :
    (xs.flatMap f).countP q = xs.length * c := by
  induction xs with
  | nil => simp
  | cons x xs ih =>
    rw [List.flatMap_cons, List.countP_append, h x (List.mem_cons_self _ _),
      ih (fun y hy => h y (List.mem_cons_of_mem _ hy)), List.length_cons, Nat.succ_mul,
      Nat.add_comm]

theorem countP_zeroLine (q : Print → Bool) (p l : Nat)
    (h1 : q ⟨"%6.3f | ", some 0⟩ = false) (h2 : q ⟨"%6.3f ", some 0⟩ = false)
    (h3 : q ⟨"| ", none⟩ = false) :
    (zeroLine p l).countP q = if q ⟨"%6.3f\n", some 0⟩ then 1 else 0 := by
  unfold zeroLine
  rw [List.countP_append, List.countP_append,
    countP_flatMap_const q _ _ 0 (by
      intro x _
      rw [List.countP_append, List.countP_replicate, h2]
      simp [h3])]
  simp [h1, List.countP_cons]

theorem countP_dataLine (q : Print → Bool) (p l : Nat) (grid : Nat → Nat → ℚ)
    (rowBlock row : Nat)
    (h1 : q ⟨"%6.3f | ", some 0⟩ = false) (h2 : ∀ v, q ⟨"%6.3f ", some v⟩ = false)
    (h3 : q ⟨"| ", none⟩ = false) :
    (dataLine p l grid rowBlock row).countP q = if q ⟨"%6.3f\n", some 0⟩ then 1 else 0 := by
  unfold dataLine
  rw [List.countP_append, List.countP_append,
    countP_flatMap_const q _ _ 0 (by
      intro x _
      rw [List.countP_append]
      have : (rowValues l (grid (source p rowBlock x)) row).countP q = 0 := by
        rw [List.countP_eq_zero]
        intro a ha
        unfold rowValues at ha
        rw [List.mem_map] at ha
        obtain ⟨col, _, rfl⟩ := ha
        simp [h2]
      rw [this]
      simp [h3])]
  simp [h1, List.countP_cons]

theorem countP_dashes (q : Print → Bool) (p l : Nat) (h1 : q ⟨"-", none⟩ = false) :
    (dashes p l).countP q = if q ⟨"\n", none⟩ then 1 else 0 := by
  unfold dashes
  rw [List.countP_append, List.countP_replicate, h1]
  simp [List.countP_cons]

theorem countP_blocks {α : Type} (q : α → Bool) (p : Nat) (A : Nat → List α) (d : List α)
    (a : Nat) (hA : ∀ rb, (A rb).countP q = a) :
    ((List.range p).flatMap (fun rb => A rb ++ (if rb ≠ p - 1 then d else []))).countP q
      = p * a + (p - 1) * d.countP q := by
  cases p with
  | zero => simp
  | succ n =>
    rw [List.range_succ, List.flatMap_append,
      List.countP_append, countP_flatMap_const q _ _ (a + d.countP q) (by
        intro x hx
        rw [List.mem_range] at hx
        rw [if_pos (by omega), List.countP_append, hA])]
    simp only [List.flatMap_cons, List.flatMap_nil, List.append_nil, Nat.add_sub_cancel,
      ne_eq, not_true_eq_false, if_false, hA, List.length_range]
    ring

theorem countP_displayOutput (q : Print → Bool) (p l : Nat) (grid : Nat → Nat → ℚ)
    (h1 : q ⟨"%6.3f | ", some 0⟩ = false) (h2 : ∀ v, q ⟨"%6.3f ", some v⟩ = false)
    (h3 : q ⟨"| ", none⟩ = false) (h4 : q ⟨"-", none⟩ = false) (hp : 1 ≤ p) :
    (displayOutput p l grid).countP q
      = (p * l + 2) * (if q ⟨"%6.3f\n", some 0⟩ then 1 else 0)
        + (p + 1) * (if q ⟨"\n", none⟩ then 1 else 0) := by
  unfold displayOutput
  rw [boundaryLine_eq, divider_eq]
  simp only [List.countP_append]
  rw [countP_blocks q p _ _ (l * (if q ⟨"%6.3f\n", some 0⟩ then 1 else 0)) (by
      intro rb
      rw [countP_flatMap_const q _ _ _ (fun row _ =>
        countP_dataLine q p l grid rb row h1 h2 h3), List.length_range']),
    countP_zeroLine q p l h1 (h2 0) h3, countP_dashes q p l h4]
  obtain ⟨n, rfl⟩ : ∃ n, p = n + 1 := ⟨p - 1, by omega⟩
  simp only [Nat.add_sub_cancel]
  ring

theorem zeros_zeroLine (p l : Nat) :
    (zeroLine p l).filterMap Print.arg = List.replicate (p * l + 2) 0 := by
  have h : ∀ xs : List Nat, (xs.flatMap (fun _ =>
      List.replicate l (⟨"%6.3f ", some 0⟩ : Print) ++ [⟨"| ", none⟩])).filterMap Print.arg
      = List.replicate (xs.length * l) 0 := by
    intro xs
    induction xs with
    | nil => simp
    | cons x xs ih =>
      rw [List.flatMap_cons, List.filterMap_append, ih, List.length_cons, Nat.succ_mul,
        Nat.add_comm, List.replicate_add]
      congr 1
      rw [List.filterMap_append]
      simp [List.filterMap_replicate]
  unfold zeroLine
  rw [List.filterMap_append, List.filterMap_append, h, List.length_range]
  rw [show p * l + 2 = (p * l + 1) + 1 from rfl, List.replicate_succ', List.replicate_succ]
  rfl

/-- C13: for `p ≥ 1`, `L` a multiple of `p` with `L ≤ 32` and `l = L / p`, what rank 0
prints in `displayGrid` is, line by line, `layout p l grid`: a boundary line, a
divider, `p` blocks of `l` data lines with a divider between consecutive blocks, a
divider, a boundary line. A boundary line carries `L + 2` zeros; a data line is the
boundary value 0, then for `colBlock = 0 .. p-1` the `l` values of that row of rank
`p*rowBlock + colBlock` followed by a bar, then the boundary value 0. The output has
`L + 2` lines of values (ended by `"%6.3f\n"`) and `p + 1` dividers (ended by a bare
`"\n"`), and no rank other than 0 prints anything. -/
theorem C13_display_layout (L p : Nat) (grid fresh : Nat → Nat → ℚ)
    (hp : 1 ≤ p) (hdiv : L % p = 0) (hL : L ≤ 32) :
    (displayGrid L p (L / p) grid (Display.start fresh)).out 0
      = (layout p (L / p) grid).flatten ∧
    (∀ rank, rank ≠ 0 → (displayGrid L p (L / p) grid (Display.start fresh)).out rank = []) ∧
    ((displayGrid L p (L / p) grid (Display.start fresh)).out 0).countP
      (fun pr => pr.format == "%6.3f\n") = L + 2 ∧
    ((displayGrid L p (L / p) grid (Display.start fresh)).out 0).countP
      (fun pr => pr.format == "\n") = p + 1 ∧
    (zeroLine p (L / p)).filterMap Print.arg = List.replicate (L + 2) 0 ∧
    (∀ rowBlock row, dataLine p (L / p) grid rowBlock row
      = [⟨"%6.3f | ", some 0⟩]
        ++ (List.range p).flatMap (fun colBlock =>
            (List.range' 1 (L / p)).map (fun col => (⟨"%6.3f ",
              some (grid (p * rowBlock + colBlock) (_index (L / p) row col))⟩ : Print))
            ++ [⟨"| ", none⟩])
        ++ [⟨"%6.3f\n", some 0⟩]) := by
  have hpl : p * (L / p) = L := Nat.mul_div_cancel' (Nat.dvd_of_mod_eq_zero hdiv)
  have hs := displayGrid_shows L p (L / p) grid hL (Display.start fresh) (fun _ _ => rfl)
  have hout : (displayGrid L p (L / p) grid (Display.start fresh)).out 0
      = displayOutput p (L / p) grid := by
    rw [hs.out0]; rfl
  refine ⟨?_, ?_, ?_, ?_, ?_, ?_⟩
  · rw [hout, displayOutput_eq]
  · intro rank hr
    rw [hs.out rank hr]; rfl
  · rw [hout, countP_displayOutput _ p (L / p) grid (by decide) (fun _ => rfl)
      (by decide) (by decide) hp, hpl]
    simp
  · rw [hout, countP_displayOutput _ p (L / p) grid (by decide) (fun _ => rfl)
      (by decide) (by decide) hp, hpl]
    simp
  · rw [zeros_zeroLine, hpl]
  · intro rowBlock row
    rfl

/-! ## Reading the displayed grid back -/

theorem splitLines_line (body : List Print) (nl : Print) (rest : List Print)
    (hnl : endsLine nl = true) (hbody : ∀ x ∈ body, endsLine x = false) :
    splitLines (body ++ [nl] ++ rest) = (body ++ [nl]) :: splitLines rest := by
  induction body with
  | nil => simp [splitLines, hnl]
  | cons x body ih =>
    have hx : endsLine x = false := hbody x (List.mem_cons_self _ _)
    have h := ih (fun y hy => hbody y (List.mem_cons_of_mem _ hy))
    show splitLines (x :: (body ++ [nl] ++ rest)) = _
    rw [splitLines, if_neg (by rw [hx]; decide), h]
    rfl

theorem splitLines_flatten (lines : List (List Print))
    (h : ∀ line ∈ lines, ∃ body nl, line = body ++ [nl] ∧ endsLine nl = true ∧
      ∀ x ∈ body, endsLine x = false) :
    splitLines lines.flatten = lines := by
  induction lines with
  | nil => rfl
  | cons line lines ih =>
    obtain ⟨body, nl, rfl, hnl, hbody⟩ := h _ (List.mem_cons_self _ _)
    rw [List.flatten_cons, splitLines_line body nl _ hnl hbody,
      ih (fun y hy => h y (List.mem_cons_of_mem _ hy))]

theorem zeroLine_wf (p l : Nat) :
    ∃ body nl, zeroLine p l = body ++ [nl] ∧ endsLine nl = true ∧
      ∀ x ∈ body, endsLine x = false := by
  refine ⟨_, _, rfl, by decide, ?_⟩
  intro x hx
  simp only [List.mem_append, List.mem_singleton, List.mem_flatMap, List.mem_replicate] at hx
  rcases hx with rfl | ⟨_, _, ⟨_, rfl⟩ | rfl⟩ <;> decide

theorem dashes_wf (p l : Nat) :
    ∃ body nl, dashes p l = body ++ [nl] ∧ endsLine nl = true ∧
      ∀ x ∈ body, endsLine x = false := by
  refine ⟨_, _, rfl, by decide, ?_⟩
  intro x hx
  rw [List.mem_replicate] at hx
  rw [hx.2]
  decide

theorem dataLine_wf (p l : Nat) (grid : Nat → Nat → ℚ) (rowBlock row : Nat) :
    ∃ body nl, dataLine p l grid rowBlock row = body ++ [nl] ∧ endsLine nl = true ∧
      ∀ x ∈ body, endsLine x = false := by
  refine ⟨_, _, rfl, by decide, ?_⟩
  intro x hx
  simp only [List.mem_append, List.mem_singleton, List.mem_flatMap, rowValues,
    List.mem_map] at hx
  rcases hx with rfl | ⟨_, _, ⟨_, _, rfl⟩ | rfl⟩
  · decide
  · rfl
  · decide

theorem splitLines_layout (p l : Nat) (grid : Nat → Nat → ℚ) :
    splitLines (layout p l grid).flatten = layout p l grid := by
  apply splitLines_flatten
  intro line hline
  simp only [layout, List.mem_append, List.mem_cons, List.mem_singleton, List.mem_flatMap,
    List.mem_map, List.not_mem_nil, or_false] at hline
  rcases hline with ((rfl | rfl) | ⟨rb, _, h⟩) | rfl | rfl
  · exact zeroLine_wf p l
  · exact dashes_wf p l
  · rcases h with ⟨row, _, rfl⟩ | h
    · exact dataLine_wf p l grid rb row
    · split at h
      · rw [List.mem_singleton] at h
        rw [h]
        exact dashes_wf p l
      · exact absurd h (List.not_mem_nil _)
  · exact dashes_wf p l
  · exact zeroLine_wf p l

theorem filterMap_flatMap {α β γ : Type} (xs : List α) (f : α → List β) (g : β → Option γ) :
    (xs.flatMap f).filterMap g = xs.flatMap (fun x => (f x).filterMap g) := by
  induction xs with
  | nil => rfl
  | cons x xs ih => simp [List.flatMap_cons, ih]

theorem filterMap_some_fun {α β : Type} (xs : List α) (f : α → β) :
    xs.filterMap (fun x => some (f x)) = xs.map f := by
  induction xs with
  | nil => rfl
  | cons x xs ih => simp [ih]

theorem inner_zeroLine (p l : Nat) : ∃ z, inner (zeroLine p l) = some z := by
  unfold inner
  rw [zeros_zeroLine, List.replicate_succ]
  exact ⟨_, rfl⟩

theorem inner_dashes (p l : Nat) : inner (dashes p l) = none := by
  have h : (dashes p l).filterMap Print.arg = [] := by
    unfold dashes
    rw [List.filterMap_append, List.filterMap_replicate]
    rfl
  unfold inner
  rw [h]

theorem inner_dataLine (p l : Nat) (grid : Nat → Nat → ℚ) (rowBlock row : Nat) :
    inner (dataLine p l grid rowBlock row) = some (blockRow p l grid rowBlock row) := by
  have h : (dataLine p l grid rowBlock row).filterMap Print.arg
      = 0 :: (blockRow p l grid rowBlock row ++ [0]) := by
    unfold dataLine blockRow
    rw [List.filterMap_append, List.filterMap_append, filterMap_flatMap]
    simp only [List.filterMap_cons, List.filterMap_nil, List.singleton_append, List.cons_append]
    congr 2
    apply List.flatMap_congr
    intro cb _
    rw [List.filterMap_append, rowValues, List.filterMap_map]
    simp only [List.filterMap_cons, List.filterMap_nil, List.append_nil]
    exact filterMap_some_fun _ _
  unfold inner
  rw [h]
  simp

theorem filterMap_inner_layout (p l : Nat) (grid : Nat → Nat → ℚ) :
    ∃ z z', (layout p l grid).filterMap inner
      = [z] ++ (List.range p).flatMap (fun rowBlock =>
          (List.range' 1 l).map (fun row => blockRow p l grid rowBlock row)) ++ [z'] := by
  obtain ⟨z, hz⟩ := inner_zeroLine p l
  refine ⟨z, z, ?_⟩
  unfold layout
  rw [List.filterMap_append, List.filterMap_append, filterMap_flatMap]
  simp only [List.filterMap_cons, List.filterMap_nil, hz, inner_dashes]
  congr 2
  apply List.flatMap_congr
  intro rb _
  rw [List.filterMap_append, List.filterMap_map]
  have h1 : (inner ∘ fun row => dataLine p l grid rb row)
      = fun row => some (blockRow p l grid rb row) := by
    funext row
    exact inner_dataLine p l grid rb row
  rw [h1]
  have h2 : List.filterMap inner (if rb ≠ p - 1 then [dashes p l] else []) = [] := by
    split
    · simp [inner_dashes]
    · rfl
  rw [h2, List.append_nil, filterMap_some_fun]

theorem dataRows_layout (p l : Nat) (grid : Nat → Nat → ℚ) :
    dataRows (layout p l grid).flatten
      = (List.range p).flatMap (fun rowBlock =>
          (List.range' 1 l).map (fun row => blockRow p l grid rowBlock row)) := by
  obtain ⟨z, z', h⟩ := filterMap_inner_layout p l grid
  unfold dataRows
  rw [splitLines_layout, h]
  simp

theorem length_flatMap_map {α : Type} (p l : Nat) (F : Nat → Nat → α) :
    ((List.range p).flatMap (fun a => (List.range' 1 l).map (fun b => F a b))).length
      = p * l := by
  induction p with
  | zero => simp
  | succ n ih =>
    rw [List.range_succ, List.flatMap_append, List.length_append, ih]
    simp [Nat.succ_mul]

theorem getElem?_flatMap_map {α : Type} (p l : Nat) (F : Nat → Nat → α) (g : Nat)
    (hg : g < p * l) :
    ((List.range p).flatMap (fun a => (List.range' 1 l).map (fun b => F a b)))[g]?
      = some (F (g / l) (g % l + 1)) := by
  induction p with
  | zero => omega
  | succ n ih =>
    rw [List.range_succ, List.flatMap_append]
    by_cases h : g < n * l
    · rw [List.getElem?_append_left (by rw [length_flatMap_map]; exact h)]
      exact ih h
    · have hl : 0 < l := by
        rcases Nat.eq_zero_or_pos l with h0 | h0
        · subst h0; omega
        · exact h0
      have hdiv : g / l = n :=
        Nat.div_eq_of_lt_le (by omega) (by rw [Nat.succ_mul] at hg ⊢; omega)
      have hmod : g % l = g - n * l := by
        have := Nat.div_add_mod g l
        rw [hdiv, Nat.mul_comm] at this
        omega
      rw [List.getElem?_append_right (by rw [length_flatMap_map]; omega), length_flatMap_map,
        hdiv, hmod]
      simp only [List.flatMap_cons, List.flatMap_nil, List.append_nil]
      rw [List.getElem?_map, List.getElem?_range' _ _ (by rw [Nat.succ_mul] at hg; omega)]
      simp [Nat.add_comm]

theorem flatMap_range_ite {α : Type} (p k : Nat) (X : List α) :
    (List.range p).flatMap (fun i => if i = k then X else []) = if k < p then X else [] := by
  induction p with
  | zero => simp
  | succ n ih =>
    rw [List.range_succ, List.flatMap_append, ih]
    simp only [List.flatMap_cons, List.flatMap_nil, List.append_nil]
    by_cases h1 : k < n
    · rw [if_pos h1, if_neg (by omega), if_pos (by omega), List.append_nil]
    · rw [if_neg h1, List.nil_append]
      by_cases h2 : n = k
      · rw [if_pos h2, if_pos (by omega)]
      · rw [if_neg h2, if_neg (by omega)]

theorem flatMap_nil_fun {α β : Type} (xs : List α) :
    xs.flatMap (fun _ => ([] : List β)) = [] := by
  induction xs with
  | nil => rfl
  | cons x xs ih => simp [List.flatMap_cons]

/-- Process `rank ≠ 0` sends, in one call of `displayGrid`, its rows `1 .. l` in this
order, each as `l` floats starting at cell `(row, 1)`, to rank 0. -/
theorem displayCalls_sender (p l rank : Nat) (hr : rank ≠ 0) (hlt : rank < p * p) :
    displayCalls p l rank
      = (List.range' 1 l).map (fun row => DisplayCall.MPI_Send (_index l row 1) l 0) := by
  have hp : 0 < p := by
    rcases Nat.eq_zero_or_pos p with h | h
    · subst h; omega
    · exact h
  have hinner : ∀ rb row, (List.range p).flatMap (fun cb => blockCalls p l rb row cb rank)
      = if rb = rank / p then [DisplayCall.MPI_Send (_index l row 1) l 0] else [] := by
    intro rb row
    have hdm := Nat.div_add_mod rank p
    have hm := Nat.mod_lt rank hp
    by_cases hrb : rb = rank / p
    · rw [if_pos hrb]
      have h : (fun cb => blockCalls p l rb row cb rank)
          = fun cb => if cb = rank % p then [DisplayCall.MPI_Send (_index l row 1) l 0]
              else [] := by
        funext cb
        unfold blockCalls source
        rw [hrb]
        by_cases hc : cb = rank % p
        · rw [if_pos hc, if_pos ⟨hr, by omega⟩]
        · rw [if_neg hc, if_neg (by omega), if_neg (by omega)]
      rw [h, flatMap_range_ite, if_pos hm]
    · rw [if_neg hrb]
      have h : ∀ cb ∈ List.range p, blockCalls p l rb row cb rank = [] := by
        intro cb hcb
        rw [List.mem_range] at hcb
        unfold blockCalls source
        have hne : p * rb + cb ≠ rank := by
          intro he
          apply hrb
          rw [← he, Nat.add_comm, Nat.add_mul_div_left _ _ hp, Nat.div_eq_of_lt hcb,
            Nat.zero_add]
        rw [if_neg (by omega), if_neg (by omega)]
      rw [List.flatMap_congr h, flatMap_nil_fun]
  unfold displayCalls
  simp only [hinner]
  have hmid : ∀ rb, (List.range' 1 l).flatMap (fun row =>
      if rb = rank / p then [DisplayCall.MPI_Send (_index l row 1) l 0] else [])
      = if rb = rank / p then
          (List.range' 1 l).map (fun row => DisplayCall.MPI_Send (_index l row 1) l 0)
        else [] := by
    intro rb
    by_cases hrb : rb = rank / p
    · simp only [if_pos hrb]
      rw [← flatten_map]
      generalize List.range' 1 l = xs
      induction xs with
      | nil => rfl
      | cons x xs ih => simp [ih]
    · simp only [if_neg hrb]
      exact flatMap_nil_fun _
  simp only [hmid]
  rw [flatMap_range_ite, if_pos (Nat.div_lt_of_lt_mul hlt)]

/-- Rank 0 receives, in one call of `displayGrid`, one row of `l` floats for every
position of the display whose process is not rank 0 itself, in display order. -/
theorem displayCalls_zero (p l : Nat) :
    displayCalls p l 0 = (List.range p).flatMap (fun rowBlock =>
      (List.range' 1 l).flatMap (fun _ =>
        (List.range p).flatMap (fun colBlock =>
          if p * rowBlock + colBlock ≠ 0 then
            [DisplayCall.MPI_Recv l (p * rowBlock + colBlock)]
          else []))) := by
  unfold displayCalls blockCalls source
  simp

/-- C12 fails on the code for a grid too big to be shown: with `L = 64` on four
processes (`p = 2`, `l = 32`), `displayGrid` returns at once; rank 1 sends none of
its rows, rank 0 receives nothing and prints no data line, only the notice. -/
theorem C12_large_grid_is_not_sent :
    (displayGrid 64 2 (64 / 2) (fun rank => initialiseGrid (64 / 2) rank (fun _ => 0))
        (Display.start (fun _ _ => 0))).calls 1 = [] ∧
    (displayGrid 64 2 (64 / 2) (fun rank => initialiseGrid (64 / 2) rank (fun _ => 0))
        (Display.start (fun _ _ => 0))).calls 0 = [] ∧
    (displayGrid 64 2 (64 / 2) (fun rank => initialiseGrid (64 / 2) rank (fun _ => 0))
        (Display.start (fun _ _ => 0))).out 0
      = [⟨"Not displaying grid; too big.\n", none⟩] ∧
    dataRows ((displayGrid 64 2 (64 / 2) (fun rank => initialiseGrid (64 / 2) rank (fun _ => 0))
        (Display.start (fun _ _ => 0))).out 0) = [] := by
  refine ⟨rfl, rfl, rfl, ?_⟩
  decide

/-- C12 (amended): for `L` a multiple of `p` with `L ≤ 32` and `l = L / p`,
the output of rank 0 in `displayGrid` has `L` data lines, and the `h`-th value of
the `g`-th of them (`g, h < L`, boundary values not counted) is the cell
`(g % l + 1, h % l + 1)` of the grid of rank `p*(g / l) + h / l`. Every process of
rank other than 0 makes exactly the calls `MPI_Send( &grid[_index(row,1)], l, .., 0 )`
for `row = 1 .. l` in this order; rank 0 makes exactly one `MPI_Recv` of `l` floats
for every data line and every block of it owned by a rank other than 0, from that
rank, in display order; every receive finds its message and no message is left in
flight. -/
theorem C12_data_lines_in_global_order (L p : Nat) (grid fresh : Nat → Nat → ℚ)
    (hdiv : L % p = 0) (hL : L ≤ 32) :
    (dataRows ((displayGrid L p (L / p) grid (Display.start fresh)).out 0)).length = L ∧
    (∀ g h, g < L → h < L →
      ((dataRows ((displayGrid L p (L / p) grid (Display.start fresh)).out 0))[g]?).bind
          (fun values => values[h]?)
        = some (grid (p * (g / (L / p)) + h / (L / p))
            (_index (L / p) (g % (L / p) + 1) (h % (L / p) + 1)))) ∧
    (∀ rank, rank ≠ 0 → rank < p * p →
      (displayGrid L p (L / p) grid (Display.start fresh)).calls rank
        = (List.range' 1 (L / p)).map (fun row =>
            DisplayCall.MPI_Send (_index (L / p) row 1) (L / p) 0)) ∧
    (displayGrid L p (L / p) grid (Display.start fresh)).calls 0
      = (List.range p).flatMap (fun rowBlock =>
          (List.range' 1 (L / p)).flatMap (fun _ =>
            (List.range p).flatMap (fun colBlock =>
              if p * rowBlock + colBlock ≠ 0 then
                [DisplayCall.MPI_Recv (L / p) (p * rowBlock + colBlock)]
              else []))) ∧
    (∀ s d, (displayGrid L p (L / p) grid (Display.start fresh)).chan s d = []) ∧
    (displayGrid L p (L / p) grid (Display.start fresh)).starved 0 = false := by
  have hpl : p * (L / p) = L := Nat.mul_div_cancel' (Nat.dvd_of_mod_eq_zero hdiv)
  have hs := displayGrid_shows L p (L / p) grid hL (Display.start fresh) (fun _ _ => rfl)
  have hout : (displayGrid L p (L / p) grid (Display.start fresh)).out 0
      = (layout p (L / p) grid).flatten := by
    rw [hs.out0, ← displayOutput_eq]; rfl
  refine ⟨?_, ?_, ?_, ?_, hs.chan, ?_⟩
  · rw [hout, dataRows_layout, length_flatMap_map, hpl]
  · intro g h hg hh
    rw [hout, dataRows_layout, getElem?_flatMap_map p (L / p) _ g (by rw [hpl]; exact hg)]
    show (blockRow p (L / p) grid (g / (L / p)) (g % (L / p) + 1))[h]? = _
    unfold blockRow
    rw [getElem?_flatMap_map p (L / p) _ h (by rw [hpl]; exact hh)]
    rfl
  · intro rank hr hlt
    rw [hs.calls rank, displayCalls_sender p (L / p) rank hr hlt]
    rfl
  · rw [hs.calls 0, displayCalls_zero]
    rfl
  · rw [hs.starved]
    rfl

/-- C12 (amended) at `L = 4` on four processes (`p = 2`, `l = 2`), each grid as
`initialiseGrid` leaves it. -/
theorem C12_data_lines_in_global_order_witness :
    (dataRows ((displayGrid 4 2 (4 / 2) (fun rank => initialiseGrid 2 rank (fun _ => 0))
        (Display.start (fun _ _ => 0))).out 0)).length = 4 ∧
    (∀ g h, g < 4 → h < 4 →
      ((dataRows ((displayGrid 4 2 (4 / 2) (fun rank => initialiseGrid 2 rank (fun _ => 0))
          (Display.start (fun _ _ => 0))).out 0))[g]?).bind (fun values => values[h]?)
        = some (initialiseGrid 2 (2 * (g / (4 / 2)) + h / (4 / 2)) (fun _ => 0)
            (_index (4 / 2) (g % (4 / 2) + 1) (h % (4 / 2) + 1)))) ∧
    (∀ rank, rank ≠ 0 → rank < 2 * 2 →
      (displayGrid 4 2 (4 / 2) (fun rank => initialiseGrid 2 rank (fun _ => 0))
          (Display.start (fun _ _ => 0))).calls rank
        = (List.range' 1 (4 / 2)).map (fun row =>
            DisplayCall.MPI_Send (_index (4 / 2) row 1) (4 / 2) 0)) ∧
    (displayGrid 4 2 (4 / 2) (fun rank => initialiseGrid 2 rank (fun _ => 0))
        (Display.start (fun _ _ => 0))).calls 0
      = (List.range 2).flatMap (fun rowBlock =>
          (List.range' 1 (4 / 2)).flatMap (fun _ =>
            (List.range 2).flatMap (fun colBlock =>
              if 2 * rowBlock + colBlock ≠ 0 then
                [DisplayCall.MPI_Recv (4 / 2) (2 * rowBlock + colBlock)]
              else []))) ∧
    (∀ s d, (displayGrid 4 2 (4 / 2) (fun rank => initialiseGrid 2 rank (fun _ => 0))
        (Display.start (fun _ _ => 0))).chan s d = []) ∧
    (displayGrid 4 2 (4 / 2) (fun rank => initialiseGrid 2 rank (fun _ => 0))
        (Display.start (fun _ _ => 0))).starved 0 = false :=
  C12_data_lines_in_global_order 4 2 (fun rank => initialiseGrid 2 rank (fun _ => 0))
    (fun _ _ => 0) (by decide) (by decide)

/-- C13 at `L = 4` on four processes (`p = 2`, `l = 2`), each grid as
`initialiseGrid` leaves it. -/
theorem C13_display_layout_witness :
    (displayGrid 4 2 (4 / 2) (fun rank => initialiseGrid 2 rank (fun _ => 0))
        (Display.start (fun _ _ => 0))).out 0
      = (layout 2 (4 / 2) (fun rank => initialiseGrid 2 rank (fun _ => 0))).flatten ∧
    (∀ rank, rank ≠ 0 →
      (displayGrid 4 2 (4 / 2) (fun rank => initialiseGrid 2 rank (fun _ => 0))
        (Display.start (fun _ _ => 0))).out rank = []) ∧
    ((displayGrid 4 2 (4 / 2) (fun rank => initialiseGrid 2 rank (fun _ => 0))
        (Display.start (fun _ _ => 0))).out 0).countP
      (fun pr => pr.format == "%6.3f\n") = 4 + 2 ∧
    ((displayGrid 4 2 (4 / 2) (fun rank => initialiseGrid 2 rank (fun _ => 0))
        (Display.start (fun _ _ => 0))).out 0).countP
      (fun pr => pr.format == "\n") = 2 + 1 ∧
    (zeroLine 2 (4 / 2)).filterMap Print.arg = List.replicate (4 + 2) 0 ∧
    (∀ rowBlock row,
      dataLine 2 (4 / 2) (fun rank => initialiseGrid 2 rank (fun _ => 0)) rowBlock row
      = [⟨"%6.3f | ", some 0⟩]
        ++ (List.range 2).flatMap (fun colBlock =>
            (List.range' 1 (4 / 2)).map (fun col => (⟨"%6.3f ",
              some (initialiseGrid 2 (2 * rowBlock + colBlock) (fun _ => 0)
                (_index (4 / 2) row col))⟩ : Print))
            ++ [⟨"| ", none⟩])
        ++ [⟨"%6.3f\n", some 0⟩]) :=
  C13_display_layout 4 2 (fun rank => initialiseGrid 2 rank (fun _ => 0))
    (fun _ _ => 0) (by decide) (by decide) (by decide)


/-! ## Failed allocations -/

theorem firstFault_isSome (null : Buffer → Bool) (L l : Nat) (acts : List Action) :
    (firstFault null L l acts).isSome ↔
      ∃ a ∈ acts, ∃ x ∈ a.accesses L l, null x.buffer = true := by
  induction acts with
  | nil => simp [firstFault]
  | cons a rest ih =>
    unfold firstFault
    cases hf : (a.accesses L l).find? (fun x => null x.buffer) with
    | some x =>
      have hx := List.find?_some hf
      have hm := List.mem_of_find?_eq_some hf
      simp only [Option.isSome_some, List.mem_cons, true_iff]
      exact ⟨a, Or.inl rfl, x, hm, hx⟩
    | none =>
      rw [List.find?_eq_none] at hf
      simp only [Option.isSome_map', ih, List.mem_cons]
      constructor
      · rintro ⟨b, hb, x, hx, hn⟩
        exact ⟨b, Or.inr hb, x, hx, hn⟩
      · rintro ⟨b, hb | hb, x, hx, hn⟩
        · subst hb
          exact absurd hn (hf x hx)
        · exact ⟨b, hb, x, hx, hn⟩

theorem initialiseGridAccesses_eq (l : Nat) :
    initialiseGridAccesses l
      = (List.range' 0 (l + 2)).flatMap (fun i =>
          (List.range' 0 (l + 2)).flatMap (fun j => [Access.write .grid (_index l i j)]))
        ++ (List.range' 1 l).flatMap (fun i =>
          (List.range' 1 l).flatMap (fun j => [Access.write .grid (_index l i j)])) := by
  unfold initialiseGridAccesses
  have h : ∀ lo hi, (fun (i : Nat) (acc : List Access) =>
      forLoop lo hi (fun j acc => acc ++ [Access.write .grid (_index l i j)]) acc)
      = fun i acc => acc ++ (List.range' lo (hi - lo)).flatMap
          (fun j => [Access.write .grid (_index l i j)]) := by
    intro lo hi
    funext i acc
    exact forLoop_append lo hi _ acc
  simp only [h, forLoop_append, List.nil_append, Nat.sub_zero, Nat.add_sub_cancel]

theorem buffer_initialiseGrid {l : Nat} {x : Access} (hx : x ∈ initialiseGridAccesses l) :
    x.buffer = .grid := by
  rw [initialiseGridAccesses_eq] at hx
  simp only [List.mem_append, List.mem_flatMap, List.mem_singleton] at hx
  rcases hx with ⟨_, _, _, _, rfl⟩ | ⟨_, _, _, _, rfl⟩ <;> rfl

theorem buffer_stencil {l row col : Nat} {x : Access} (hx : x ∈ stencilAccesses l row col) :
    x.buffer = .grid := by
  simp only [stencilAccesses, List.mem_cons, List.mem_singleton, List.not_mem_nil,
    or_false] at hx
  rcases hx with rfl | rfl | rfl | rfl | rfl <;> rfl

theorem mem_sendAccesses {b : Buffer} {buf count : Nat} {x : Access}
    (hx : x ∈ sendAccesses b buf count) : x.buffer = b ∧ 0 < count := by
  simp only [sendAccesses, List.mem_map, List.mem_range] at hx
  obtain ⟨k, hk, rfl⟩ := hx
  exact ⟨rfl, by omega⟩

theorem mem_recvAccesses {b : Buffer} {buf count : Nat} {x : Access}
    (hx : x ∈ recvAccesses b buf count) : x.buffer = b ∧ 0 < count := by
  simp only [recvAccesses, List.mem_map, List.mem_range] at hx
  obtain ⟨k, hk, rfl⟩ := hx
  exact ⟨rfl, by omega⟩

theorem mem_packColumn {l col : Nat} {x : Access}
    (hx : x ∈ Stmt.accesses l (.packColumn col)) : 0 < l ∧ x.buffer ≠ .scratch := by
  simp only [Stmt.accesses] at hx
  rw [forLoop_append, Nat.add_sub_cancel] at hx
  simp only [List.nil_append, List.mem_flatMap, List.mem_range'_1, List.mem_cons,
    List.mem_singleton, List.not_mem_nil, or_false] at hx
  obtain ⟨row, hrow, rfl | rfl⟩ := hx
  · exact ⟨by omega, by simp [Access.buffer]⟩
  · exact ⟨by omega, by simp [Access.buffer]⟩

theorem mem_unpackColumn {l col : Nat} {x : Access}
    (hx : x ∈ Stmt.accesses l (.unpackColumn col)) : 0 < l ∧ x.buffer ≠ .scratch := by
  simp only [Stmt.accesses] at hx
  rw [forLoop_append, Nat.add_sub_cancel] at hx
  simp only [List.nil_append, List.mem_flatMap, List.mem_range'_1, List.mem_cons,
    List.mem_singleton, List.not_mem_nil, or_false] at hx
  obtain ⟨row, hrow, rfl | rfl⟩ := hx
  · exact ⟨by omega, by simp [Access.buffer]⟩
  · exact ⟨by omega, by simp [Access.buffer]⟩

theorem buffer_interior {l : Nat} {x : Access} (hx : x ∈ interiorAccesses l) :
    x.buffer = .grid := by
  obtain ⟨_, _, _, _, h⟩ := mem_interiorAccesses.mp hx
  exact buffer_stencil h

theorem buffer_edge {l : Nat} {x : Access} (hx : x ∈ edgeAccesses l) :
    x.buffer = .grid := by
  obtain ⟨_, _, _, _, _, h⟩ := mem_edgeAccesses.mp hx
  exact buffer_stencil h

/-- No statement of the iteration body touches `scratch`. -/
theorem stmt_not_scratch {l : Nat} {s : Stmt} {x : Access} (hx : x ∈ s.accesses l) :
    x.buffer ≠ .scratch := by
  cases s with
  | declareRequests => simp [Stmt.accesses] at hx
  | MPI_Isend buf count dest request =>
    rw [(mem_sendAccesses hx).1]; decide
  | MPI_Irecv buf count source request =>
    rw [(mem_recvAccesses hx).1]; decide
  | packColumn col => exact (mem_packColumn hx).2
  | MPI_Send count dest => rw [(mem_sendAccesses hx).1]; decide
  | MPI_Recv count source => rw [(mem_recvAccesses hx).1]; decide
  | unpackColumn col => exact (mem_unpackColumn hx).2
  | interiorUpdate => rw [buffer_interior hx]; decide
  | MPI_Wait request => simp [Stmt.accesses] at hx
  | edgeUpdate => rw [buffer_edge hx]; decide

/-- A statement of process `w` that touches `column` is one of the horizontal
exchange, so `w` has a left or a right neighbour, and `local_L` is positive. -/
theorem stmt_column {p l w : Nat} {s : Stmt} {x : Access} (hs : s ∈ program p l w)
    (hx : x ∈ s.accesses l) (hc : x.buffer = .column) :
    (0 < w % p ∨ w % p < p - 1) ∧ 0 < l := by
  rcases mem_program hs with rfl | ⟨_, rfl⟩ | ⟨_, rfl⟩ | ⟨_, rfl⟩ | ⟨_, rfl⟩ | ⟨h, rfl⟩ |
    ⟨h, rfl⟩ | ⟨h, rfl⟩ | ⟨h, rfl⟩ | ⟨h, rfl⟩ | ⟨h, rfl⟩ | ⟨h, rfl⟩ | ⟨h, rfl⟩ | rfl | rfl |
    rfl | rfl
  · simp [Stmt.accesses] at hx
  · rw [(mem_sendAccesses hx).1] at hc; exact absurd hc (by decide)
  · rw [(mem_recvAccesses hx).1] at hc; exact absurd hc (by decide)
  · rw [(mem_sendAccesses hx).1] at hc; exact absurd hc (by decide)
  · rw [(mem_recvAccesses hx).1] at hc; exact absurd hc (by decide)
  · exact ⟨Or.inl h, (mem_packColumn hx).1⟩
  · exact ⟨Or.inl h, (mem_sendAccesses hx).2⟩
  · exact ⟨Or.inr h, (mem_recvAccesses hx).2⟩
  · exact ⟨Or.inr h, (mem_unpackColumn hx).1⟩
  · exact ⟨Or.inr h, (mem_packColumn hx).1⟩
  · exact ⟨Or.inr h, (mem_sendAccesses hx).2⟩
  · exact ⟨Or.inl h, (mem_recvAccesses hx).2⟩
  · exact ⟨Or.inl h, (mem_unpackColumn hx).1⟩
  · rw [buffer_interior hx] at hc; exact absurd hc (by decide)
  · simp [Stmt.accesses] at hx
  · simp [Stmt.accesses] at hx
  · rw [buffer_edge hx] at hc; exact absurd hc (by decide)

theorem mem_blockAccesses {p l rank rowBlock row colBlock : Nat} {x : Access}
    (hx : x ∈ blockAccesses p l rank rowBlock row colBlock) :
    x.buffer = .grid ∨
      (x.buffer = .scratch ∧ rank = 0 ∧ source p rowBlock colBlock ≠ 0 ∧ 0 < l) := by
  unfold blockAccesses at hx
  simp only [List.mem_append] at hx
  rcases hx with hx | hx
  · split at hx
    · exact Or.inl (mem_sendAccesses hx).1
    · exact absurd hx (List.not_mem_nil _)
  · split at hx
    · rename_i h0
      split at hx
      · rw [forLoop_append] at hx
        simp only [List.nil_append, List.mem_flatMap, List.mem_singleton] at hx
        obtain ⟨_, _, rfl⟩ := hx
        exact Or.inl rfl
      · rename_i hs
        rw [forLoop_append, List.mem_append] at hx
        rcases hx with hx | hx
        · exact Or.inr ⟨(mem_recvAccesses hx).1, h0, hs, (mem_recvAccesses hx).2⟩
        · simp only [List.mem_flatMap, List.mem_singleton, List.mem_range'_1] at hx
          obtain ⟨col, hcol, rfl⟩ := hx
          exact Or.inr ⟨rfl, h0, hs, by omega⟩
    · exact absurd hx (List.not_mem_nil _)

theorem displayAccesses_eq (L p l rank : Nat) (hL : L ≤ 32) :
    displayAccesses L p l rank
      = (List.range' 0 p).flatMap (fun rowBlock =>
          (List.range' 1 l).flatMap (fun row =>
            (List.range' 0 p).flatMap (fun colBlock =>
              blockAccesses p l rank rowBlock row colBlock))) := by
  unfold displayAccesses
  rw [if_neg (by omega)]
  have h1 : ∀ rowBlock, (fun (row : Nat) (acc : List Access) =>
      forLoop 0 p (fun colBlock acc =>
        acc ++ blockAccesses p l rank rowBlock row colBlock) acc)
      = fun row acc => acc ++ (List.range' 0 p).flatMap (fun colBlock =>
          blockAccesses p l rank rowBlock row colBlock) := by
    intro rowBlock
    funext row acc
    rw [forLoop_append, Nat.sub_zero]
  have h2 : (fun (rowBlock : Nat) (acc : List Access) =>
      forLoop 1 (l + 1) (fun row acc =>
        forLoop 0 p (fun colBlock acc =>
          acc ++ blockAccesses p l rank rowBlock row colBlock) acc) acc)
      = fun rowBlock acc => acc ++ (List.range' 1 l).flatMap (fun row =>
          (List.range' 0 p).flatMap (fun colBlock =>
            blockAccesses p l rank rowBlock row colBlock)) := by
    funext rowBlock acc
    rw [h1, forLoop_append, Nat.add_sub_cancel]
  rw [h2, forLoop_append, Nat.sub_zero, List.nil_append]

/-- An access of `displayGrid` goes to `grid`, or to `scratch`; the latter only on
rank 0, when there are at least four processes, `local_L` is positive and the grid
is small enough to be shown. -/
theorem mem_displayAccesses {L p l rank : Nat} {x : Access}
    (hx : x ∈ displayAccesses L p l rank) :
    x.buffer = .grid ∨ (x.buffer = .scratch ∧ rank = 0 ∧ 2 ≤ p ∧ 0 < l ∧ L ≤ 32) := by
  by_cases hL : L ≤ 32
  · rw [displayAccesses_eq L p l rank hL] at hx
    simp only [List.mem_flatMap, List.mem_range'_1] at hx
    obtain ⟨rb, hrb, row, _, cb, hcb, hx⟩ := hx
    rcases mem_blockAccesses hx with h | ⟨h1, h2, h3, h4⟩
    · exact Or.inl h
    · refine Or.inr ⟨h1, h2, ?_, h4, hL⟩
      unfold source at h3
      by_contra hp
      have hp1 : p = 1 := by omega
      subst hp1
      have : rb = 0 := by omega
      have : cb = 0 := by omega
      subst rb cb
      exact h3 rfl
  · unfold displayAccesses at hx
    rw [if_pos (by omega)] at hx
    exact absurd hx (List.not_mem_nil _)

theorem scratch_mem_displayAccesses (L p l : Nat) (hp : 2 ≤ p) (hl : 0 < l) (hL : L ≤ 32) :
    Access.write .scratch 0 ∈ displayAccesses L p l 0 := by
  rw [displayAccesses_eq L p l 0 hL]
  simp only [List.mem_flatMap, List.mem_range'_1]
  refine ⟨0, ⟨Nat.le_refl 0, by omega⟩, 1, ⟨Nat.le_refl 1, by omega⟩, 1,
    ⟨Nat.zero_le 1, by omega⟩, ?_⟩
  unfold blockAccesses source
  simp only [ne_eq, not_true_eq_false, false_and, if_false, List.nil_append, if_true,
    Nat.mul_zero, Nat.zero_add, Nat.one_ne_zero]
  rw [forLoop_append, List.mem_append]
  left
  simp only [recvAccesses, List.mem_map, List.mem_range]
  exact ⟨0, hl, rfl⟩

theorem mem_compute {p l rank : Nat} {a : Action} (ha : a ∈ compute p l rank) :
    a = .initialiseGrid rank p ∨ a = .displayGrid rank p ∨
      (∃ iter s, s ∈ program p l rank ∧ a = .stmt iter s) ∨
      ∀ L, a.accesses L l = [] := by
  unfold compute at ha
  simp only [List.mem_append, List.mem_cons, List.mem_singleton, List.not_mem_nil, or_false,
    List.mem_flatMap, List.mem_map, List.mem_range] at ha
  rcases ha with ((((((((rfl | rfl) | h) | (rfl | rfl | rfl)) | ⟨iter, _, s, hs, rfl⟩) | rfl)
    | h) | rfl) | h) | (rfl | rfl | rfl)
  · exact Or.inr (Or.inr (Or.inr (fun _ => rfl)))
  · exact Or.inl rfl
  · split at h
    · rw [List.mem_singleton] at h; subst h
      exact Or.inr (Or.inr (Or.inr (fun _ => rfl)))
    · exact absurd h (List.not_mem_nil _)
  · exact Or.inr (Or.inl rfl)
  · exact Or.inr (Or.inr (Or.inr (fun _ => rfl)))
  · exact Or.inr (Or.inr (Or.inr (fun _ => rfl)))
  · exact Or.inr (Or.inr (Or.inl ⟨iter, s, hs, rfl⟩))
  · exact Or.inr (Or.inr (Or.inr (fun _ => rfl)))
  · split at h
    · rw [List.mem_singleton] at h; subst h
      exact Or.inr (Or.inr (Or.inr (fun _ => rfl)))
    · exact absurd h (List.not_mem_nil _)
  · exact Or.inr (Or.inl rfl)
  · split at h
    · rw [List.mem_singleton] at h; subst h
      exact Or.inr (Or.inr (Or.inr (fun _ => rfl)))
    · exact absurd h (List.not_mem_nil _)
  · exact Or.inr (Or.inr (Or.inr (fun _ => rfl)))
  · exact Or.inr (Or.inr (Or.inr (fun _ => rfl)))
  · exact Or.inr (Or.inr (Or.inr (fun _ => rfl)))

theorem displayGrid_mem_compute (p l rank : Nat) :
    Action.displayGrid rank p ∈ compute p l rank := by
  unfold compute
  simp

theorem firstFault_grid (L p l rank : Nat) :
    firstFault (fun b => decide (b = .grid)) L l (compute p l rank)
      = some ([.malloc ((l + 2) * (l + 2))], .write .grid (_index l 0 0)) := by
  have h : (initialiseGridAccesses l).find? (fun x => decide (x.buffer = .grid))
      = some (.write .grid (_index l 0 0)) := by
    rw [initialiseGridAccesses_eq, List.range'_succ, List.flatMap_cons, List.flatMap_cons]
    rfl
  unfold compute
  simp only [List.cons_append, List.nil_append, firstFault, Action.accesses, List.find?_nil, h,
    Option.map_some']

theorem packColumn_mem_program (p l rank : Nat) (h : 0 < rank % p) :
    Stmt.packColumn 1 ∈ program p l rank := by
  unfold program
  refine List.mem_map.mpr ⟨⟨fun rank => decide (rank % p > 0), fun _ => .packColumn 1⟩,
    List.mem_filter.mpr ⟨by simp [iterationBody], by simpa using h⟩, rfl⟩

theorem recvRight_mem_program (p l rank : Nat) (h : rank % p < p - 1) :
    Stmt.MPI_Recv l (rank + 1) ∈ program p l rank := by
  unfold program
  refine List.mem_map.mpr ⟨⟨fun rank => decide (rank % p < p - 1),
      fun rank => .MPI_Recv l (rank + 1)⟩,
    List.mem_filter.mpr ⟨by simp [iterationBody], by simpa using h⟩, rfl⟩

theorem column_fault_iff (L p l rank : Nat) :
    (firstFault (fun b => decide (b = .column)) L l (compute p l rank)).isSome ↔
      (0 < rank % p ∨ rank % p < p - 1) ∧ 0 < l := by
  rw [firstFault_isSome]
  constructor
  · rintro ⟨a, ha, x, hx, hn⟩
    have hc : x.buffer = .column := by simpa using hn
    rcases mem_compute ha with rfl | rfl | ⟨iter, s, hs, rfl⟩ | h
    · rw [buffer_initialiseGrid hx] at hc
      exact absurd hc (by decide)
    · rcases mem_displayAccesses hx with h | ⟨h, _⟩
      · rw [h] at hc; exact absurd hc (by decide)
      · rw [h] at hc; exact absurd hc (by decide)
    · exact stmt_column hs hx hc
    · rw [h L] at hx
      exact absurd hx (List.not_mem_nil _)
  · rintro ⟨hnb, hl⟩
    rcases hnb with h | h
    · refine ⟨.stmt 0 (.packColumn 1),
        stmt_mem_compute p l rank 0 _ (by decide) (packColumn_mem_program p l rank h),
        .write .column 0, ?_, by simp [Access.buffer]⟩
      show Access.write .column 0 ∈ Stmt.accesses l (.packColumn 1)
      simp only [Stmt.accesses]
      rw [forLoop_append, Nat.add_sub_cancel]
      simp only [List.nil_append, List.mem_flatMap, List.mem_range'_1]
      exact ⟨1, ⟨Nat.le_refl 1, by omega⟩, by simp⟩
    · refine ⟨.stmt 0 (.MPI_Recv l (rank + 1)),
        stmt_mem_compute p l rank 0 _ (by decide) (recvRight_mem_program p l rank h),
        .write .column 0, ?_, by simp [Access.buffer]⟩
      show Access.write .column 0 ∈ Stmt.accesses l (.MPI_Recv l (rank + 1))
      simp only [Stmt.accesses, recvAccesses, List.mem_map, List.mem_range]
      exact ⟨0, hl, rfl⟩

theorem scratch_fault_iff (L p l rank : Nat) :
    (firstFault (fun b => decide (b = .scratch)) L l (compute p l rank)).isSome ↔
      rank = 0 ∧ 2 ≤ p ∧ 0 < l ∧ L ≤ 32 := by
  rw [firstFault_isSome]
  constructor
  · rintro ⟨a, ha, x, hx, hn⟩
    have hc : x.buffer = .scratch := by simpa using hn
    rcases mem_compute ha with rfl | rfl | ⟨iter, s, hs, rfl⟩ | h
    · rw [buffer_initialiseGrid hx] at hc
      exact absurd hc (by decide)
    · rcases mem_displayAccesses hx with h | ⟨_, h⟩
      · rw [h] at hc; exact absurd hc (by decide)
      · exact h
    · exact absurd hc (stmt_not_scratch hx)
    · rw [h L] at hx
      exact absurd hx (List.not_mem_nil _)
  · rintro ⟨rfl, hp, hl, hL⟩
    exact ⟨.displayGrid 0 p, displayGrid_mem_compute p l 0, .write .scratch 0,
      scratch_mem_displayAccesses L p l hp hl hL, by simp [Access.buffer]⟩

theorem printf_mem_compute {p l rank : Nat} {fmt : String} {args : List Nat}
    (h : Action.printf fmt args ∈ compute p l rank) :
    rank = 0 ∧ (fmt = "Initial grid:\n" ∨ fmt = "\nFinal grid:\n"
      ∨ fmt = "\nTime taken: %g s.\n") := by
  unfold compute at h
  by_cases hr : rank = 0
  · refine ⟨hr, ?_⟩
    simp only [hr, if_true, List.mem_append, List.mem_cons, List.mem_singleton,
      List.not_mem_nil, or_false, List.mem_flatMap, List.mem_map, List.mem_range,
      Action.printf.injEq, reduceCtorEq, false_or, or_false, and_false, exists_false,
      exists_const] at h
    rcases h with ((h | h) | h) <;> simp [h.1]
  · simp [hr] at h

/-- C17 fails on the code: on four processes with `L = 8`, let the allocation of the
local grid of rank 1 return `NULL`. The worker completes `MPI_Init`,
`MPI_Comm_size`, `MPI_Comm_rank` and the `malloc`, reports nothing, does not
terminate, and goes on to `initialiseGrid`, whose first assignment writes
`grid[_index(0,0)]` through the null pointer. -/
theorem C17_null_grid_is_written :
    (main 8 4 1).map (fun r => firstFault (fun b => decide (b = .grid)) 8 (8 / 2) r.1)
      = some (some ([.MPI_Init, .MPI_Comm_size, .MPI_Comm_rank, .malloc 36],
          .write .grid 0)) := by
  decide

/-- C17 (amended): the program never tests a pointer returned by `malloc` and has no
report of a failed allocation: the only `printf` calls of a worker that passed the
configuration checks are the three of rank 0 that announce the grids and the time.
With a null `grid`, every worker goes on from `malloc` to `initialiseGrid`, whose
first access, the write of `grid[_index(0,0)]`, goes through the null pointer. With
a null `column`, a worker accesses it exactly if it has a left or a right neighbour
and `local_L` is positive, and otherwise runs to its end. With a null `scratch` in
`displayGrid`, a worker accesses it exactly if it is rank 0 of at least four
processes, `local_L` is positive and `L ≤ 32`, and otherwise runs to its end. -/
theorem C17_allocation_results_unchecked (L p l rank : Nat) :
    (∀ fmt args, Action.printf fmt args ∈ compute p l rank →
      rank = 0 ∧ (fmt = "Initial grid:\n" ∨ fmt = "\nFinal grid:\n"
        ∨ fmt = "\nTime taken: %g s.\n")) ∧
    firstFault (fun b => decide (b = .grid)) L l (compute p l rank)
      = some ([.malloc ((l + 2) * (l + 2))], .write .grid (_index l 0 0)) ∧
    ((firstFault (fun b => decide (b = .column)) L l (compute p l rank)).isSome ↔
      (0 < rank % p ∨ rank % p < p - 1) ∧ 0 < l) ∧
    ((firstFault (fun b => decide (b = .scratch)) L l (compute p l rank)).isSome ↔
      rank = 0 ∧ 2 ≤ p ∧ 0 < l ∧ L ≤ 32) :=
  ⟨fun _ _ h => printf_mem_compute h, firstFault_grid L p l rank, column_fault_iff L p l rank,
    scratch_fault_iff L p l rank⟩


/-! ## The blocking horizontal exchange with synchronous sends -/

theorem horizontal_eq (p l w : Nat) :
    horizontal p l w
      = (if 0 < w % p then [.packColumn 1, .MPI_Send l (w - 1)] else [])
        ++ (if w % p < p - 1 then
              [.MPI_Recv l (w + 1), .unpackColumn (l + 1), .packColumn l, .MPI_Send l (w + 1)]
            else [])
        ++ (if 0 < w % p then [.MPI_Recv l (w - 1), .unpackColumn 0] else []) := by
  by_cases h1 : 0 < w % p <;> by_cases h2 : w % p < p - 1 <;>
    simp [horizontal, iterationBody, h1, h2]

theorem horizontal_length (p l w : Nat) :
    (horizontal p l w).length = leftPhase p w + rightPhase p w + leftPhase p w := by
  rw [horizontal_eq]
  unfold leftPhase rightPhase
  by_cases h1 : 0 < w % p <;> by_cases h2 : w % p < p - 1 <;> simp [h1, h2]

/-- Which statement stands at which place of the horizontal exchange of process
`w`. -/
theorem horizontal_at (p l w k : Nat) (s : Stmt) :
    (horizontal p l w)[k]? = some s ↔
      (0 < w % p ∧ k = 0 ∧ s = .packColumn 1) ∨
      (0 < w % p ∧ k = 1 ∧ s = .MPI_Send l (w - 1)) ∨
      (w % p < p - 1 ∧ k = leftPhase p w ∧ s = .MPI_Recv l (w + 1)) ∨
      (w % p < p - 1 ∧ k = leftPhase p w + 1 ∧ s = .unpackColumn (l + 1)) ∨
      (w % p < p - 1 ∧ k = leftPhase p w + 2 ∧ s = .packColumn l) ∨
      (w % p < p - 1 ∧ k = leftPhase p w + 3 ∧ s = .MPI_Send l (w + 1)) ∨
      (0 < w % p ∧ k = leftPhase p w + rightPhase p w ∧ s = .MPI_Recv l (w - 1)) ∨
      (0 < w % p ∧ k = leftPhase p w + rightPhase p w + 1 ∧ s = .unpackColumn 0) := by
  rw [horizontal_eq]
  unfold leftPhase rightPhase
  by_cases h1 : 0 < w % p <;> by_cases h2 : w % p < p - 1
  · simp only [h1, h2, if_true, true_and]
    rcases k with _ | _ | _ | _ | _ | _ | _ | _ | k <;> simp [eq_comm]
  · simp only [h1, h2, if_true, if_false, true_and, false_and, false_or]
    rcases k with _ | _ | _ | _ | k <;> simp [eq_comm]
  · simp only [h1, h2, if_true, if_false, true_and, false_and, false_or, or_false]
    rcases k with _ | _ | _ | _ | k <;> simp [eq_comm]
  · simp [h1, h2]

theorem phase_cases (p w : Nat) :
    (0 < w % p ∧ leftPhase p w = 2 ∨ w % p = 0 ∧ leftPhase p w = 0) ∧
    (w % p < p - 1 ∧ rightPhase p w = 4 ∨ p - 1 ≤ w % p ∧ rightPhase p w = 0) := by
  unfold leftPhase rightPhase
  by_cases h1 : 0 < w % p <;> by_cases h2 : w % p < p - 1 <;> simp [h1, h2] <;> omega

theorem next_column (p w : Nat) (hw : w < p * p) (h : w % p < p - 1) :
    w + 1 < p * p ∧ (w + 1) % p = w % p + 1 :=
  ⟨(right_position hw h).1, (right_position hw h).2.2⟩

theorem matched_local (p : Nat) (done : Nat → Nat) (x : Nat) (hM : Matched p done)
    (hk : (0 < x % p ∧ done x = 0) ∨
      (x % p < p - 1 ∧ done x = leftPhase p x + 1) ∨
      (x % p < p - 1 ∧ done x = leftPhase p x + 2) ∨
      (0 < x % p ∧ done x = leftPhase p x + rightPhase p x + 1)) :
    Matched p (Function.update done x (done x + 1)) := by
  intro w hw
  have hMw := hM w hw
  have hcx := phase_cases p x
  have hn : w % p < p - 1 → (w + 1) % p = w % p + 1 := fun h => (next_column p w hw h).2
  simp only [Function.update_apply]
  split_ifs with h1 h2 h2
  · omega
  · subst h1
    omega
  · subst h2
    omega
  · exact hMw

theorem matched_transferLeft (p : Nat) (done : Nat → Nat) (x : Nat) (hM : Matched p done)
    (hx : x < p * p) (hr : x % p < p - 1) (h1 : done x = leftPhase p x)
    (h2 : done (x + 1) = 1) :
    Matched p (Function.update (Function.update done (x + 1) (done (x + 1) + 1)) x
      (done x + 1)) := by
  intro w hw
  have hMw := hM w hw
  have hnx := (next_column p x hx hr).2
  have e1 : rightPhase p x = 4 := by have := (phase_cases p x).2; omega
  have e2 : leftPhase p (x + 1) = 2 := by have := (phase_cases p (x + 1)).1; omega
  have e3 := (phase_cases p x).1
  have e4 := (phase_cases p (x + 1)).2
  have hn : w % p < p - 1 → (w + 1) % p = w % p + 1 := fun h => (next_column p w hw h).2
  simp only [Function.update_apply, Nat.add_right_cancel_iff]
  split_ifs with h3 h4 h5 h6 h7
  all_goals first | exact hMw | (subst_vars; omega)

theorem matched_transferRight (p : Nat) (done : Nat → Nat) (x : Nat) (hM : Matched p done)
    (hx : x < p * p) (hr : x % p < p - 1) (h1 : done x = leftPhase p x + 3)
    (h2 : done (x + 1) = leftPhase p (x + 1) + rightPhase p (x + 1)) :
    Matched p (Function.update (Function.update done x (done x + 1)) (x + 1)
      (done (x + 1) + 1)) := by
  intro w hw
  have hMw := hM w hw
  have hnx := (next_column p x hx hr).2
  have e1 : rightPhase p x = 4 := by have := (phase_cases p x).2; omega
  have e2 : leftPhase p (x + 1) = 2 := by have := (phase_cases p (x + 1)).1; omega
  have e3 := (phase_cases p x).1
  have e4 := (phase_cases p (x + 1)).2
  have hn : w % p < p - 1 → (w + 1) % p = w % p + 1 := fun h => (next_column p w hw h).2
  simp only [Function.update_apply, Nat.add_right_cancel_iff]
  split_ifs with h3 h4 h5 h6 h7
  all_goals first | exact hMw | (subst_vars; omega)

theorem matched_step (p l : Nat) (done done' : Nat → Nat) (hM : Matched p done)
    (h : SyncStep p l done done') : Matched p done' := by
  cases h with
  | pack w col hw hs =>
    rw [horizontal_at] at hs
    apply matched_local p done w hM
    rcases hs with ⟨h1, h2, _⟩ | ⟨_, _, h3⟩ | ⟨_, _, h3⟩ | ⟨_, _, h3⟩ | ⟨h1, h2, _⟩ |
      ⟨_, _, h3⟩ | ⟨_, _, h3⟩ | ⟨_, _, h3⟩
    · exact Or.inl ⟨h1, h2⟩
    · cases h3
    · cases h3
    · cases h3
    · exact Or.inr (Or.inr (Or.inl ⟨h1, h2⟩))
    · cases h3
    · cases h3
    · cases h3
  | unpack w col hw hs =>
    rw [horizontal_at] at hs
    apply matched_local p done w hM
    rcases hs with ⟨_, _, h3⟩ | ⟨_, _, h3⟩ | ⟨_, _, h3⟩ | ⟨h1, h2, _⟩ | ⟨_, _, h3⟩ |
      ⟨_, _, h3⟩ | ⟨_, _, h3⟩ | ⟨h1, h2, _⟩
    · cases h3
    · cases h3
    · cases h3
    · exact Or.inr (Or.inl ⟨h1, h2⟩)
    · cases h3
    · cases h3
    · cases h3
    · exact Or.inr (Or.inr (Or.inr ⟨h1, h2⟩))
  | transfer a b n m ha hb hs hr hle =>
    rw [horizontal_at] at hs hr
    have hma := Nat.mod_le a p
    have hmb := Nat.mod_le b p
    rcases hs with ⟨_, _, h3⟩ | ⟨s1, s2, s3⟩ | ⟨_, _, h3⟩ | ⟨_, _, h3⟩ | ⟨_, _, h3⟩ |
      ⟨s1, s2, s3⟩ | ⟨_, _, h3⟩ | ⟨_, _, h3⟩
    · cases h3
    · rcases hr with ⟨_, _, h3⟩ | ⟨_, _, h3⟩ | ⟨r1, r2, r3⟩ | ⟨_, _, h3⟩ | ⟨_, _, h3⟩ |
        ⟨_, _, h3⟩ | ⟨r1, r2, r3⟩ | ⟨_, _, h3⟩
      · cases h3
      · cases h3
      · injection r3 with _ r3
        subst r3
        exact matched_transferLeft p done b hM hb r1 r2 s2
      · cases h3
      · cases h3
      · cases h3
      · injection r3 with _ r3
        injection s3 with _ s3
        omega
      · cases h3
    · cases h3
    · cases h3
    · cases h3
    · rcases hr with ⟨_, _, h3⟩ | ⟨_, _, h3⟩ | ⟨r1, r2, r3⟩ | ⟨_, _, h3⟩ | ⟨_, _, h3⟩ |
        ⟨_, _, h3⟩ | ⟨r1, r2, r3⟩ | ⟨_, _, h3⟩
      · cases h3
      · cases h3
      · injection r3 with _ r3
        injection s3 with _ s3
        omega
      · cases h3
      · cases h3
      · cases h3
      · injection s3 with _ s3
        subst s3
        exact matched_transferRight p done a hM ha s1 s2 r2
      · cases h3
    · cases h3
    · cases h3

theorem matched_start (p : Nat) : Matched p (fun _ => 0) := by
  intro w _
  dsimp only
  refine ⟨Nat.zero_le _, fun _ => ?_⟩
  constructor <;> constructor <;> intro h <;> omega

theorem matched_reachable (p l : Nat) (done : Nat → Nat)
    (h : Relation.ReflTransGen (SyncStep p l) (fun _ => 0) done) : Matched p done := by
  induction h with
  | refl => exact matched_start p
  | tail _ hstep ih => exact matched_step p l _ _ ih hstep

/-- A process waiting in its receive from the right neighbour is not blocked for
good: the neighbour can pack its column or is ready to send. -/
theorem step_of_recvLeft (p l : Nat) (done : Nat → Nat) (hM : Matched p done) (x : Nat)
    (hx : x < p * p) (hr : x % p < p - 1) (h : done x = leftPhase p x) :
    ∃ done', SyncStep p l done done' := by
  obtain ⟨hx1, hn⟩ := next_column p x hx hr
  have hMx := (hM x hx).2 hr
  have h01 : done (x + 1) = 0 ∨ done (x + 1) = 1 := by omega
  rcases h01 with h0 | h1
  · exact ⟨_, SyncStep.pack done (x + 1) 1 hx1
      ((horizontal_at p l (x + 1) _ _).mpr (Or.inl ⟨by omega, h0, rfl⟩))⟩
  · refine ⟨_, SyncStep.transfer done (x + 1) x l l hx1 hx
      ((horizontal_at p l (x + 1) _ _).mpr (Or.inr (Or.inl ⟨by omega, h1, ?_⟩)))
      ((horizontal_at p l x _ _).mpr (Or.inr (Or.inr (Or.inl ⟨hr, h, rfl⟩))))
      (Nat.le_refl l)⟩
    rw [Nat.add_sub_cancel]

/-- A process waiting in its receive from the left neighbour is not blocked for
good: the neighbour can unpack or pack a column or is ready to send. -/
theorem step_of_recvRight (p l : Nat) (done : Nat → Nat) (hM : Matched p done) (x : Nat)
    (hx : x < p * p) (hr : x % p < p - 1)
    (h : done (x + 1) = leftPhase p (x + 1) + rightPhase p (x + 1)) :
    ∃ done', SyncStep p l done done' := by
  obtain ⟨hx1, hn⟩ := next_column p x hx hr
  have hMx := (hM x hx).2 hr
  have e2 : leftPhase p (x + 1) = 2 := by have := (phase_cases p (x + 1)).1; omega
  have h123 : done x = leftPhase p x + 1 ∨ done x = leftPhase p x + 2
      ∨ done x = leftPhase p x + 3 := by omega
  rcases h123 with h1 | h2 | h3
  · exact ⟨_, SyncStep.unpack done x (l + 1) hx
      ((horizontal_at p l x _ _).mpr (Or.inr (Or.inr (Or.inr (Or.inl ⟨hr, h1, rfl⟩)))))⟩
  · exact ⟨_, SyncStep.pack done x l hx
      ((horizontal_at p l x _ _).mpr
        (Or.inr (Or.inr (Or.inr (Or.inr (Or.inl ⟨hr, h2, rfl⟩))))))⟩
  · refine ⟨_, SyncStep.transfer done x (x + 1) l l hx hx1
      ((horizontal_at p l x _ _).mpr
        (Or.inr (Or.inr (Or.inr (Or.inr (Or.inr (Or.inl ⟨hr, h3, rfl⟩)))))))
      ((horizontal_at p l (x + 1) _ _).mpr
        (Or.inr (Or.inr (Or.inr (Or.inr (Or.inr (Or.inr (Or.inl ⟨by omega, h, ?_⟩))))))))
      (Nat.le_refl l)⟩
    rw [Nat.add_sub_cancel]

/-- A process waiting in its send to the left neighbour is not blocked for good:
some process further left can take a step. -/
theorem step_of_sendLeft (p l : Nat) (hp : 1 ≤ p) (done : Nat → Nat) (hM : Matched p done) :
    ∀ x, x < p * p → x % p < p - 1 → done (x + 1) = 1 →
      ∃ done', SyncStep p l done done' := by
  intro x
  induction x with
  | zero =>
    intro hx hr h
    have hMx := (hM 0 hx).2 hr
    have e : leftPhase p 0 = 0 := by have := (phase_cases p 0).1; simp at this; omega
    exact step_of_recvLeft p l done hM 0 hx hr (by omega)
  | succ y ih =>
    intro hx hr h
    have hMx := (hM (y + 1) hx).2 hr
    have hc := (phase_cases p (y + 1)).1
    have h012 : done (y + 1) = leftPhase p (y + 1) ∨
        (0 < (y + 1) % p ∧ (done (y + 1) = 0 ∨ done (y + 1) = 1)) := by omega
    rcases h012 with h2 | ⟨hpos, h0 | h1⟩
    · exact step_of_recvLeft p l done hM (y + 1) hx hr h2
    · exact ⟨_, SyncStep.pack done (y + 1) 1 hx
        ((horizontal_at p l (y + 1) _ _).mpr (Or.inl ⟨hpos, h0, rfl⟩))⟩
    · have hl := left_position hp hpos
      rw [Nat.add_sub_cancel] at hl
      exact ih (by omega) (by have := Nat.mod_lt (y + 1) hp; omega) h1

/-- A process waiting in its send to the right neighbour is not blocked for good:
some process further right can take a step. -/
theorem step_of_sendRight (p l : Nat) (done : Nat → Nat) (hM : Matched p done) :
    ∀ n x, p * p - x = n → x < p * p → x % p < p - 1 → done x = leftPhase p x + 3 →
      ∃ done', SyncStep p l done done' := by
  intro n
  induction n with
  | zero => intro x hn hx; omega
  | succ n ih =>
    intro x hn hx hr h
    obtain ⟨hx1, hnext⟩ := next_column p x hx hr
    have hMx := (hM x hx).2 hr
    have hM1 := hM (x + 1) hx1
    have e2 : leftPhase p (x + 1) = 2 := by have := (phase_cases p (x + 1)).1; omega
    have hc := (phase_cases p (x + 1)).2
    have hcase : done (x + 1) = leftPhase p (x + 1) + rightPhase p (x + 1) ∨
        ((x + 1) % p < p - 1 ∧
          (done (x + 1) = leftPhase p (x + 1) ∨ done (x + 1) = leftPhase p (x + 1) + 1 ∨
           done (x + 1) = leftPhase p (x + 1) + 2 ∨
           done (x + 1) = leftPhase p (x + 1) + 3)) := by omega
    rcases hcase with h6 | ⟨hr1, h2 | h3 | h4 | h5⟩
    · exact step_of_recvRight p l done hM x hx hr h6
    · exact step_of_recvLeft p l done hM (x + 1) hx1 hr1 h2
    · exact ⟨_, SyncStep.unpack done (x + 1) (l + 1) hx1
        ((horizontal_at p l (x + 1) _ _).mpr
          (Or.inr (Or.inr (Or.inr (Or.inl ⟨hr1, h3, rfl⟩)))))⟩
    · exact ⟨_, SyncStep.pack done (x + 1) l hx1
        ((horizontal_at p l (x + 1) _ _).mpr
          (Or.inr (Or.inr (Or.inr (Or.inr (Or.inl ⟨hr1, h4, rfl⟩))))))⟩
    · exact ih (x + 1) (by omega) hx1 hr1 h5

/-- In a matched state in which some process has statements left, some process can
take a step. -/
theorem progress (p l : Nat) (hp : 1 ≤ p) (done : Nat → Nat) (hM : Matched p done)
    (w : Nat) (hw : w < p * p) (hne : done w ≠ (horizontal p l w).length) :
    ∃ done', SyncStep p l done done' := by
  rw [horizontal_length] at hne
  have hb := (hM w hw).1
  have hc := phase_cases p w
  have hcase : (0 < w % p ∧ (done w = 0 ∨ done w = 1 ∨
        done w = leftPhase p w + rightPhase p w ∨
        done w = leftPhase p w + rightPhase p w + 1)) ∨
      (w % p < p - 1 ∧ (done w = leftPhase p w ∨ done w = leftPhase p w + 1 ∨
        done w = leftPhase p w + 2 ∨ done w = leftPhase p w + 3)) := by omega
  rcases hcase with ⟨hpos, h0 | h1 | h2 | h3⟩ | ⟨hr, h0 | h1 | h2 | h3⟩
  · exact ⟨_, SyncStep.pack done w 1 hw
      ((horizontal_at p l w _ _).mpr (Or.inl ⟨hpos, h0, rfl⟩))⟩
  · have hl := left_position hp hpos
    have hm := Nat.mod_lt w hp
    have e : w - 1 + 1 = w := by omega
    exact step_of_sendLeft p l hp done hM (w - 1) (by omega) (by omega) (by rw [e]; exact h1)
  · have hl := left_position hp hpos
    have hm := Nat.mod_lt w hp
    have e : w - 1 + 1 = w := by omega
    exact step_of_recvRight p l done hM (w - 1) (by omega) (by omega) (by rw [e]; exact h2)
  · exact ⟨_, SyncStep.unpack done w 0 hw
      ((horizontal_at p l w _ _).mpr
        (Or.inr (Or.inr (Or.inr (Or.inr (Or.inr (Or.inr (Or.inr ⟨hpos, h3, rfl⟩))))))))⟩
  · exact step_of_recvLeft p l done hM w hw hr h0
  · exact ⟨_, SyncStep.unpack done w (l + 1) hw
      ((horizontal_at p l w _ _).mpr (Or.inr (Or.inr (Or.inr (Or.inl ⟨hr, h1, rfl⟩)))))⟩
  · exact ⟨_, SyncStep.pack done w l hw
      ((horizontal_at p l w _ _).mpr
        (Or.inr (Or.inr (Or.inr (Or.inr (Or.inl ⟨hr, h2, rfl⟩))))))⟩
  · exact step_of_sendRight p l done hM _ w rfl hw hr h3

theorem completed_step (p l : Nat) (done done' : Nat → Nat) (h : SyncStep p l done done') :
    completed p done < completed p done' := by
  unfold completed
  cases h with
  | pack w col hw hs =>
    refine Finset.sum_lt_sum (fun i _ => ?_) ⟨w, Finset.mem_range.mpr hw, by simp⟩
    rw [Function.update_apply]
    split_ifs <;> subst_vars <;> omega
  | unpack w col hw hs =>
    refine Finset.sum_lt_sum (fun i _ => ?_) ⟨w, Finset.mem_range.mpr hw, by simp⟩
    rw [Function.update_apply]
    split_ifs <;> subst_vars <;> omega
  | transfer a b n m ha hb hs hr hle =>
    refine Finset.sum_lt_sum (fun i _ => ?_) ⟨b, Finset.mem_range.mpr hb, by simp⟩
    simp only [Function.update_apply]
    split_ifs <;> subst_vars <;> omega

theorem completed_le (p : Nat) (done : Nat → Nat) (hM : Matched p done) :
    completed p done ≤ 8 * (p * p) := by
  unfold completed
  have h : (Finset.range (p * p)).sum done ≤ (Finset.range (p * p)).sum (fun _ => 8) := by
    apply Finset.sum_le_sum
    intro w hw
    have hb := (hM w (Finset.mem_range.mp hw)).1
    have hc := phase_cases p w
    omega
  rw [Finset.sum_const, Finset.card_range, smul_eq_mul] at h
  omega

/-- C20: the blocking horizontal exchange (lines 118-139) of all `p*p` processes,
with every `MPI_Send` synchronous, cannot deadlock. In every state reachable from
the start, sends and receives completed between neighbours agree (`Matched`), and
either every process has completed all its statements of the exchange or some
process can take a step; and no execution goes on for ever (each step completes a
statement, and there are at most `8*p*p` of them). So every execution reaches the
state in which all processes have left the exchange, and every send in it was
completed together with the receive of the neighbour it was addressed to. -/
theorem C20_horizontal_exchange_cannot_deadlock (p l : Nat) :
    (∀ done, Relation.ReflTransGen (SyncStep p l) (fun _ => 0) done →
      Matched p done ∧
      ((∀ w, w < p * p → done w = (horizontal p l w).length) ∨
        ∃ done', SyncStep p l done done')) ∧
    (∀ run : Nat → Nat → Nat, run 0 = (fun _ => 0) →
      ¬ ∀ n, SyncStep p l (run n) (run (n + 1))) := by
  constructor
  · intro done hreach
    have hM := matched_reachable p l done hreach
    refine ⟨hM, ?_⟩
    by_cases hfin : ∀ w, w < p * p → done w = (horizontal p l w).length
    · exact Or.inl hfin
    · right
      push_neg at hfin
      obtain ⟨w, hw, hne⟩ := hfin
      have hp : 1 ≤ p := by
        rcases Nat.eq_zero_or_pos p with h | h
        · subst h; omega
        · exact h
      exact progress p l hp done hM w hw hne
  · intro run h0 hsteps
    have hM : ∀ n, Matched p (run n) := by
      intro n
      induction n with
      | zero => rw [h0]; exact matched_start p
      | succ n ih => exact matched_step p l _ _ ih (hsteps n)
    have hgrow : ∀ n, n ≤ completed p (run n) := by
      intro n
      induction n with
      | zero => exact Nat.zero_le _
      | succ n ih =>
        have := completed_step p l _ _ (hsteps n)
        omega
    have h1 := hgrow (8 * (p * p) + 1)
    have h2 := completed_le p _ (hM (8 * (p * p) + 1))
    omega


/-! ## Every owned cell is assigned once in an iteration -/

theorem count_flatMap_range' {α : Type} [DecidableEq α] (a : α) (f : Nat → List α) (k : Nat) :
    ∀ (n lo : Nat), (∀ x, lo ≤ x → x < lo + n → x ≠ k → a ∉ f x) →
      ((List.range' lo n).flatMap f).count a
        = if lo ≤ k ∧ k < lo + n then (f k).count a else 0 := by
  intro n
  induction n with
  | zero =>
    intro lo _
    rw [if_neg (by omega)]
    rfl
  | succ n ih =>
    intro lo h
    rw [List.range'_succ, List.flatMap_cons, List.count_append,
      ih (lo + 1) (fun x h1 h2 h3 => h x (by omega) (by omega) h3)]
    by_cases hk : lo = k
    · subst hk
      rw [if_neg (by omega), if_pos (by omega), Nat.add_zero]
    · rw [List.count_eq_zero_of_not_mem (h lo (Nat.le_refl lo) (by omega) hk), Nat.zero_add]
      by_cases h2 : lo + 1 ≤ k ∧ k < lo + 1 + n
      · rw [if_pos h2, if_pos (by omega)]
      · rw [if_neg h2, if_neg (by omega)]

theorem count_write_stencil (l row col : Nat) :
    (stencilAccesses l row col).count (.write .grid (_index l row col)) = 1 := by
  simp [stencilAccesses, List.count_cons]

theorem count_write_interior (l i j : Nat) (hj : j ≤ l + 1) :
    (interiorAccesses l).count (.write .grid (_index l i j))
      = if (2 ≤ i ∧ i < l) ∧ (2 ≤ j ∧ j < l) then 1 else 0 := by
  rw [interiorAccesses_eq]
  rw [count_flatMap_range' _ _ i (l - 2) 2 (by
    intro row h1 h2 hne hmem
    simp only [List.mem_flatMap, List.mem_range'_1] at hmem
    obtain ⟨col, hcol, hx⟩ := hmem
    exact hne (_index_inj (by omega) (by omega) (write_mem_stencil.mp hx)).1.symm)]
  rw [count_flatMap_range' _ _ j (l - 2) 2 (by
    intro col h1 h2 hne hmem
    exact hne (_index_inj (by omega) (by omega) (write_mem_stencil.mp hmem)).2.symm),
    count_write_stencil]
  by_cases hi : 2 ≤ i ∧ i < l <;> by_cases hj' : 2 ≤ j ∧ j < l
  · rw [if_pos (by omega), if_pos (by omega), if_pos ⟨hi, hj'⟩]
  · rw [if_pos (by omega), if_neg (by omega), if_neg (by tauto)]
  · rw [if_neg (by omega), if_neg (by tauto)]
  · rw [if_neg (by omega), if_neg (by tauto)]

theorem count_write_edge (l i j : Nat) (hj : j ≤ l + 1) :
    (edgeAccesses l).count (.write .grid (_index l i j))
      = if (1 ≤ i ∧ i ≤ l) ∧ (1 ≤ j ∧ j ≤ l) ∧ (i = 1 ∨ i = l ∨ j = 1 ∨ j = l) then 1
        else 0 := by
  rw [edgeAccesses_eq]
  rw [count_flatMap_range' _ _ i l 1 (by
    intro row h1 h2 hne hmem
    simp only [List.mem_flatMap, List.mem_range'_1] at hmem
    obtain ⟨col, hcol, hx⟩ := hmem
    split at hx
    · exact hne (_index_inj (by omega) (by omega) (write_mem_stencil.mp hx)).1.symm
    · exact absurd hx (List.not_mem_nil _))]
  rw [count_flatMap_range' _ _ j l 1 (by
    intro col h1 h2 hne hmem
    split at hmem
    · exact hne (_index_inj (by omega) (by omega) (write_mem_stencil.mp hmem)).2.symm
    · exact absurd hmem (List.not_mem_nil _))]
  by_cases hi : 1 ≤ i ∧ i ≤ l <;> by_cases hj' : 1 ≤ j ∧ j ≤ l <;>
    by_cases hrim : i = 1 ∨ i = l ∨ j = 1 ∨ j = l
  · rw [if_pos (by omega), if_pos (by omega), if_pos hrim, count_write_stencil,
      if_pos ⟨hi, hj', hrim⟩]
  · rw [if_pos (by omega), if_pos (by omega), if_neg hrim, if_neg (by tauto)]
    rfl
  · rw [if_pos (by omega), if_neg (by omega), if_neg (by tauto)]
  · rw [if_pos (by omega), if_neg (by omega), if_neg (by tauto)]
  · rw [if_neg (by omega), if_neg (by tauto)]
  · rw [if_neg (by omega), if_neg (by tauto)]
  · rw [if_neg (by omega), if_neg (by tauto)]
  · rw [if_neg (by omega), if_neg (by tauto)]

theorem program_split (p l rank : Nat) :
    program p l rank
      = (((iterationBody p l).take 13).filter (fun ln => ln.guard rank)).map
          (fun ln => ln.stmt rank)
        ++ [.interiorUpdate, .MPI_Wait .Urequest, .MPI_Wait .Lrequest, .edgeUpdate] := by
  unfold program
  conv_lhs => rw [← List.take_append_drop 13 (iterationBody p l)]
  rw [List.filter_append, List.map_append]
  rfl

/-- The statements of an iteration that come before the interior update write to
`grid` only in the halo. -/
theorem exchange_writes_halo {p l rank : Nat} {s : Stmt} {y : Nat}
    (hs : s ∈ (((iterationBody p l).take 13).filter (fun ln => ln.guard rank)).map
      (fun ln => ln.stmt rank))
    (hy : Access.write .grid y ∈ s.accesses l) :
    ∃ r c, y = _index l r c ∧ c ≤ l + 1 ∧ (r = 0 ∨ r = l + 1 ∨ c = 0 ∨ c = l + 1) := by
  simp only [iterationBody, List.take, List.mem_map, List.mem_filter, List.mem_cons,
    List.not_mem_nil, or_false] at hs
  obtain ⟨ln, ⟨hl, -⟩, rfl⟩ := hs
  rcases hl with h | h | h | h | h | h | h | h | h | h | h | h | h <;> subst h
  · simp [Stmt.accesses] at hy
  · simp [Stmt.accesses, sendAccesses] at hy
  · simp only [Stmt.accesses, recvAccesses, List.mem_map, List.mem_range, Access.write.injEq,
      true_and] at hy
    obtain ⟨k, hk, rfl⟩ := hy
    exact ⟨l + 1, 1 + k, by unfold _index; ring, by omega, Or.inr (Or.inl rfl)⟩
  · simp [Stmt.accesses, sendAccesses] at hy
  · simp only [Stmt.accesses, recvAccesses, List.mem_map, List.mem_range, Access.write.injEq,
      true_and] at hy
    obtain ⟨k, hk, rfl⟩ := hy
    exact ⟨0, 1 + k, by unfold _index; ring, by omega, Or.inl rfl⟩
  · simp only [Stmt.accesses] at hy
    rw [forLoop_append] at hy
    simp at hy
  · simp [Stmt.accesses, sendAccesses] at hy
  · simp [Stmt.accesses, recvAccesses] at hy
  · simp only [Stmt.accesses] at hy
    rw [forLoop_append] at hy
    simp only [List.nil_append, List.mem_flatMap, List.mem_cons, List.mem_singleton,
      List.not_mem_nil, or_false, reduceCtorEq, false_or, Access.write.injEq, true_and] at hy
    obtain ⟨row, -, rfl⟩ := hy
    exact ⟨row, l + 1, rfl, Nat.le_refl _, Or.inr (Or.inr (Or.inr rfl))⟩
  · simp only [Stmt.accesses] at hy
    rw [forLoop_append] at hy
    simp at hy
  · simp [Stmt.accesses, sendAccesses] at hy
  · simp [Stmt.accesses, recvAccesses] at hy
  · simp only [Stmt.accesses] at hy
    rw [forLoop_append] at hy
    simp only [List.nil_append, List.mem_flatMap, List.mem_cons, List.mem_singleton,
      List.not_mem_nil, or_false, reduceCtorEq, false_or, Access.write.injEq, true_and] at hy
    obtain ⟨row, -, rfl⟩ := hy
    exact ⟨row, 0, rfl, Nat.zero_le _, Or.inr (Or.inr (Or.inl rfl))⟩

/-- C24: in one iteration of any process, every owned cell `(row, col)`,
`1 ≤ row, col ≤ local_L`, is assigned exactly once. The statements of the iteration
are the exchange statements, none of which writes an owned cell, followed by the
interior update, the two waits and the edge update. The interior update assigns the
cell (once) exactly if `2 ≤ row, col ≤ local_L - 1`, the edge update assigns it
(once) exactly if `row` or `col` is 1 or `local_L`; exactly one of the two is the
case. -/
theorem C24_owned_cell_assigned_once (p l rank row col : Nat)
    (hr1 : 1 ≤ row) (hr2 : row ≤ l) (hc1 : 1 ≤ col) (hc2 : col ≤ l) :
    (iterationAccesses p l rank).count (.write .grid (_index l row col)) = 1 ∧
    (∃ pre, program p l rank
        = pre ++ [.interiorUpdate, .MPI_Wait .Urequest, .MPI_Wait .Lrequest, .edgeUpdate] ∧
      ∀ s ∈ pre, Access.write .grid (_index l row col) ∉ s.accesses l) ∧
    ((interiorAccesses l).count (.write .grid (_index l row col))
      = if 2 ≤ row ∧ row + 1 ≤ l ∧ 2 ≤ col ∧ col + 1 ≤ l then 1 else 0) ∧
    ((edgeAccesses l).count (.write .grid (_index l row col))
      = if row = 1 ∨ row = l ∨ col = 1 ∨ col = l then 1 else 0) ∧
    ((2 ≤ row ∧ row + 1 ≤ l ∧ 2 ≤ col ∧ col + 1 ≤ l) ↔
      ¬ (row = 1 ∨ row = l ∨ col = 1 ∨ col = l)) := by
  have hpre : ∀ s ∈ (((iterationBody p l).take 13).filter (fun ln => ln.guard rank)).map
      (fun ln => ln.stmt rank), Access.write .grid (_index l row col) ∉ s.accesses l := by
    intro s hs hmem
    obtain ⟨r, c, he, hc, hhalo⟩ := exchange_writes_halo hs hmem
    obtain ⟨e1, e2⟩ := _index_inj (by omega) (by omega) he
    omega
  have hint : (interiorAccesses l).count (.write .grid (_index l row col))
      = if 2 ≤ row ∧ row + 1 ≤ l ∧ 2 ≤ col ∧ col + 1 ≤ l then 1 else 0 := by
    rw [count_write_interior l row col (by omega)]
    by_cases h : 2 ≤ row ∧ row + 1 ≤ l ∧ 2 ≤ col ∧ col + 1 ≤ l
    · rw [if_pos h, if_pos (by omega)]
    · rw [if_neg h, if_neg (by omega)]
  have hedge : (edgeAccesses l).count (.write .grid (_index l row col))
      = if row = 1 ∨ row = l ∨ col = 1 ∨ col = l then 1 else 0 := by
    rw [count_write_edge l row col (by omega)]
    by_cases h : row = 1 ∨ row = l ∨ col = 1 ∨ col = l
    · rw [if_pos h, if_pos ⟨⟨hr1, hr2⟩, ⟨hc1, hc2⟩, h⟩]
    · rw [if_neg h, if_neg (by tauto)]
  have hiff : (2 ≤ row ∧ row + 1 ≤ l ∧ 2 ≤ col ∧ col + 1 ≤ l) ↔
      ¬ (row = 1 ∨ row = l ∨ col = 1 ∨ col = l) := by omega
  refine ⟨?_, ⟨_, program_split p l rank, hpre⟩, hint, hedge, hiff⟩
  unfold iterationAccesses
  rw [program_split, List.flatMap_append, List.count_append,
    List.count_eq_zero_of_not_mem (by
      intro hmem
      rw [List.mem_flatMap] at hmem
      obtain ⟨s, hs, hx⟩ := hmem
      exact hpre s hs hx)]
  simp only [List.flatMap_cons, List.flatMap_nil, Stmt.accesses, List.nil_append,
    List.append_nil, List.count_append, hint, hedge, Nat.zero_add]
  by_cases h : row = 1 ∨ row = l ∨ col = 1 ∨ col = l
  · rw [if_neg (by omega), if_pos h]
  · rw [if_pos (by omega), if_neg h]

/-- C24 at `local_L = 4` on four processes, rank 3, the cell `(2, 3)`. -/
theorem C24_owned_cell_assigned_once_witness :
    (iterationAccesses 2 4 3).count (.write .grid (_index 4 2 3)) = 1 ∧
    (∃ pre, program 2 4 3
        = pre ++ [.interiorUpdate, .MPI_Wait .Urequest, .MPI_Wait .Lrequest, .edgeUpdate] ∧
      ∀ s ∈ pre, Access.write .grid (_index 4 2 3) ∉ s.accesses 4) ∧
    ((interiorAccesses 4).count (.write .grid (_index 4 2 3))
      = if 2 ≤ 2 ∧ 2 + 1 ≤ 4 ∧ 2 ≤ 3 ∧ 3 + 1 ≤ 4 then 1 else 0) ∧
    ((edgeAccesses 4).count (.write .grid (_index 4 2 3))
      = if 2 = 1 ∨ 2 = 4 ∨ 3 = 1 ∨ 3 = 4 then 1 else 0) ∧
    ((2 ≤ 2 ∧ 2 + 1 ≤ 4 ∧ 2 ≤ 3 ∧ 3 + 1 ≤ 4) ↔
      ¬ (2 = 1 ∨ 2 = 4 ∨ 3 = 1 ∨ 3 = 4)) :=
  C24_owned_cell_assigned_once 2 4 3 2 3 (by decide) (by decide) (by decide) (by decide)


/-! ## Waits on handles that hold no request -/

/-- The number of `MPI_Wait` calls of one iteration made on a handle that no
non-blocking call of the iteration has assigned: both waits for a process that has
neither an upper nor a lower neighbour, none otherwise. -/
theorem invalidWaits_before_edge (p l rank : Nat) :
    (requestsBeforeEdge p l rank Requests.initial).invalidWaits
      = if 0 < rank / p ∨ rank / p < p - 1 then 0 else 2 := by
  by_cases h1 : 0 < rank / p <;> by_cases h2 : rank / p < p - 1 <;>
    by_cases h3 : 0 < rank % p <;> by_cases h4 : rank % p < p - 1 <;>
    simp [requestsBeforeEdge, program, iterationBody, h1, h2, h3, h4, trackRequests,
      Requests.initial, Requests.get, Requests.set, List.takeWhile]

/-- C25 fails on the code for a single process: with `P = 1` (`p = 1`, rank 0, any
`local_L`) no `MPI_Isend` or `MPI_Irecv` is executed, so `Urequest` and `Lrequest`
are still uninitialised when lines 156 and 157 pass them to `MPI_Wait`: both waits
of every iteration are made on a handle that was never assigned. With `p ≥ 2` every
process has an upper or a lower neighbour and both its handles are assigned before
the waits. -/
theorem C25_single_process_waits_uninitialised (l : Nat) :
    program 1 l 0
      = [.declareRequests, .interiorUpdate, .MPI_Wait .Urequest, .MPI_Wait .Lrequest,
         .edgeUpdate] ∧
    (requestsBeforeEdge 1 l 0 Requests.initial).invalidWaits = 2 ∧
    (requestsBeforeEdge 1 l 0 Requests.initial).Urequest = .uninitialised ∧
    (requestsBeforeEdge 1 l 0 Requests.initial).Lrequest = .uninitialised ∧
    (∀ p rank, 2 ≤ p → rank < p * p →
      (requestsBeforeEdge p l rank Requests.initial).invalidWaits = 0) := by
  refine ⟨by simp [program, iterationBody], ?_, ?_, ?_, ?_⟩
  · rw [invalidWaits_before_edge]
    rfl
  · simp [requestsBeforeEdge, program, iterationBody, trackRequests, Requests.initial,
      Requests.get, List.takeWhile]
  · simp [requestsBeforeEdge, program, iterationBody, trackRequests, Requests.initial,
      Requests.get, List.takeWhile]
  · intro p rank hp hr
    rw [invalidWaits_before_edge, if_pos]
    have := row_lt_side hr
    omega


/-! ## Every access is in bounds -/

theorem _index_lt (l i j : Nat) (hi : i < l + 2) (hj : j < l + 2) :
    _index l i j < (l + 2) * (l + 2) := by
  unfold _index
  have h : (i + 1) * (l + 2) ≤ (l + 2) * (l + 2) := Nat.mul_le_mul_right _ (by omega)
  rw [Nat.add_mul, Nat.one_mul] at h
  omega

theorem inBounds_grid_read {l i j : Nat} (hi : i < l + 2) (hj : j < l + 2) :
    inBounds l (.read .grid (_index l i j)) := _index_lt l i j hi hj

theorem inBounds_grid_write {l i j : Nat} (hi : i < l + 2) (hj : j < l + 2) :
    inBounds l (.write .grid (_index l i j)) := _index_lt l i j hi hj

theorem _index_add (l r c k : Nat) : _index l r c + k = _index l r (c + k) := by
  unfold _index; omega

theorem inBounds_stencil {l row col : Nat} {x : Access} (hr1 : 1 ≤ row) (hr2 : row ≤ l)
    (hc1 : 1 ≤ col) (hc2 : col ≤ l) (hx : x ∈ stencilAccesses l row col) : inBounds l x := by
  simp only [stencilAccesses, List.mem_cons, List.mem_singleton, List.not_mem_nil,
    or_false] at hx
  rcases hx with rfl | rfl | rfl | rfl | rfl
  · exact inBounds_grid_read (by omega) (by omega)
  · exact inBounds_grid_read (by omega) (by omega)
  · exact inBounds_grid_read (by omega) (by omega)
  · exact inBounds_grid_read (by omega) (by omega)
  · exact inBounds_grid_write (by omega) (by omega)

theorem inBounds_initialiseGrid {l : Nat} {x : Access} (hx : x ∈ initialiseGridAccesses l) :
    inBounds l x := by
  rw [initialiseGridAccesses_eq] at hx
  simp only [List.mem_append, List.mem_flatMap, List.mem_singleton, List.mem_range'_1] at hx
  rcases hx with ⟨i, hi, j, hj, rfl⟩ | ⟨i, hi, j, hj, rfl⟩
  · exact inBounds_grid_write (by omega) (by omega)
  · exact inBounds_grid_write (by omega) (by omega)

theorem inBounds_send_row {l r : Nat} {x : Access} (hr : r < l + 2)
    (hx : x ∈ sendAccesses .grid (_index l r 1) l) : inBounds l x := by
  simp only [sendAccesses, List.mem_map, List.mem_range] at hx
  obtain ⟨k, hk, rfl⟩ := hx
  rw [_index_add]
  exact inBounds_grid_read hr (by omega)

theorem inBounds_recv_row {l r : Nat} {x : Access} (hr : r < l + 2)
    (hx : x ∈ recvAccesses .grid (_index l r 1) l) : inBounds l x := by
  simp only [recvAccesses, List.mem_map, List.mem_range] at hx
  obtain ⟨k, hk, rfl⟩ := hx
  rw [_index_add]
  exact inBounds_grid_write hr (by omega)

theorem inBounds_packColumn {l col : Nat} {x : Access} (hc : col < l + 2)
    (hx : x ∈ Stmt.accesses l (.packColumn col)) : inBounds l x := by
  simp only [Stmt.accesses] at hx
  rw [forLoop_append, Nat.add_sub_cancel] at hx
  simp only [List.nil_append, List.mem_flatMap, List.mem_range'_1, List.mem_cons,
    List.mem_singleton, List.not_mem_nil, or_false] at hx
  obtain ⟨row, hrow, rfl | rfl⟩ := hx
  · exact inBounds_grid_read (by omega) hc
  · show row - 1 < l
    omega

theorem inBounds_unpackColumn {l col : Nat} {x : Access} (hc : col < l + 2)
    (hx : x ∈ Stmt.accesses l (.unpackColumn col)) : inBounds l x := by
  simp only [Stmt.accesses] at hx
  rw [forLoop_append, Nat.add_sub_cancel] at hx
  simp only [List.nil_append, List.mem_flatMap, List.mem_range'_1, List.mem_cons,
    List.mem_singleton, List.not_mem_nil, or_false] at hx
  obtain ⟨row, hrow, rfl | rfl⟩ := hx
  · show row - 1 < l
    omega
  · exact inBounds_grid_write (by omega) hc

theorem inBounds_column_send {l : Nat} {x : Access} (hx : x ∈ sendAccesses .column 0 l) :
    inBounds l x := by
  simp only [sendAccesses, List.mem_map, List.mem_range] at hx
  obtain ⟨k, hk, rfl⟩ := hx
  show 0 + k < l
  omega

theorem inBounds_column_recv {l : Nat} {x : Access} (hx : x ∈ recvAccesses .column 0 l) :
    inBounds l x := by
  simp only [recvAccesses, List.mem_map, List.mem_range] at hx
  obtain ⟨k, hk, rfl⟩ := hx
  show 0 + k < l
  omega

/-- Every access of a statement of the iteration body is in bounds. -/
theorem inBounds_program {p l rank : Nat} {s : Stmt} {x : Access}
    (hs : s ∈ program p l rank) (hx : x ∈ s.accesses l) : inBounds l x := by
  rcases mem_program hs with rfl | ⟨_, rfl⟩ | ⟨_, rfl⟩ | ⟨_, rfl⟩ | ⟨_, rfl⟩ | ⟨_, rfl⟩ |
    ⟨_, rfl⟩ | ⟨_, rfl⟩ | ⟨_, rfl⟩ | ⟨_, rfl⟩ | ⟨_, rfl⟩ | ⟨_, rfl⟩ | ⟨_, rfl⟩ | rfl | rfl |
    rfl | rfl
  · simp [Stmt.accesses] at hx
  · exact inBounds_send_row (by omega) hx
  · exact inBounds_recv_row (by omega) hx
  · exact inBounds_send_row (by omega) hx
  · exact inBounds_recv_row (by omega) hx
  · exact inBounds_packColumn (by omega) hx
  · exact inBounds_column_send hx
  · exact inBounds_column_recv hx
  · exact inBounds_unpackColumn (by omega) hx
  · exact inBounds_packColumn (by omega) hx
  · exact inBounds_column_send hx
  · exact inBounds_column_recv hx
  · exact inBounds_unpackColumn (by omega) hx
  · obtain ⟨row, col, hr, hc, h⟩ := mem_interiorAccesses.mp hx
    exact inBounds_stencil (by omega) (by omega) (by omega) (by omega) h
  · simp [Stmt.accesses] at hx
  · simp [Stmt.accesses] at hx
  · obtain ⟨row, col, hr, hc, _, h⟩ := mem_edgeAccesses.mp hx
    exact inBounds_stencil hr.1 hr.2 hc.1 hc.2 h

theorem inBounds_blockAccesses {p l rank rowBlock row colBlock : Nat} {x : Access}
    (hr2 : row ≤ l)
    (hx : x ∈ blockAccesses p l rank rowBlock row colBlock) : inBounds l x := by
  unfold blockAccesses at hx
  simp only [List.mem_append] at hx
  rcases hx with hx | hx
  · split at hx
    · exact inBounds_send_row (by omega) hx
    · exact absurd hx (List.not_mem_nil _)
  · split at hx
    · split at hx
      · rw [forLoop_append] at hx
        simp only [List.nil_append, List.mem_flatMap, List.mem_singleton,
          List.mem_range'_1] at hx
        obtain ⟨col, hcol, rfl⟩ := hx
        exact inBounds_grid_read (by omega) (by omega)
      · rw [forLoop_append, List.mem_append] at hx
        rcases hx with hx | hx
        · simp only [recvAccesses, List.mem_map, List.mem_range] at hx
          obtain ⟨k, hk, rfl⟩ := hx
          show 0 + k < l
          omega
        · simp only [List.mem_flatMap, List.mem_singleton, List.mem_range'_1] at hx
          obtain ⟨col, hcol, rfl⟩ := hx
          show col - 1 < l
          omega
    · exact absurd hx (List.not_mem_nil _)

theorem inBounds_displayGrid {L p l rank : Nat} {x : Access}
    (hx : x ∈ displayAccesses L p l rank) : inBounds l x := by
  by_cases hL : L ≤ 32
  · rw [displayAccesses_eq L p l rank hL] at hx
    simp only [List.mem_flatMap, List.mem_range'_1] at hx
    obtain ⟨rb, -, row, hrow, cb, -, hx⟩ := hx
    exact inBounds_blockAccesses (by omega) hx
  · unfold displayAccesses at hx
    rw [if_pos (by omega)] at hx
    exact absurd hx (List.not_mem_nil _)

/-- C26: `_index` is one-to-one on `[0, local_L+2) x [0, local_L+2)` with values
below `(local_L+2)^2`; every access of `initialiseGrid`, of `displayGrid` and of a
statement of the iteration body goes to an index inside its array (`grid` with
`(local_L+2)^2` elements, `column` and `scratch` with `local_L`); and the `k`-th
float (`k < local_L`) of a message region that starts at `_index(r, 1)` is the cell
`(r, 1+k)`, a cell of row `r` in columns `1 .. local_L`; the regions handed to
`MPI_Isend` and `MPI_Irecv` start at `_index(r, 1)` for `r` one of `0`, `1`,
`local_L`, `local_L+1` and have `local_L` floats. -/
theorem C26_accesses_in_bounds (l : Nat) :
    (∀ i j i' j', i < l + 2 → j < l + 2 → i' < l + 2 → j' < l + 2 →
      _index l i j = _index l i' j' → i = i' ∧ j = j') ∧
    (∀ i j, i < l + 2 → j < l + 2 → _index l i j < (l + 2) * (l + 2)) ∧
    (∀ x ∈ initialiseGridAccesses l, inBounds l x) ∧
    (∀ L p rank, ∀ x ∈ displayAccesses L p l rank, inBounds l x) ∧
    (∀ p rank, ∀ s ∈ program p l rank, ∀ x ∈ s.accesses l, inBounds l x) ∧
    (∀ r k, k < l → _index l r 1 + k = _index l r (1 + k) ∧ 1 ≤ 1 + k ∧ 1 + k ≤ l) ∧
    (∀ p rank buf count peer request,
      (Stmt.MPI_Isend buf count peer request ∈ program p l rank ∨
        Stmt.MPI_Irecv buf count peer request ∈ program p l rank) →
      count = l ∧ (buf = _index l 0 1 ∨ buf = _index l 1 1 ∨ buf = _index l l 1
        ∨ buf = _index l (l + 1) 1)) := by
  refine ⟨fun i j i' j' _ hj _ hj' h => _index_inj hj hj' h, _index_lt l,
    fun x hx => inBounds_initialiseGrid hx, fun L p rank x hx => inBounds_displayGrid hx,
    fun p rank s hs x hx => inBounds_program hs hx,
    fun r k hk => ⟨_index_add l r 1 k, by omega, by omega⟩, ?_⟩
  intro p rank buf count peer request h
  have region : ∀ s ∈ program p l rank,
      (s = Stmt.MPI_Isend buf count peer request ∨ s = Stmt.MPI_Irecv buf count peer request) →
      count = l ∧ (buf = _index l 0 1 ∨ buf = _index l 1 1 ∨ buf = _index l l 1
        ∨ buf = _index l (l + 1) 1) := by
    intro s hs hshape
    have hline := mem_program hs
    rcases hshape with rfl | rfl <;>
      simp only [reduceCtorEq, and_false, false_or, or_false, Stmt.MPI_Isend.injEq,
        Stmt.MPI_Irecv.injEq] at hline <;>
      rcases hline with hline | hline <;>
      obtain ⟨-, h1, h2, -, -⟩ := hline <;> subst h1 h2 <;> simp
  rcases h with h | h
  · exact region _ h (Or.inl rfl)
  · exact region _ h (Or.inr rfl)


/-! ## The width of the printed lines -/

theorem lineWidth_append (xs ys : List Print) :
    lineWidth (xs ++ ys) = lineWidth xs + lineWidth ys := by
  simp [lineWidth]

theorem lineWidth_flatMap {α : Type} (xs : List α) (f : α → List Print) (w : Nat)
    (h : ∀ x ∈ xs, lineWidth (f x) = w) : lineWidth (xs.flatMap f) = xs.length * w := by
  induction xs with
  | nil => simp [lineWidth]
  | cons x xs ih =>
    rw [List.flatMap_cons, lineWidth_append, h x (List.mem_cons_self _ _),
      ih (fun y hy => h y (List.mem_cons_of_mem _ hy)), List.length_cons, Nat.succ_mul,
      Nat.add_comm]

theorem lineWidth_replicate (n : Nat) (pr : Print) :
    lineWidth (List.replicate n pr) = n * pr.width := by
  simp [lineWidth]

theorem lineWidth_rowValues (l : Nat) (g : Nat → ℚ) (row : Nat) :
    lineWidth (rowValues l g row) = l * 7 := by
  have h : ∀ xs : List Nat, lineWidth (xs.map (fun col =>
      (⟨"%6.3f ", some (g (_index l row col))⟩ : Print))) = xs.length * 7 := by
    intro xs
    induction xs with
    | nil => rfl
    | cons x xs ih =>
      have h7 : (⟨"%6.3f ", some (g (_index l row x))⟩ : Print).width = 7 := rfl
      have hc : lineWidth ((x :: xs).map (fun col =>
          (⟨"%6.3f ", some (g (_index l row col))⟩ : Print)))
          = (⟨"%6.3f ", some (g (_index l row x))⟩ : Print).width
            + lineWidth (xs.map (fun col =>
                (⟨"%6.3f ", some (g (_index l row col))⟩ : Print))) := by
        simp [lineWidth]
      rw [hc, h7, ih, List.length_cons]
      omega
  unfold rowValues
  rw [h, List.length_range']

theorem lineWidth_dashes (p l : Nat) :
    lineWidth (dashes p l) = 7 * (p * l + 2) + 2 * (p + 1) - 1 := by
  unfold dashes
  rw [lineWidth_append, lineWidth_replicate]
  have h1 : (⟨"-", none⟩ : Print).width = 1 := by decide
  have h2 : lineWidth [(⟨"\n", none⟩ : Print)] = 0 := by decide
  rw [h1, h2]
  omega

theorem lineWidth_zeroLine (p l : Nat) :
    lineWidth (zeroLine p l) = 9 + p * (7 * l + 2) + 6 := by
  unfold zeroLine
  rw [lineWidth_append, lineWidth_append, lineWidth_flatMap _ _ (7 * l + 2) (by
    intro x _
    rw [lineWidth_append, lineWidth_replicate]
    have h1 : (⟨"%6.3f ", some 0⟩ : Print).width = 7 := by decide
    have h2 : lineWidth [(⟨"| ", none⟩ : Print)] = 2 := by decide
    rw [h1, h2]
    omega), List.length_range]
  have h1 : lineWidth [(⟨"%6.3f | ", some 0⟩ : Print)] = 9 := by decide
  have h2 : lineWidth [(⟨"%6.3f\n", some 0⟩ : Print)] = 6 := by decide
  rw [h1, h2]

theorem lineWidth_dataLine (p l : Nat) (grid : Nat → Nat → ℚ) (rowBlock row : Nat) :
    lineWidth (dataLine p l grid rowBlock row) = 9 + p * (7 * l + 2) + 6 := by
  unfold dataLine
  rw [lineWidth_append, lineWidth_append, lineWidth_flatMap _ _ (7 * l + 2) (by
    intro x _
    rw [lineWidth_append, lineWidth_rowValues]
    have h2 : lineWidth [(⟨"| ", none⟩ : Print)] = 2 := by decide
    rw [h2]
    omega), List.length_range]
  have h1 : lineWidth [(⟨"%6.3f | ", some 0⟩ : Print)] = 9 := by decide
  have h2 : lineWidth [(⟨"%6.3f\n", some 0⟩ : Print)] = 6 := by decide
  rw [h1, h2]

theorem width_formula (p l : Nat) :
    7 * (p * l + 2) + 2 * (p + 1) - 1 = 9 + p * (7 * l + 2) + 6 := by
  have h : p * (7 * l + 2) = 7 * (p * l) + 2 * p := by ring
  omega

/-- C28: with every value taking 6 characters, the divider that `displayGrid`
prints (lines 240, 290, 298) has `7*(p*l+2) + 2*(p+1) - 1` dashes, the boundary line
(lines 232-238, 301-307) and every data line have `9 + p*(7*l + 2) + 6` characters,
and the two numbers are equal. So whenever the grid is displayed (`L ≤ 32`), all
lines of the output of rank 0 have this same width. -/
theorem C28_divider_as_wide_as_value_lines (p l : Nat) (grid : Nat → Nat → ℚ)
    (rowBlock row : Nat) :
    lineWidth (divider p l) = 7 * (p * l + 2) + 2 * (p + 1) - 1 ∧
    lineWidth (boundaryLine p l) = 9 + p * (7 * l + 2) + 6 ∧
    lineWidth (dataLine p l grid rowBlock row) = 9 + p * (7 * l + 2) + 6 ∧
    7 * (p * l + 2) + 2 * (p + 1) - 1 = 9 + p * (7 * l + 2) + 6 ∧
    (∀ L fresh, L ≤ 32 →
      ∀ line ∈ splitLines ((displayGrid L p l grid (Display.start fresh)).out 0),
        lineWidth line = 7 * (p * l + 2) + 2 * (p + 1) - 1) := by
  refine ⟨by rw [divider_eq]; exact lineWidth_dashes p l,
    by rw [boundaryLine_eq]; exact lineWidth_zeroLine p l,
    lineWidth_dataLine p l grid rowBlock row, width_formula p l, ?_⟩
  intro L fresh hL line hline
  have hs := displayGrid_shows L p l grid hL (Display.start fresh) (fun _ _ => rfl)
  have hout : (displayGrid L p l grid (Display.start fresh)).out 0
      = (layout p l grid).flatten := by
    rw [hs.out0, ← displayOutput_eq]; rfl
  rw [hout, splitLines_layout] at hline
  simp only [layout, List.mem_append, List.mem_cons, List.mem_singleton, List.mem_flatMap,
    List.mem_map, List.not_mem_nil, or_false] at hline
  rcases hline with ((rfl | rfl) | ⟨rb, _, h⟩) | rfl | rfl
  · rw [lineWidth_zeroLine, width_formula]
  · exact lineWidth_dashes p l
  · rcases h with ⟨r, _, rfl⟩ | h
    · rw [lineWidth_dataLine, width_formula]
    · split at h
      · rw [List.mem_singleton] at h
        rw [h]
        exact lineWidth_dashes p l
      · exact absurd h (List.not_mem_nil _)
  · exact lineWidth_dashes p l
  · rw [lineWidth_zeroLine, width_formula]


/-! ## The range of the grid values -/

theorem stencil_inRange (B : ℚ) (l : Nat) (g : Nat → ℚ) (row col : Nat)
    (h1 : 0 ≤ g (_index l (row + 1) col) ∧ g (_index l (row + 1) col) ≤ B)
    (h2 : 0 ≤ g (_index l (row - 1) col) ∧ g (_index l (row - 1) col) ≤ B)
    (h3 : 0 ≤ g (_index l row (col + 1)) ∧ g (_index l row (col + 1)) ≤ B)
    (h4 : 0 ≤ g (_index l row (col - 1)) ∧ g (_index l row (col - 1)) ≤ B) :
    0 ≤ stencil l g row col ∧ stencil l g row col ≤ B := by
  unfold stencil
  constructor <;> linarith [h1.1, h1.2, h2.1, h2.2, h3.1, h3.2, h4.1, h4.2]

theorem setCell_inRange (B : ℚ) (l lo hi : Nat) (g : Nat → ℚ) (x : Nat) (v : ℚ)
    (hg : inRange B l lo hi g) (hv : 0 ≤ v ∧ v ≤ B) : inRange B l lo hi (setCell g x v) := by
  intro i j hi1 hi2 hj1 hj2
  by_cases he : _index l i j = x
  · rw [← he, setCell_same]
    exact hv
  · rw [setCell_other _ _ _ _ he]
    exact hg i j hi1 hi2 hj1 hj2

/-- The interior update keeps the owned cells between 0 and `B`: it reads owned
cells only. -/
theorem interiorUpdate_inRange (B : ℚ) (l : Nat) (g : Nat → ℚ) (hg : inRange B l 1 l g) :
    inRange B l 1 l (interiorUpdate l g) := by
  unfold interiorUpdate
  refine forLoop_induct (inRange B l 1 l) 2 l _ g hg ?_
  intro row s hr1 hr2 hs
  refine forLoop_induct (inRange B l 1 l) 2 l _ s hs ?_
  intro col t hc1 hc2 ht
  exact setCell_inRange B l 1 l t _ _ ht
    (stencil_inRange B l t row col (ht _ _ (by omega) (by omega) (by omega) (by omega))
      (ht _ _ (by omega) (by omega) (by omega) (by omega))
      (ht _ _ (by omega) (by omega) (by omega) (by omega))
      (ht _ _ (by omega) (by omega) (by omega) (by omega)))

/-- The edge update keeps all cells of the grid between 0 and `B`. -/
theorem edgeUpdate_inRange (B : ℚ) (l : Nat) (g : Nat → ℚ) (hg : inRange B l 0 (l + 1) g) :
    inRange B l 0 (l + 1) (edgeUpdate l g) := by
  unfold edgeUpdate
  refine forLoop_induct (inRange B l 0 (l + 1)) 1 (l + 1) _ g hg ?_
  intro row s hr1 hr2 hs
  refine forLoop_induct (inRange B l 0 (l + 1)) 1 (l + 1) _ s hs ?_
  intro col t hc1 hc2 ht
  dsimp only
  split
  · exact setCell_inRange B l 0 (l + 1) t _ _ ht
      (stencil_inRange B l t row col (ht _ _ (by omega) (by omega) (by omega) (by omega))
        (ht _ _ (by omega) (by omega) (by omega) (by omega))
        (ht _ _ (by omega) (by omega) (by omega) (by omega))
        (ht _ _ (by omega) (by omega) (by omega) (by omega)))
  · exact ht

/-- A statement of the program of process `w` other than the two updates leaves the
owned cells as they are, whatever message it receives. -/
theorem execLocal_owned (p l w : Nat) (s : Stmt) (hs : s ∈ program p l w)
    (h1 : s ≠ .interiorUpdate) (h2 : s ≠ .edgeUpdate)
    (incoming : Option (List ℚ)) (pr : Proc) (hH : handlesOK p l w pr.req)
    (i j : Nat) (hi1 : 1 ≤ i) (hi2 : i ≤ l) (hj1 : 1 ≤ j) (hj2 : j ≤ l) :
    (execLocal l s incoming pr).grid (_index l i j) = pr.grid (_index l i j) := by
  have hframe : ∀ s' : Stmt, (∀ col, s' ≠ .unpackColumn col) → s' ≠ .interiorUpdate →
      (∀ h, s' ≠ .MPI_Wait h) → s' ≠ .edgeUpdate →
      (execLocal l s' incoming pr).grid (_index l i j) = pr.grid (_index l i j) := by
    intro s' a b c d
    rw [execLocal_grid l s' incoming pr ⟨a, b, c, d⟩]
  have hwait : ∀ (hd : Handle) (r : Nat), (r = 0 ∨ r = l + 1) →
      (∀ buf count src h', pr.req.get hd = .active (.MPI_Irecv buf count src h') →
        buf = _index l r 1 ∧ count = l) →
      (execLocal l (.MPI_Wait hd) incoming pr).grid (_index l i j)
        = pr.grid (_index l i j) := by
    intro hd r hr hok
    rcases hU : pr.req.get hd with _ | _ | call
    · simp [execLocal, hU]
    · simp [execLocal, hU]
    · cases call with
      | MPI_Irecv buf count src h' =>
        obtain ⟨hbuf, hcount⟩ := hok buf count src h' hU
        cases incoming with
        | none => simp [execLocal, hU]
        | some msg =>
          have hlen : (msg.take count).length ≤ l := by
            rw [List.length_take, hcount]; exact Nat.min_le_left _ _
          simp only [execLocal, hU]
          rw [storeAt_other _ _ _ _ ?_]
          rintro ⟨h1, h2⟩
          rw [hbuf] at h1 h2
          obtain ⟨e1, e2, e3⟩ := _index_in_row (n := (msg.take count).length)
            (by omega) (by omega) h1 h2
          omega
      | _ => simp [execLocal, hU]
  rcases mem_program hs with h | ⟨hg, h⟩ | ⟨hg, h⟩ | ⟨hg, h⟩ | ⟨hg, h⟩ | ⟨hg, h⟩ | ⟨hg, h⟩ |
    ⟨hg, h⟩ | ⟨hg, h⟩ | ⟨hg, h⟩ | ⟨hg, h⟩ | ⟨hg, h⟩ | ⟨hg, h⟩ | h | h | h | h
  all_goals subst h
  · exact hframe _ (by simp) (by simp) (by simp) (by simp)
  · exact hframe _ (by simp) (by simp) (by simp) (by simp)
  · exact hframe _ (by simp) (by simp) (by simp) (by simp)
  · exact hframe _ (by simp) (by simp) (by simp) (by simp)
  · exact hframe _ (by simp) (by simp) (by simp) (by simp)
  · exact hframe _ (by simp) (by simp) (by simp) (by simp)
  · exact hframe _ (by simp) (by simp) (by simp) (by simp)
  · exact hframe _ (by simp) (by simp) (by simp) (by simp)
  · exact unpackColumn_other l (l + 1) incoming pr _ (by
      intro row _ _ he
      have := (_index_inj (by omega) (by omega) he).2
      omega)
  · exact hframe _ (by simp) (by simp) (by simp) (by simp)
  · exact hframe _ (by simp) (by simp) (by simp) (by simp)
  · exact hframe _ (by simp) (by simp) (by simp) (by simp)
  · exact unpackColumn_other l 0 incoming pr _ (by
      intro row _ _ he
      have := (_index_inj (by omega) (by omega) he).2
      omega)
  · exact absurd rfl h1
  · exact hwait .Urequest (l + 1) (Or.inr rfl) (fun buf count src h' hh =>
      ⟨(hH.1 buf count src h' hh).1, (hH.1 buf count src h' hh).2.1⟩)
  · exact hwait .Lrequest 0 (Or.inl rfl) (fun buf count src h' hh =>
      ⟨(hH.2 buf count src h' hh).1, (hH.2 buf count src h' hh).2.1⟩)
  · exact absurd rfl h2

theorem take16_not_edge {p l : Nat} {ln : Line} (h : ln ∈ (iterationBody p l).take 16)
    (w : Nat) : ln.stmt w ≠ .edgeUpdate := by
  simp only [iterationBody, List.take, List.mem_cons, List.not_mem_nil, or_false] at h
  rcases h with h | h | h | h | h | h | h | h | h | h | h | h | h | h | h | h <;>
    subst h <;> simp

theorem execLine_owned (p l : Nat) (B : ℚ) (ln : Line) (hln : ln ∈ (iterationBody p l).take 16)
    (W : World) (w : Nat) (hZ : zeroBoundary p l w (W.proc w))
    (hO : inRange B l 1 l (W.proc w).grid) :
    inRange B l 1 l ((execLine (p * p) l ln W).proc w).grid := by
  rw [execLine_proc]
  split
  · rename_i hrun
    have hg : ln.guard w = true := by
      simp only [Bool.and_eq_true] at hrun
      exact hrun.2
    have hs : ln.stmt w ∈ program p l w :=
      List.mem_map.mpr ⟨ln, List.mem_filter.mpr ⟨List.mem_of_mem_take hln, hg⟩, rfl⟩
    by_cases hint : ln.stmt w = .interiorUpdate
    · rw [hint]
      exact interiorUpdate_inRange B l _ hO
    · intro i j hi1 hi2 hj1 hj2
      rw [execLocal_owned p l w _ hs hint (take16_not_edge hln w) _ _ hZ.1 i j hi1 hi2 hj1 hj2]
      exact hO i j hi1 hi2 hj1 hj2
  · exact hO

theorem lockstep_owned (p l : Nat) (B : ℚ) (w : Nat) :
    ∀ (lines : List Line), (∀ ln ∈ lines, ln ∈ (iterationBody p l).take 16) → ∀ W : World,
      zeroBoundary p l w (W.proc w) → inRange B l 1 l (W.proc w).grid →
      inRange B l 1 l ((lockstep p l lines W).proc w).grid := by
  intro lines
  induction lines with
  | nil => intro _ W _ h; exact h
  | cons ln lines ih =>
    intro hmem W hZ hO
    rw [lockstep_cons]
    have hln := hmem ln (List.mem_cons_self _ _)
    exact ih (fun x hx => hmem x (List.mem_cons_of_mem _ hx)) _
      (execLine_keeps p l ln (List.mem_of_mem_take hln) W w hZ)
      (execLine_owned p l B ln hln W w hZ hO)

/-- A grid whose owned cells lie between 0 and `B`, whose boundary halo and corners
are 0 and whose halo cells facing a neighbour lie between 0 and `B` has all its
cells between 0 and `B`. -/
theorem inRange_of_parts (p l w : Nat) (hp : 1 ≤ p) (hw : w < p * p) (B : ℚ) (hB : 0 ≤ B)
    (g : Nat → ℚ) (hO : inRange B l 1 l g)
    (hZ : ∀ i j, i ≤ l + 1 → j ≤ l + 1 → boundaryCell p l w i j → g (_index l i j) = 0)
    (hu : 0 < w / p → ∀ j, 1 ≤ j → j ≤ l → 0 ≤ g (_index l 0 j) ∧ g (_index l 0 j) ≤ B)
    (hd : w / p < p - 1 → ∀ j, 1 ≤ j → j ≤ l →
      0 ≤ g (_index l (l + 1) j) ∧ g (_index l (l + 1) j) ≤ B)
    (hl : 0 < w % p → ∀ i, 1 ≤ i → i ≤ l → 0 ≤ g (_index l i 0) ∧ g (_index l i 0) ≤ B)
    (hr : w % p < p - 1 → ∀ i, 1 ≤ i → i ≤ l →
      0 ≤ g (_index l i (l + 1)) ∧ g (_index l i (l + 1)) ≤ B) :
    inRange B l 0 (l + 1) g := by
  have hrow := row_lt_side hw
  have hcol := Nat.mod_lt w hp
  have hrow0 := Nat.zero_le (w / p)
  have hcol0 := Nat.zero_le (w % p)
  intro i j _ hi2 _ hj2
  by_cases hown : (1 ≤ i ∧ i ≤ l) ∧ (1 ≤ j ∧ j ≤ l)
  · exact hO i j hown.1.1 hown.1.2 hown.2.1 hown.2.2
  · by_cases hb : boundaryCell p l w i j
    · rw [hZ i j hi2 hj2 hb]
      exact ⟨le_refl 0, hB⟩
    · unfold boundaryCell at hb
      simp only [not_or, not_and] at hb
      obtain ⟨hb1, hb2, hb3, hb4⟩ := hb
      have hi : i = 0 ∨ i = l + 1 ∨ (1 ≤ i ∧ i ≤ l) := by omega
      rcases hi with rfl | rfl | hi
      · have h := hb1 rfl
        exact hu (by omega) j (by omega) (by omega)
      · have h := hb2 rfl
        exact hd (by omega) j (by omega) (by omega)
      · have hj : j = 0 ∨ j = l + 1 := by omega
        rcases hj with rfl | rfl
        · have h := hb3 rfl
          exact hl (by omega) i hi.1 hi.2
        · have h := hb4 rfl
          exact hr (by omega) i hi.1 hi.2

theorem iteration_grid (p l : Nat) (W0 : World) (w : Nat) (hw : w < p * p) :
    ((iteration p l W0).proc w).grid
      = edgeUpdate l ((lockstep p l ((iterationBody p l).take 16) W0).proc w).grid := by
  unfold iteration
  rw [iterationBody_eq, lockstep_append]
  simp only [lockstep_cons, lockstep_nil]
  rw [execLine_proc, if_pos (by simp [hw])]
  rfl

/-- One iteration, started with nothing in flight, keeps every cell of every grid
between 0 and `B`. -/
theorem iteration_inRange (p l : Nat) (hp : 1 ≤ p) (B : ℚ) (hB : 0 ≤ B) (W0 : World)
    (hq : ∀ s d, W0.chan s d = []) (hZ : ∀ w, zeroBoundary p l w (W0.proc w))
    (hR : ∀ w, w < p * p → inRange B l 0 (l + 1) (W0.proc w).grid) :
    ∀ w, w < p * p → inRange B l 0 (l + 1) ((iteration p l W0).proc w).grid := by
  intro w hw
  rw [iteration_grid p l W0 w hw]
  apply edgeUpdate_inRange
  have hE := (exchange_spec p l hp W0 hq).2.2 w hw
  refine inRange_of_parts p l w hp hw B hB _
    (lockstep_owned p l B w ((iterationBody p l).take 16) (fun _ hx => hx) W0 (hZ w)
      (fun i j hi1 hi2 hj1 hj2 => hR w hw i j (by omega) (by omega) (by omega) (by omega)))
    (lockstep_keeps p l w ((iterationBody p l).take 16)
      (fun _ hx => List.mem_of_mem_take hx) W0 (hZ w)).2 ?_ ?_ ?_ ?_
  · intro h j h1 h2
    rw [hE.1 h j h1 h2]
    exact hR (w - p) (by omega) _ _ (by omega) (by omega) (by omega) (by omega)
  · intro h j h1 h2
    rw [hE.2.1 h j h1 h2]
    exact hR (w + p) (down_position hw h).1 _ _ (by omega) (by omega) (by omega) (by omega)
  · intro h i h1 h2
    rw [hE.2.2.1 h i h1 h2]
    exact hR (w - 1) (by omega) _ _ (by omega) (by omega) (by omega) (by omega)
  · intro h i h1 h2
    rw [hE.2.2.2 h i h1 h2]
    exact hR (w + 1) (right_position hw h).1 _ _ (by omega) (by omega) (by omega) (by omega)

theorem run_inRange (p l : Nat) (hp : 1 ≤ p) (freshGrid freshColumn : Nat → Nat → ℚ) :
    ∀ n w, w < p * p →
      inRange ((p * p : Nat) : ℚ) l 0 (l + 1) ((run p l freshGrid freshColumn n).proc w).grid := by
  intro n
  induction n with
  | zero =>
    intro w hw i j _ hi2 _ hj2
    show 0 ≤ initialiseGrid l w (freshGrid w) (_index l i j) ∧
      initialiseGrid l w (freshGrid w) (_index l i j) ≤ ((p * p : Nat) : ℚ)
    rw [initialiseGrid_at l w _ i j hi2 hj2]
    have h1 : ((w : ℚ) + 1) ≤ ((p * p : Nat) : ℚ) := by exact_mod_cast hw
    have h2 : (0 : ℚ) ≤ (w : ℚ) := Nat.cast_nonneg w
    have h3 : (0 : ℚ) ≤ ((p * p : Nat) : ℚ) := Nat.cast_nonneg _
    split
    · exact ⟨by linarith, h1⟩
    · exact ⟨le_refl 0, h3⟩
  | succ n ih =>
    exact iteration_inRange p l hp _ (Nat.cast_nonneg _) _
      (run_quiet p l hp freshGrid freshColumn n).1
      (fun w => run_keeps p l freshGrid freshColumn w n) ih

/-- C27: in the lockstep execution of all `P = p*p` processes over exact arithmetic,
after any number `n` of iterations every cell `(i, j)`, `i, j ≤ local_L + 1`, of the
grid of every process `w < P` holds a value `v` with `0 ≤ v ≤ P`, whatever the
memory held before the program started. -/
theorem C27_values_between_zero_and_P (p l : Nat) (freshGrid freshColumn : Nat → Nat → ℚ)
    (n w i j : Nat) (hp : 1 ≤ p) (hw : w < p * p) (hi : i ≤ l + 1) (hj : j ≤ l + 1) :
    0 ≤ ((run p l freshGrid freshColumn n).proc w).grid (_index l i j) ∧
    ((run p l freshGrid freshColumn n).proc w).grid (_index l i j) ≤ ((p * p : Nat) : ℚ) :=
  run_inRange p l hp freshGrid freshColumn n w hw i j (Nat.zero_le i) hi (Nat.zero_le j) hj

/-- C27 on four processes with `local_L = 4`, after one iteration, rank 3, the halo
cell `(0, 2)`. -/
theorem C27_values_between_zero_and_P_witness :
    0 ≤ ((run 2 4 (fun _ _ => 9) (fun _ _ => 9) 1).proc 3).grid (_index 4 0 2) ∧
    ((run 2 4 (fun _ _ => 9) (fun _ _ => 9) 1).proc 3).grid (_index 4 0 2)
      ≤ ((2 * 2 : Nat) : ℚ) :=
  C27_values_between_zero_and_P 2 4 (fun _ _ => 9) (fun _ _ => 9) 1 3 0 2
    (by decide) (by decide) (by decide) (by decide)

end HeatEqn2

namespace Cwk1

/-! ## `invertStack` -/

/-- What the array holds while the loop of `invertStack` runs, given how far each
iteration has got: cell `x < half` holds the old `stack[n-1-x]` once iteration `x`
has executed line 81, and cell `n-1-i` holds the old `stack[i]` once iteration `i`
has executed line 83. -/
theorem invertStep_spec (n : Nat) (old : Nat → Int) :
    ∀ (schedule : List Nat) (t : Threads), (∀ i ∈ schedule, i < n / 2) →
      (∀ i, t.executed i ≤ 3) →
      (∀ i, i < n / 2 → 1 ≤ t.executed i → t.tmp i = old i) →
      (∀ x, t.stack x =
        if x < n / 2 then (if 2 ≤ t.executed x then old (n - x - 1) else old x)
        else if x < n ∧ n - x - 1 < n / 2 then
          (if 3 ≤ t.executed (n - x - 1) then old (n - x - 1) else old x)
        else old x) →
      (∀ x, (schedule.foldl (fun t i => invertStep n i t) t).stack x =
        if x < n / 2 then
          (if 2 ≤ t.executed x + schedule.count x then old (n - x - 1) else old x)
        else if x < n ∧ n - x - 1 < n / 2 then
          (if 3 ≤ t.executed (n - x - 1) + schedule.count (n - x - 1) then old (n - x - 1)
           else old x)
        else old x) := by
  intro schedule
  induction schedule with
  | nil =>
    intro t _ _ _ hS x
    simpa using hS x
  | cons i rest ih =>
    intro t hmem hle htmp hS x
    have hi : i < n / 2 := hmem i (List.mem_cons_self _ _)
    have hrest : ∀ j ∈ rest, j < n / 2 := fun j hj => hmem j (List.mem_cons_of_mem _ hj)
    rw [List.foldl_cons]
    have hcount : ∀ y, (i :: rest).count y = (if y = i then 1 else 0) + rest.count y := by
      intro y
      rw [List.count_cons]
      by_cases h : y = i
      · subst h; simp; omega
      · have h' : ¬ i = y := fun e => h e.symm
        simp [h, h']
    have hle_i := hle i
    have hcase : t.executed i = 0 ∨ t.executed i = 1 ∨ t.executed i = 2 ∨ t.executed i = 3 := by
      omega
    rcases hcase with h0 | h1 | h2 | h3
    · -- line 79
      have hstep : invertStep n i t
          = { t with tmp := store t.tmp i (t.stack i), executed := store t.executed i 1 } := by
        unfold invertStep; rw [h0]
      rw [hstep, ih _ hrest ?_ ?_ ?_ x]
      · simp only [store, hcount]
        have hx1 := hle x
        have hx2 := hle (n - x - 1)
        split_ifs <;> first | rfl | omega | (subst_vars; omega)
      · intro j
        simp only [store]
        split_ifs
        · omega
        · exact hle j
      · intro j hj hj1
        simp only [store] at hj1 ⊢
        split_ifs with hji
        · subst hji
          rw [hS j, if_pos hj, if_neg (by omega)]
        · rw [if_neg hji] at hj1
          exact htmp j hj hj1
      · intro y
        simp only [store]
        rw [hS y]
        split_ifs <;> first | rfl | omega | (subst_vars; omega)
    · -- line 81
      have hstep : invertStep n i t
          = { t with stack := store t.stack i (t.stack (n - i - 1)),
                     executed := store t.executed i 2 } := by
        unfold invertStep; rw [h1]
      rw [hstep, ih _ hrest ?_ ?_ ?_ x]
      · simp only [store, hcount]
        have hx1 := hle x
        have hx2 := hle (n - x - 1)
        split_ifs <;> first | rfl | omega | (subst_vars; omega)
      · intro j
        simp only [store]
        split_ifs
        · omega
        · exact hle j
      · intro j hj hj1
        simp only [store] at hj1
        by_cases hji : j = i
        · subst hji
          exact htmp j hj (by omega)
        · rw [if_neg hji] at hj1
          exact htmp j hj hj1
      · intro y
        simp only [store]
        rw [hS y, hS (n - i - 1)]
        have e : n - (n - i - 1) - 1 = i := by omega
        rw [e]
        split_ifs <;> first | rfl | omega | (subst_vars; omega)
    · -- line 83
      have hstep : invertStep n i t
          = { t with stack := store t.stack (n - i - 1) (t.tmp i),
                     executed := store t.executed i 3 } := by
        unfold invertStep; rw [h2]
      rw [hstep, ih _ hrest ?_ ?_ ?_ x]
      · simp only [store, hcount]
        have hx1 := hle x
        have hx2 := hle (n - x - 1)
        split_ifs <;> first | rfl | omega | (subst_vars; omega)
      · intro j
        simp only [store]
        split_ifs
        · omega
        · exact hle j
      · intro j hj hj1
        simp only [store] at hj1
        by_cases hji : j = i
        · subst hji
          exact htmp j hj (by omega)
        · rw [if_neg hji] at hj1
          exact htmp j hj hj1
      · intro y
        simp only [store]
        rw [hS y, htmp i hi (by omega)]
        by_cases hy : y = n - i - 1
        · subst hy
          have e : n - (n - i - 1) - 1 = i := by omega
          rw [e]
          simp only [if_true]
          split_ifs <;> first | rfl | omega
        · rw [if_neg hy]
          split_ifs <;> first | rfl | omega | (subst_vars; omega)
    · -- the iteration has ended
      have hstep : invertStep n i t = t := by
        unfold invertStep; rw [h3]
      rw [hstep, ih t hrest hle htmp hS x]
      simp only [hcount]
      have hx1 := hle x
      have hx2 := hle (n - x - 1)
      split_ifs <;> first | rfl | omega | (subst_vars; omega)

theorem invertStack_stack (s : State) (schedule : List Nat)
    (hc : complete (s.stackSize / 2) 3 schedule) (x : Nat) :
    (invertStack schedule s).stack x
      = if x < s.stackSize then s.stack (s.stackSize - 1 - x) else s.stack x := by
  have h := invertStep_spec s.stackSize s.stack schedule ⟨s.stack, fun _ => 0, fun _ => 0⟩
    hc.2 (fun _ => Nat.zero_le 3) (fun i _ h1 => absurd h1 (by simp))
    (fun x => by simp) x
  show (schedule.foldl (fun t i => invertStep s.stackSize i t)
      ⟨s.stack, fun _ => 0, fun _ => 0⟩).stack x = _
  rw [h]
  simp only [Nat.zero_add]
  have e : s.stackSize - x - 1 = s.stackSize - 1 - x := by omega
  by_cases h1 : x < s.stackSize / 2
  · rw [if_pos h1, hc.1 x h1, if_pos (by omega), if_pos (by omega), e]
  · rw [if_neg h1]
    by_cases h2 : x < s.stackSize ∧ s.stackSize - x - 1 < s.stackSize / 2
    · rw [if_pos h2, hc.1 _ h2.2, if_pos (by omega), if_pos h2.1, e]
    · rw [if_neg h2]
      by_cases h3 : x < s.stackSize
      · rw [if_pos h3]
        have e' : s.stackSize - 1 - x = x := by omega
        rw [e']
      · rw [if_neg h3]

/-- C21: for every stack, of any size `n ≥ 0`, and every schedule of the parallel loop
that runs each of its `n / 2` iterations to the end, `invertStack` leaves `stackSize`
as it is, makes `stack[i]` the old `stack[n-1-i]` for every `i < n`, touches nothing
beyond the stack, leaves the middle element of a stack of odd size as it is, and
applied a second time (under any such schedule) gives back the original stack. -/
theorem C21_invertStack_reverses (s : State) (schedule schedule' : List Nat)
    (hc : complete (s.stackSize / 2) 3 schedule)
    (hc' : complete (s.stackSize / 2) 3 schedule') :
    (invertStack schedule s).stackSize = s.stackSize ∧
    (∀ i, i < s.stackSize →
      (invertStack schedule s).stack i = s.stack (s.stackSize - 1 - i)) ∧
    (∀ i, s.stackSize ≤ i → (invertStack schedule s).stack i = s.stack i) ∧
    (s.stackSize % 2 = 1 →
      (invertStack schedule s).stack (s.stackSize / 2) = s.stack (s.stackSize / 2)) ∧
    invertStack schedule' (invertStack schedule s) = s := by
  refine ⟨rfl, ?_, ?_, ?_, ?_⟩
  · intro i hi
    rw [invertStack_stack s schedule hc, if_pos hi]
  · intro i hi
    rw [invertStack_stack s schedule hc, if_neg (by omega)]
  · intro hodd
    rw [invertStack_stack s schedule hc, if_pos (by omega)]
    congr 1
    omega
  · have h2 : ∀ x, (invertStack schedule' (invertStack schedule s)).stack x = s.stack x := by
      intro x
      rw [invertStack_stack (invertStack schedule s) schedule' hc']
      show (if x < s.stackSize then (invertStack schedule s).stack (s.stackSize - 1 - x)
        else (invertStack schedule s).stack x) = s.stack x
      rw [invertStack_stack s schedule hc, invertStack_stack s schedule hc]
      by_cases hx : x < s.stackSize
      · rw [if_pos hx, if_pos (by omega)]
        congr 1
        omega
      · rw [if_neg hx, if_neg hx]
    have h3 : (invertStack schedule' (invertStack schedule s)).stackSize = s.stackSize := rfl
    cases s with
    | mk stack stackSize =>
      show State.mk _ _ = State.mk stack stackSize
      congr 1
      funext x
      exact h2 x

/-- C21 on the stack `0, 1, 4, 9, 16`, with the two iterations interleaved the first
time and run one after the other, last first, the second time. -/
theorem C21_invertStack_reverses_witness :
    (invertStack [0, 1, 0, 1, 1, 0] ⟨fun i => (i : Int) * i, 5⟩).stackSize
      = (State.mk (fun i => (i : Int) * i) 5).stackSize ∧
    (∀ i, i < (State.mk (fun i => (i : Int) * i) 5).stackSize →
      (invertStack [0, 1, 0, 1, 1, 0] ⟨fun i => (i : Int) * i, 5⟩).stack i
        = (State.mk (fun i => (i : Int) * i) 5).stack
            ((State.mk (fun i => (i : Int) * i) 5).stackSize - 1 - i)) ∧
    (∀ i, (State.mk (fun i => (i : Int) * i) 5).stackSize ≤ i →
      (invertStack [0, 1, 0, 1, 1, 0] ⟨fun i => (i : Int) * i, 5⟩).stack i
        = (State.mk (fun i => (i : Int) * i) 5).stack i) ∧
    ((State.mk (fun i => (i : Int) * i) 5).stackSize % 2 = 1 →
      (invertStack [0, 1, 0, 1, 1, 0] ⟨fun i => (i : Int) * i, 5⟩).stack
          ((State.mk (fun i => (i : Int) * i) 5).stackSize / 2)
        = (State.mk (fun i => (i : Int) * i) 5).stack
            ((State.mk (fun i => (i : Int) * i) 5).stackSize / 2)) ∧
    invertStack [1, 1, 1, 0, 0, 0] (invertStack [0, 1, 0, 1, 1, 0] ⟨fun i => (i : Int) * i, 5⟩)
      = ⟨fun i => (i : Int) * i, 5⟩ :=
  C21_invertStack_reverses ⟨fun i => (i : Int) * i, 5⟩ [0, 1, 0, 1, 1, 0] [1, 1, 1, 0, 0, 0]
    (by decide) (by decide)

/-! ## `rotateStack` -/

theorem rotate_foldl (n depth : Nat) (copy : Nat → Int) :
    ∀ (order : List Nat) (stack : Nat → Int) (x : Nat),
      (order.foldl (fun stack i => rotateBody n depth copy i stack) stack) x
        = if ∃ i ∈ order, n - depth + i = x then copy (x + 1) else stack x := by
  intro order
  induction order with
  | nil => intro stack x; simp
  | cons i rest ih =>
    intro stack x
    rw [List.foldl_cons, ih]
    by_cases h1 : ∃ j ∈ rest, n - depth + j = x
    · rw [if_pos h1, if_pos]
      obtain ⟨j, hj, e⟩ := h1
      exact ⟨j, List.mem_cons_of_mem _ hj, e⟩
    · rw [if_neg h1]
      unfold rotateBody store
      by_cases h2 : x = n - depth + i
      · rw [if_pos h2, if_pos ⟨i, List.mem_cons_self _ _, h2.symm⟩, h2]
      · rw [if_neg h2, if_neg]
        rintro ⟨j, hj, e⟩
        rcases List.mem_cons.mp hj with rfl | hj'
        · exact h2 e.symm
        · exact h1 ⟨j, hj', e⟩

theorem rotateStack_stack (s : State) (depth : Nat) (order : List Nat)
    (hd1 : 1 ≤ depth) (hd2 : depth ≤ s.stackSize)
    (ho : order.Perm (List.range (depth - 1))) (x : Nat) :
    (rotateStack order depth s).stack x
      = if x = s.stackSize - 1 then s.stack (s.stackSize - depth)
        else if s.stackSize - depth ≤ x ∧ x < s.stackSize then s.stack (x + 1)
        else s.stack x := by
  show store (order.foldl (fun stack i => rotateBody s.stackSize depth s.stack i stack)
    s.stack) (s.stackSize - 1) (s.stack (s.stackSize - depth)) x = _
  unfold store
  by_cases h1 : x = s.stackSize - 1
  · rw [if_pos h1, if_pos h1]
  · rw [if_neg h1, if_neg h1, rotate_foldl]
    by_cases h2 : s.stackSize - depth ≤ x ∧ x < s.stackSize
    · rw [if_pos h2, if_pos]
      refine ⟨x - (s.stackSize - depth), ?_, by omega⟩
      rw [ho.mem_iff, List.mem_range]
      omega
    · rw [if_neg h2, if_neg]
      rintro ⟨i, hi, e⟩
      rw [ho.mem_iff, List.mem_range] at hi
      omega

theorem map_range_getElem_opt {α : Type} (f : Nat → α) (n k : Nat) (hk : k < n) :
    ((List.range n).map f)[k]? = some (f k) := by
  simp [hk]

/-- C22: for every stack of size `n`, every `depth` with `1 ≤ depth ≤ n` and every
order in which the iterations `0 .. depth-2` of the parallel loop enter the critical
section, `rotateStack( depth )` leaves `stackSize` as it is, moves the element at
index `n-depth` to index `n-1`, moves the element at every index `k` with
`n-depth < k ≤ n-1` to index `k-1`, and leaves every element at an index below
`n-depth` (and everything beyond the stack) as it is. The new stack is the old one
with its top `depth` elements rotated by one place, so it is a permutation of the
old one; and `rotateStack( 1 )` changes nothing. -/
theorem C22_rotateStack_rotates (s : State) (depth : Nat) (order : List Nat)
    (hd1 : 1 ≤ depth) (hd2 : depth ≤ s.stackSize)
    (ho : order.Perm (List.range (depth - 1))) :
    (rotateStack order depth s).stackSize = s.stackSize ∧
    (rotateStack order depth s).stack (s.stackSize - 1) = s.stack (s.stackSize - depth) ∧
    (∀ k, s.stackSize - depth < k → k ≤ s.stackSize - 1 →
      (rotateStack order depth s).stack (k - 1) = s.stack k) ∧
    (∀ k, k < s.stackSize - depth → (rotateStack order depth s).stack k = s.stack k) ∧
    (∀ k, s.stackSize ≤ k → (rotateStack order depth s).stack k = s.stack k) ∧
    (List.range s.stackSize).map (rotateStack order depth s).stack
      = ((List.range s.stackSize).map s.stack).take (s.stackSize - depth)
        ++ (((List.range s.stackSize).map s.stack).drop (s.stackSize - depth)).rotate 1 ∧
    ((List.range s.stackSize).map (rotateStack order depth s).stack).Perm
      ((List.range s.stackSize).map s.stack) ∧
    (depth = 1 → rotateStack order depth s = s) := by
  have hst := rotateStack_stack s depth order hd1 hd2 ho
  have hlist : (List.range s.stackSize).map (rotateStack order depth s).stack
      = ((List.range s.stackSize).map s.stack).take (s.stackSize - depth)
        ++ (((List.range s.stackSize).map s.stack).drop (s.stackSize - depth)).rotate 1 := by
    apply List.ext_getElem?
    intro k
    by_cases hk : k < s.stackSize
    · rw [map_range_getElem_opt _ _ _ hk, hst]
      by_cases hlow : k < s.stackSize - depth
      · rw [List.getElem?_append_left (by simp; omega), List.getElem?_take_of_lt hlow,
          map_range_getElem_opt _ _ _ hk, if_neg (by omega), if_neg (by omega)]
      · rw [List.getElem?_append_right (by simp; omega)]
        have hlen : ((List.range s.stackSize).map s.stack).length = s.stackSize := by simp
        have hdl : (((List.range s.stackSize).map s.stack).drop (s.stackSize - depth)).length
            = depth := by
          rw [List.length_drop, hlen]; omega
        rw [List.length_take, hlen, Nat.min_eq_left (by omega),
          List.getElem?_rotate (by rw [hdl]; omega), hdl, List.getElem?_drop]
        by_cases htop : k = s.stackSize - 1
        · rw [if_pos htop]
          have e : (k - (s.stackSize - depth) + 1) % depth = 0 := by
            have : k - (s.stackSize - depth) + 1 = depth := by omega
            rw [this, Nat.mod_self]
          rw [e, Nat.add_zero, map_range_getElem_opt _ _ _ (by omega)]
        · rw [if_neg htop, if_pos ⟨by omega, hk⟩]
          have e : (k - (s.stackSize - depth) + 1) % depth = k - (s.stackSize - depth) + 1 :=
            Nat.mod_eq_of_lt (by omega)
          rw [e, map_range_getElem_opt _ _ _ (by omega)]
          congr 2
          omega
    · have h1 : ((List.range s.stackSize).map (rotateStack order depth s).stack)[k]? = none := by
        rw [List.getElem?_eq_none]; simp; omega
      rw [h1, eq_comm, List.getElem?_eq_none]
      simp
      omega
  refine ⟨rfl, ?_, ?_, ?_, ?_, hlist, ?_, ?_⟩
  · rw [hst, if_pos rfl]
  · intro k hk1 hk2
    rw [hst, if_neg (by omega), if_pos ⟨by omega, by omega⟩]
    congr 1
    omega
  · intro k hk
    rw [hst, if_neg (by omega), if_neg (by omega)]
  · intro k hk
    rw [hst, if_neg (by omega), if_neg (by omega)]
  · rw [hlist]
    have h := List.take_append_drop (s.stackSize - depth) ((List.range s.stackSize).map s.stack)
    conv_rhs => rw [← h]
    exact List.Perm.append_left _ (List.rotate_perm _ _)
  · intro h1
    have h2 : ∀ x, (rotateStack order depth s).stack x = s.stack x := by
      intro x
      rw [hst]
      subst h1
      by_cases hx : x = s.stackSize - 1
      · rw [if_pos hx, hx]
      · rw [if_neg hx, if_neg (by omega)]
    cases s with
    | mk stack stackSize =>
      show State.mk _ _ = State.mk stack stackSize
      congr 1
      funext x
      exact h2 x

/-- C22 on the stack `0, 1, 4, 9, 16` with `depth = 3`, the second iteration entering
the critical section first. -/
theorem C22_rotateStack_rotates_witness :
    (rotateStack [1, 0] 3 ⟨fun i => (i : Int) * i, 5⟩).stackSize
      = (State.mk (fun i => (i : Int) * i) 5).stackSize ∧
    (rotateStack [1, 0] 3 ⟨fun i => (i : Int) * i, 5⟩).stack
        ((State.mk (fun i => (i : Int) * i) 5).stackSize - 1)
      = (State.mk (fun i => (i : Int) * i) 5).stack
          ((State.mk (fun i => (i : Int) * i) 5).stackSize - 3) ∧
    (∀ k, (State.mk (fun i => (i : Int) * i) 5).stackSize - 3 < k →
      k ≤ (State.mk (fun i => (i : Int) * i) 5).stackSize - 1 →
      (rotateStack [1, 0] 3 ⟨fun i => (i : Int) * i, 5⟩).stack (k - 1)
        = (State.mk (fun i => (i : Int) * i) 5).stack k) ∧
    (∀ k, k < (State.mk (fun i => (i : Int) * i) 5).stackSize - 3 →
      (rotateStack [1, 0] 3 ⟨fun i => (i : Int) * i, 5⟩).stack k
        = (State.mk (fun i => (i : Int) * i) 5).stack k) ∧
    (∀ k, (State.mk (fun i => (i : Int) * i) 5).stackSize ≤ k →
      (rotateStack [1, 0] 3 ⟨fun i => (i : Int) * i, 5⟩).stack k
        = (State.mk (fun i => (i : Int) * i) 5).stack k) ∧
    (List.range (State.mk (fun i => (i : Int) * i) 5).stackSize).map
        (rotateStack [1, 0] 3 ⟨fun i => (i : Int) * i, 5⟩).stack
      = ((List.range (State.mk (fun i => (i : Int) * i) 5).stackSize).map
            (State.mk (fun i => (i : Int) * i) 5).stack).take
          ((State.mk (fun i => (i : Int) * i) 5).stackSize - 3)
        ++ (((List.range (State.mk (fun i => (i : Int) * i) 5).stackSize).map
              (State.mk (fun i => (i : Int) * i) 5).stack).drop
            ((State.mk (fun i => (i : Int) * i) 5).stackSize - 3)).rotate 1 ∧
    ((List.range (State.mk (fun i => (i : Int) * i) 5).stackSize).map
        (rotateStack [1, 0] 3 ⟨fun i => (i : Int) * i, 5⟩).stack).Perm
      ((List.range (State.mk (fun i => (i : Int) * i) 5).stackSize).map
        (State.mk (fun i => (i : Int) * i) 5).stack) ∧
    (3 = 1 → rotateStack [1, 0] 3 ⟨fun i => (i : Int) * i, 5⟩ = ⟨fun i => (i : Int) * i, 5⟩) :=
  C22_rotateStack_rotates ⟨fun i => (i : Int) * i, 5⟩ 3 [1, 0] (by decide) (by decide)
    (by decide)

end Cwk1

namespace DistributedCount

/-! ## The distributed count against the serial count -/

theorem forLoop_succ {σ : Type} (n : Nat) (body : Nat → σ → σ) (s : σ) :
    HeatEqn2.forLoop 0 (n + 1) body s = body n (HeatEqn2.forLoop 0 n body s) := by
  unfold HeatEqn2.forLoop
  rw [Nat.sub_zero, Nat.sub_zero, ← List.range_eq_range', ← List.range_eq_range',
    List.range_succ, List.foldl_append]
  rfl

theorem count_eq (size : Nat) (data : Nat → Int) :
    count size data = (List.range size).countP (fun i => decide (data i < 10)) := by
  induction size with
  | zero => rfl
  | succ n ih =>
    unfold count at ih ⊢
    rw [forLoop_succ, ih, List.range_succ, List.countP_append]
    by_cases h : data n < 10 <;> simp [h]

theorem count_add (a b : Nat) (data : Nat → Int) :
    count (a + b) data = count a data + count b (fun i => data (a + i)) := by
  rw [count_eq, count_eq, count_eq, List.range_add, List.countP_append, List.countP_map]
  rfl

/-- The counts of the segments add up to the count of the whole array. -/
theorem sum_of_counts (localSize : Nat) (data : Nat → Int) (numProcs : Nat) :
    HeatEqn2.forLoop 0 numProcs
        (fun p (total : Int) => total + (count localSize (scatter localSize data p) : Int)) 0
      = (count (numProcs * localSize) data : Int) := by
  induction numProcs with
  | zero =>
    rw [Nat.zero_mul]
    rfl
  | succ n ih =>
    rw [forLoop_succ, ih, Nat.succ_mul, count_add]
    push_cast
    rfl

theorem localSize_mul (N numProcs : Nat) (hp : 1 ≤ numProcs) :
    numProcs * localSize N numProcs = globalSize N numProcs := by
  unfold localSize globalSize
  rw [Nat.mul_div_cancel_left _ hp]

/-- Line 52 rounds `N` up to the next multiple of `numProcs`. -/
theorem globalSize_least (N numProcs : Nat) (hp : 1 ≤ numProcs) :
    numProcs ∣ globalSize N numProcs ∧ N ≤ globalSize N numProcs ∧
    ∀ m, numProcs ∣ m → N ≤ m → globalSize N numProcs ≤ m := by
  unfold globalSize
  refine ⟨Dvd.intro _ rfl, ?_, ?_⟩
  · have h1 := Nat.div_add_mod (N + numProcs - 1) numProcs
    have h2 := Nat.mod_lt (N + numProcs - 1) hp
    omega
  · rintro m ⟨k, rfl⟩ hm
    apply Nat.mul_le_mul_left
    rw [Nat.div_le_iff_le_mul_add_pred hp]
    have : numProcs * k + (numProcs - 1) = N + numProcs - 1 + (numProcs * k - N) := by omega
    omega

/-- When `localData` has room for the counts of all processes, the two numbers rank 0
prints are both the number of elements below 10 in the whole array. -/
theorem main_agrees (N numProcs : Nat) (globalData : Nat → Int) (hp : 1 ≤ numProcs)
    (hroom : numProcs ≤ localSize N numProcs) :
    main N numProcs globalData
      = some ((count (globalSize N numProcs) globalData : Int),
          (count (globalSize N numProcs) globalData : Int)) := by
  unfold main gather
  simp only [if_pos hroom]
  have h : total numProcs (fun p => if p < numProcs then
      ((count (localSize N numProcs) (scatter (localSize N numProcs) globalData p) : Nat) : Int)
      else scatter (localSize N numProcs) globalData 0 p)
      = (count (globalSize N numProcs) globalData : Int) := by
    rw [← localSize_mul N numProcs hp, ← sum_of_counts]
    unfold total HeatEqn2.forLoop
    apply List.foldl_ext
    intro acc p hp'
    rw [List.mem_range'_1] at hp'
    have hlt : p < numProcs := by omega
    dsimp only
    rw [if_pos hlt]
  rw [h]

theorem main_overrun (N numProcs : Nat) (globalData : Nat → Int)
    (h : localSize N numProcs < numProcs) : main N numProcs globalData = none := by
  unfold main gather
  simp only [if_neg (show ¬ numProcs ≤ localSize N numProcs by omega)]

/-- With `N` as compiled, up to 3162 processes `localData` has room for one count per
process, and no size reaches the range limit of `int`. -/
theorem room_up_to_3162 (numProcs : Nat) (hp : 1 ≤ numProcs) (h : numProcs ≤ 3162) :
    numProcs ≤ localSize N numProcs ∧ globalSize N numProcs < 2 ^ 31 := by
  have hg := localSize_mul N numProcs hp
  have hl : localSize N numProcs = (N + numProcs - 1) / numProcs := by
    unfold localSize globalSize
    rw [Nat.mul_div_cancel_left _ hp]
  have h1 : numProcs * numProcs ≤ 3162 * 3162 := Nat.mul_le_mul h h
  have hN : N = 9999999 := rfl
  constructor
  · rw [hl, Nat.le_div_iff_mul_le hp]
    omega
  · have h2 : globalSize N numProcs ≤ N + numProcs - 1 := by
      unfold globalSize
      exact Nat.mul_div_le _ _
    omega

/-- C23 (distributedCount.c, lines 52, 85, 99 and 133-178). Line 52 makes `globalSize`
the smallest multiple of `numProcs` that is at least `N`, and the counts of the
`numProcs` segments of `localSize` elements add up to the serial count of the whole
array. Rank 0 obtains these counts with `MPI_Gather` into `localData`, an array of
`localSize` elements: when `numProcs ≤ localSize` (with `N = 9999999`, for every
`numProcs` from 1 to 3162) the printed total equals the printed serial count; with 3163
processes `localSize` is 3162 and the gather writes 3163 counts into it, beyond the end
of the allocated array, whatever the data. -/
theorem C23_gather_overruns_localData :
    (∀ N numProcs, 1 ≤ numProcs →
      numProcs ∣ globalSize N numProcs ∧ N ≤ globalSize N numProcs ∧
      (∀ m, numProcs ∣ m → N ≤ m → globalSize N numProcs ≤ m) ∧
      globalSize N numProcs = numProcs * localSize N numProcs) ∧
    (∀ numProcs localSize (globalData : Nat → Int),
      HeatEqn2.forLoop 0 numProcs
          (fun p (total : Int) =>
            total + (count localSize (scatter localSize globalData p) : Int)) 0
        = (count (numProcs * localSize) globalData : Int)) ∧
    (∀ N numProcs (globalData : Nat → Int), 1 ≤ numProcs →
      numProcs ≤ localSize N numProcs →
      main N numProcs globalData
        = some ((count (globalSize N numProcs) globalData : Int),
            (count (globalSize N numProcs) globalData : Int))) ∧
    (∀ numProcs, 1 ≤ numProcs → numProcs ≤ 3162 →
      numProcs ≤ localSize N numProcs ∧ globalSize N numProcs < 2 ^ 31) ∧
    localSize N 3163 = 3162 ∧
    gather 3163 (localSize N 3163) (fun _ => 0) (fun _ => 0) = none ∧
    ∀ globalData : Nat → Int, main N 3163 globalData = none := by
  refine ⟨fun n numProcs hp => ?_, fun numProcs l d => sum_of_counts l d numProcs,
    fun n numProcs d hp hroom => main_agrees n numProcs d hp hroom,
    fun numProcs hp h => room_up_to_3162 numProcs hp h, by decide,
    by rw [gather, if_neg (by decide)],
    fun d => main_overrun N 3163 d (by decide)⟩
  obtain ⟨h1, h2, h3⟩ := globalSize_least n numProcs hp
  exact ⟨h1, h2, h3, (localSize_mul n numProcs hp).symm⟩

end DistributedCount
